import Mathlib

/-! # Fixed-block memory pool, pool-bound index queue and generic circular queue

A shallow embedding of `src/src/mempool.c` (with the configuration of
`src/include/mempool.h`: `MEMPOOL_ALIGNMENT = 64`, `MEMPOOL_MAX_BLOCKS = 256`,
hence `BITMAP_TYPE = uint64_t` and `BITMAP_WORDS = 4`) and of
`src/circular_queue.c` (with `CQ_BACKPRESSURE_EN = 1` of `src/circular_queue.h`).

Conventions of the embedding:

* `size_t` and `uint64_t` values are natural numbers below `2 ^ 64`; every
  arithmetic operation of the source that can wrap is written with an explicit
  reduction modulo `2 ^ 64` (`size_add`, `size_sub`, `size_mul`, `ptr_add`).
* Addresses are natural numbers; the null pointer is `0`.  A function of the
  source that returns a pointer-or-`NULL` returns an `Option Nat` here, `none`
  standing for `NULL`.
* The two bitmaps of a pool are lists of words (four words in every pool that
  `mempool_create` builds); `a[i]` is `List.getD a i 0` and `a[i] = v` is
  `List.set a i v`.
* A division of the source whose divisor can be zero is undefined behaviour in
  C; functions containing one return an `Option`, and `none` means that the
  division by zero was reached.
* The critical-section macros expand to nothing in `mempool.h`; they have no
  counterpart here.  Logging has no effect on the state and is left out.
-/

namespace Mempool

/-! ## Configuration (`mempool.h`) -/

/-- Memory alignment requirement, `MEMPOOL_ALIGNMENT`. -/
def MEMPOOL_ALIGNMENT : Nat := 64

/-- Largest supported number of blocks, `MEMPOOL_MAX_BLOCKS`. -/
def MEMPOOL_MAX_BLOCKS : Nat := 256

/-- Number of bitmap words, `BITMAP_WORDS` (4 because `MEMPOOL_MAX_BLOCKS <= 256`). -/
def BITMAP_WORDS : Nat := 4

/-- Bits in one bitmap word, `sizeof(BITMAP_TYPE)*8` with `BITMAP_TYPE = uint64_t`. -/
def BITMAP_BITS : Nat := 64

/-- Number of values of a `size_t`, a `uint64_t` and a pointer. -/
def SIZE_MOD : Nat := 2 ^ 64

/-! ## Machine arithmetic -/

/-- Addition of two `size_t` values. -/
def size_add (a b : Nat) : Nat := (a + b) % SIZE_MOD

/-- Subtraction of two `size_t` values (wraps below zero). -/
def size_sub (a b : Nat) : Nat := (a + SIZE_MOD - b % SIZE_MOD) % SIZE_MOD

/-- Multiplication of two `size_t` values. -/
def size_mul (a b : Nat) : Nat := (a * b) % SIZE_MOD

/-- Pointer plus byte offset, `p + off` on `uint8_t *`. -/
def ptr_add (p off : Nat) : Nat := (p + off) % SIZE_MOD

/-- Bitwise complement of a 64-bit word, `~w`. -/
def bit_not (w : Nat) : Nat := SIZE_MOD - 1 - w

/-- Conversion of an unsigned value to `int` (32 bits, two's complement). -/
def to_int (n : Nat) : Int :=
  if n % 2 ^ 32 < 2 ^ 31 then ((n % 2 ^ 32 : Nat) : Int) else ((n % 2 ^ 32 : Nat) : Int) - 2 ^ 32

/-- GCC builtin `__builtin_ffsll`: one plus the index of the least significant
set bit of a 64-bit word, or zero when the word is zero. -/
def builtin_ffsll (word : Nat) : Nat :=
  match (List.range 64).find? (fun i => word.testBit i) with
  | some i => i + 1
  | none => 0

/-- GCC builtin `__builtin_popcountll` behind `POPCOUNT_LL`: the number of set
bits among the 64 bits of a word. -/
def POPCOUNT_LL (x : Nat) : Nat :=
  (List.range 64).countP (fun i => x.testBit i)

/-- `find_first_set_bit` of `mempool.c`: `-1` for a zero word, otherwise
`__builtin_ffsll(word) - 1` (the branch taken for an 8-byte `BITMAP_TYPE`). -/
def find_first_set_bit (word : Nat) : Int :=
  if word = 0 then -1 else (builtin_ffsll word : Int) - 1

/-! ## The pool -/

/-- The control structure `mempool_t`. -/
structure mempool_t where
  /-- Base address of the arena. -/
  memory_area : Nat
  /-- Size of each block (after alignment). -/
  block_size : Nat
  /-- Actual number of blocks. -/
  block_count : Nat
  /-- Bitmap of free blocks, `BITMAP_WORDS` words. -/
  free_bitmap : List Nat
  /-- Bitmap of hardware-owned blocks, `BITMAP_WORDS` words. -/
  hw_owned_bitmap : List Nat
deriving DecidableEq, Repr

/-- `mempool_create(data_size, num_blocks)`.  The argument `base` is the
address returned by `MEMPOOL_MEMALIGN` for the arena (`0` when that allocation
fails); the allocation of the control structure is taken to succeed. -/
def mempool_create (base data_size num_blocks : Nat) : Option mempool_t :=
  if num_blocks = 0 ∨ num_blocks > MEMPOOL_MAX_BLOCKS then none
  else
    let aligned_size :=
      size_sub (size_add data_size MEMPOOL_ALIGNMENT) 1 &&& bit_not (MEMPOOL_ALIGNMENT - 1)
    if base = 0 then none
    else
      let free0 := List.replicate BITMAP_WORDS (SIZE_MOD - 1)
      let hw0 := List.replicate BITMAP_WORDS 0
      let free1 :=
        if num_blocks % BITMAP_BITS ≠ 0 then
          let used_bits := num_blocks % BITMAP_BITS
          let last_word := (num_blocks - 1) / BITMAP_BITS
          free0.set last_word (free0.getD last_word 0 &&& ((1 <<< used_bits) - 1))
        else free0
      some { memory_area := base, block_size := aligned_size, block_count := num_blocks,
             free_bitmap := free1, hw_owned_bitmap := hw0 }

/-- The loop of `mempool_alloc`: `n` iterations remain and `i` is the word
index of the current one. -/
def mempool_alloc_scan (pool : mempool_t) (for_hw : Bool) : Nat → Nat → mempool_t × Option Nat
  | 0, _ => (pool, none)
  | n + 1, i =>
    let word := pool.free_bitmap.getD i 0
    if word = 0 then mempool_alloc_scan pool for_hw n (i + 1)
    else
      let bit_pos := find_first_set_bit word
      if bit_pos < 0 then mempool_alloc_scan pool for_hw n (i + 1)
      else
        let block_idx := i * BITMAP_BITS + bit_pos.toNat
        if block_idx ≥ pool.block_count then mempool_alloc_scan pool for_hw n (i + 1)
        else
          let free1 :=
            pool.free_bitmap.set i (pool.free_bitmap.getD i 0 &&& bit_not (1 <<< bit_pos.toNat))
          let hw1 :=
            if for_hw then
              pool.hw_owned_bitmap.set i (pool.hw_owned_bitmap.getD i 0 ||| (1 <<< bit_pos.toNat))
            else pool.hw_owned_bitmap
          ({ pool with free_bitmap := free1, hw_owned_bitmap := hw1 },
            some (ptr_add pool.memory_area (size_mul block_idx pool.block_size)))

/-- `mempool_alloc(pool, for_hw)`: the new pool state and the returned block
address (`none` for `NULL`). -/
def mempool_alloc (pool : mempool_t) (for_hw : Bool) : mempool_t × Option Nat :=
  mempool_alloc_scan pool for_hw BITMAP_WORDS 0

/-- `mempool_free(pool, ptr)`: the new pool state; `none` if the division
`offset / pool->block_size` were reached with a zero `block_size`. -/
def mempool_free (pool : mempool_t) (ptr : Nat) : Option mempool_t :=
  if ptr = 0 then some pool
  else if ptr < pool.memory_area ∨
      ptr ≥ ptr_add pool.memory_area (size_mul pool.block_size pool.block_count) then some pool
  else
    let offset := ptr - pool.memory_area
    if pool.block_size = 0 then none
    else
      let block_idx := offset / pool.block_size
      if block_idx ≥ pool.block_count then some pool
      else
        let word_idx := block_idx / BITMAP_BITS
        let bit_pos := block_idx % BITMAP_BITS
        if pool.free_bitmap.getD word_idx 0 &&& (1 <<< bit_pos) ≠ 0 then some pool
        else
          let hw1 :=
            if pool.hw_owned_bitmap.getD word_idx 0 &&& (1 <<< bit_pos) ≠ 0 then
              pool.hw_owned_bitmap.set word_idx
                (pool.hw_owned_bitmap.getD word_idx 0 &&& bit_not (1 <<< bit_pos))
            else pool.hw_owned_bitmap
          some { pool with
            hw_owned_bitmap := hw1
            free_bitmap :=
              pool.free_bitmap.set word_idx (pool.free_bitmap.getD word_idx 0 ||| (1 <<< bit_pos)) }

/-- `mempool_available(pool)`: the sum of the population counts of the
`BITMAP_WORDS` words of `free_bitmap`. -/
def mempool_available (pool : mempool_t) : Nat :=
  (List.range BITMAP_WORDS).foldl (fun count i => size_add count (POPCOUNT_LL (pool.free_bitmap.getD i 0))) 0

/-- `mempool_used(pool)`: `block_count - mempool_available(pool)` in `size_t`. -/
def mempool_used (pool : mempool_t) : Nat :=
  size_sub pool.block_count (mempool_available pool)

/-! ## Sequences of pool operations -/

/-- One call on a pool: `mempool_alloc(pool, for_hw)` or `mempool_free(pool, ptr)`. -/
inductive pool_op where
  | alloc (for_hw : Bool)
  | free (ptr : Nat)
deriving DecidableEq, Repr

/-- The pool state after one call. -/
def pool_step (pool : mempool_t) : pool_op → Option mempool_t
  | pool_op.alloc for_hw => some (mempool_alloc pool for_hw).1
  | pool_op.free ptr => mempool_free pool ptr

/-- The pool state after a sequence of calls, first call first. -/
def pool_run (pool : mempool_t) : List pool_op → Option mempool_t
  | [] => some pool
  | op :: ops => (pool_step pool op).bind (fun p => pool_run p ops)

/-- States reachable from a pool built by `mempool_create` through calls of
`mempool_alloc` and `mempool_free`. -/
def pool_reachable (pool : mempool_t) : Prop :=
  ∃ base data_size num_blocks pool0 ops,
    mempool_create base data_size num_blocks = some pool0 ∧ pool_run pool0 ops = some pool

/-- Repeated `mempool_alloc`, one call per element of the list of `for_hw`
flags: the final state and the returned pointers in call order. -/
def alloc_many (pool : mempool_t) : List Bool → mempool_t × List (Option Nat)
  | [] => (pool, [])
  | for_hw :: rest =>
    let r := mempool_alloc pool for_hw
    let rs := alloc_many r.1 rest
    (rs.1, r.2 :: rs.2)

/-- Bit `i` of a bitmap: bit `i % 64` of word `i / 64`. -/
def bitmap_bit (bm : List Nat) (i : Nat) : Bool :=
  (bm.getD (i / BITMAP_BITS) 0).testBit (i % BITMAP_BITS)

/-- The shape every `mempool_t` has by its C type and by the check at the
head of `mempool_create`: `BITMAP_WORDS` 64-bit words per bitmap and at most
`MEMPOOL_MAX_BLOCKS` blocks. -/
def pool_wf (pool : mempool_t) : Prop :=
  pool.free_bitmap.length = BITMAP_WORDS ∧ pool.hw_owned_bitmap.length = BITMAP_WORDS ∧
  (∀ w ∈ pool.free_bitmap, w < SIZE_MOD) ∧ (∀ w ∈ pool.hw_owned_bitmap, w < SIZE_MOD) ∧
  pool.block_count ≤ MEMPOOL_MAX_BLOCKS

/-- The arena `[memory_area, memory_area + block_size * block_count)` lies
inside the 64-bit address space. -/
def arena_ok (pool : mempool_t) : Prop :=
  pool.memory_area + pool.block_size * pool.block_count < SIZE_MOD

/-- Ghost bookkeeping of the live allocations next to the pool state: an
address returned by `mempool_alloc` becomes live, and `mempool_free(pool, ptr)`
ends the life of the allocation whose bytes `[a, a + block_size)` contain `ptr`. -/
def live_step (s : mempool_t × List Nat) : pool_op → Option (mempool_t × List Nat)
  | pool_op.alloc for_hw =>
    let r := mempool_alloc s.1 for_hw
    match r.2 with
    | some a => some (r.1, s.2 ++ [a])
    | none => some (r.1, s.2)
  | pool_op.free ptr =>
    (mempool_free s.1 ptr).map
      (fun p => (p, s.2.filter (fun a => !(decide (a ≤ ptr) && decide (ptr < a + s.1.block_size)))))

/-- Ghost bookkeeping along a sequence of calls. -/
def live_run (s : mempool_t × List Nat) : List pool_op → Option (mempool_t × List Nat)
  | [] => some s
  | op :: ops => (live_step s op).bind (fun t => live_run t ops)

/-- No two addresses of the list alias: they are distinct and their byte
ranges of `size` bytes do not overlap. -/
def no_alias (size : Nat) (live : List Nat) : Prop :=
  live.Pairwise (fun a b => a ≠ b ∧ (a + size ≤ b ∨ b + size ≤ a))

/-! ## The pool-bound index queue -/

/-- The structure `mempool_queue_t`.  The field `pool` stands for the pointer
to the bound pool, of which the queue functions read `memory_area`,
`block_size` and `block_count` only; the link field `next` is never read or
written after creation and is left out. -/
structure mempool_queue_t where
  /-- The bound pool. -/
  pool : mempool_t
  /-- The ring of block indices (`uint16_t`), `capacity` slots. -/
  block_indices : List Nat
  /-- Number of slots of the ring. -/
  capacity : Nat
  /-- Slot of the oldest entry. -/
  head : Nat
  /-- Slot the next entry is written to. -/
  tail : Nat
  /-- Number of entries. -/
  count : Nat
  /-- Membership bitmap, `BITMAP_WORDS` words. -/
  queue_bitmap : List Nat
deriving DecidableEq, Repr

/-- `get_block_index(pool, buffer)`: `-1` for a null or out-of-range buffer,
otherwise `(int)(offset / pool->block_size)`; `none` if that division were
reached with a zero `block_size`. -/
def get_block_index (pool : mempool_t) (buffer : Nat) : Option Int :=
  if buffer = 0 then some (-1)
  else
    let offset := size_sub buffer pool.memory_area
    if offset ≥ size_mul pool.block_size pool.block_count then some (-1)
    else if pool.block_size = 0 then none
    else some (to_int (offset / pool.block_size))

/-- `mempool_queue_create(pool, capacity)`.  The ring comes from `malloc` and
is not initialised: `ring0 i` is whatever slot `i` holds at that moment. -/
def mempool_queue_create (pool : mempool_t) (capacity : Nat) (ring0 : Nat → Nat) :
    Option mempool_queue_t :=
  if capacity = 0 ∨ capacity > pool.block_count then none
  else
    some { pool := pool, block_indices := (List.range capacity).map ring0, capacity := capacity,
           head := 0, tail := 0, count := 0, queue_bitmap := List.replicate BITMAP_WORDS 0 }

/-- `mempool_queue_enqueue(queue, buffer)`: the new queue state and the
returned code (`0` or `-1`); `none` if `get_block_index` divides by zero. -/
def mempool_queue_enqueue (queue : mempool_queue_t) (buffer : Nat) :
    Option (mempool_queue_t × Int) :=
  if buffer = 0 ∨ queue.count ≥ queue.capacity then some (queue, -1)
  else
    match get_block_index queue.pool buffer with
    | none => none
    | some block_idx =>
      if block_idx < 0 ∨ block_idx.toNat ≥ queue.pool.block_count then some (queue, -1)
      else
        let word_idx := block_idx.toNat / BITMAP_BITS
        let bit_pos := block_idx.toNat % BITMAP_BITS
        if queue.queue_bitmap.getD word_idx 0 &&& (1 <<< bit_pos) ≠ 0 then some (queue, -1)
        else
          some ({ queue with
                  block_indices := queue.block_indices.set queue.tail (block_idx.toNat % 2 ^ 16)
                  tail := size_add queue.tail 1 % queue.capacity
                  count := size_add queue.count 1
                  queue_bitmap :=
                    queue.queue_bitmap.set word_idx
                      (queue.queue_bitmap.getD word_idx 0 ||| (1 <<< bit_pos)) }, 0)

/-- `mempool_queue_dequeue(queue)`: the new queue state and the returned block
address (`none` for `NULL`). -/
def mempool_queue_dequeue (queue : mempool_queue_t) : mempool_queue_t × Option Nat :=
  if queue.count = 0 then (queue, none)
  else
    let block_idx := queue.block_indices.getD queue.head 0
    let word_idx := block_idx / BITMAP_BITS
    let bit_pos := block_idx % BITMAP_BITS
    ({ queue with
       head := size_add queue.head 1 % queue.capacity
       count := size_sub queue.count 1
       queue_bitmap :=
         queue.queue_bitmap.set word_idx
           (queue.queue_bitmap.getD word_idx 0 &&& bit_not (1 <<< bit_pos)) },
      some (ptr_add queue.pool.memory_area (size_mul block_idx queue.pool.block_size)))

/-- `mempool_queue_peek(queue)`: the address of the head block (`none` for
`NULL`); the queue is not written. -/
def mempool_queue_peek (queue : mempool_queue_t) : Option Nat :=
  if queue.count = 0 then none
  else
    let block_idx := queue.block_indices.getD queue.head 0
    some (ptr_add queue.pool.memory_area (size_mul block_idx queue.pool.block_size))

/-- The loop of `mempool_queue_dequeue_batch`: `n` iterations remain, `out`
holds the addresses written to `buffers[0 .. i)` so far. -/
def dequeue_batch_loop (queue : mempool_queue_t) : Nat → List Nat → mempool_queue_t × List Nat
  | 0, out => (queue, out)
  | n + 1, out =>
    let block_idx := queue.block_indices.getD queue.head 0
    let word_idx := block_idx / BITMAP_BITS
    let bit_pos := block_idx % BITMAP_BITS
    dequeue_batch_loop
      { queue with
        head := size_add queue.head 1 % queue.capacity
        queue_bitmap :=
          queue.queue_bitmap.set word_idx
            (queue.queue_bitmap.getD word_idx 0 &&& bit_not (1 <<< bit_pos)) }
      n (out ++ [ptr_add queue.pool.memory_area (size_mul block_idx queue.pool.block_size)])

/-- `mempool_queue_dequeue_batch(queue, buffers, max_count)` with a non-null
`buffers`: the new queue state, the addresses written to `buffers[0 ..]` in
order, and the returned count. -/
def mempool_queue_dequeue_batch (queue : mempool_queue_t) (max_count : Nat) :
    mempool_queue_t × List Nat × Nat :=
  if max_count = 0 then (queue, [], 0)
  else
    let actual_count := min queue.count max_count
    let r := dequeue_batch_loop queue actual_count []
    ({ r.1 with count := size_sub r.1.count actual_count }, r.2, actual_count)

/-- `mempool_queue_count(queue)`. -/
def mempool_queue_count (queue : mempool_queue_t) : Nat := queue.count

/-- `mempool_queue_is_empty(queue)`. -/
def mempool_queue_is_empty (queue : mempool_queue_t) : Bool := decide (queue.count = 0)

/-- `mempool_queue_is_full(queue)`. -/
def mempool_queue_is_full (queue : mempool_queue_t) : Bool := decide (queue.count ≥ queue.capacity)

/-- Successive `mempool_queue_enqueue` calls, one per buffer of the list: the
final queue state and the returned codes in call order. -/
def enqueue_all (queue : mempool_queue_t) : List Nat → Option (mempool_queue_t × List Int)
  | [] => some (queue, [])
  | b :: bs =>
    (mempool_queue_enqueue queue b).bind (fun r =>
      (enqueue_all r.1 bs).map (fun rs => (rs.1, r.2 :: rs.2)))

/-- One call on a queue. -/
inductive queue_op where
  | enqueue (buffer : Nat)
  | dequeue
  | peek
  | dequeue_batch (max_count : Nat)
deriving DecidableEq, Repr

/-- The queue state after one call. -/
def queue_step (queue : mempool_queue_t) : queue_op → Option mempool_queue_t
  | queue_op.enqueue buffer => (mempool_queue_enqueue queue buffer).map (fun r => r.1)
  | queue_op.dequeue => some (mempool_queue_dequeue queue).1
  | queue_op.peek => some queue
  | queue_op.dequeue_batch max_count => some (mempool_queue_dequeue_batch queue max_count).1

/-- The queue state after a sequence of calls, first call first. -/
def queue_run (queue : mempool_queue_t) : List queue_op → Option mempool_queue_t
  | [] => some queue
  | op :: ops => (queue_step queue op).bind (fun q => queue_run q ops)

/-- The shape every `mempool_queue_t` has by its C type, bound to a pool with
at most `MEMPOOL_MAX_BLOCKS` blocks. -/
def queue_wf (queue : mempool_queue_t) : Prop :=
  queue.queue_bitmap.length = BITMAP_WORDS ∧ queue.pool.block_count ≤ MEMPOOL_MAX_BLOCKS

/-! ## States and invariants used in the statements -/

/-- The pool state after `mempool_alloc` has handed out block `m`: bit `m` of
`free_bitmap` cleared and, for a hardware allocation, bit `m` of
`hw_owned_bitmap` set. -/
def alloc_mark (pool : mempool_t) (for_hw : Bool) (m : Nat) : mempool_t :=
  { pool with
    free_bitmap :=
      pool.free_bitmap.set (m / BITMAP_BITS)
        (pool.free_bitmap.getD (m / BITMAP_BITS) 0 &&& bit_not (1 <<< (m % BITMAP_BITS)))
    hw_owned_bitmap :=
      if for_hw then
        pool.hw_owned_bitmap.set (m / BITMAP_BITS)
          (pool.hw_owned_bitmap.getD (m / BITMAP_BITS) 0 ||| (1 <<< (m % BITMAP_BITS)))
      else pool.hw_owned_bitmap }

/-- The pool state after `mempool_free` has released block `i`: bit `i` of
`hw_owned_bitmap` cleared if it was set, and bit `i` of `free_bitmap` set. -/
def free_mark (pool : mempool_t) (i : Nat) : mempool_t :=
  { pool with
    hw_owned_bitmap :=
      if pool.hw_owned_bitmap.getD (i / BITMAP_BITS) 0 &&& (1 <<< (i % BITMAP_BITS)) ≠ 0 then
        pool.hw_owned_bitmap.set (i / BITMAP_BITS)
          (pool.hw_owned_bitmap.getD (i / BITMAP_BITS) 0 &&& bit_not (1 <<< (i % BITMAP_BITS)))
      else pool.hw_owned_bitmap
    free_bitmap :=
      pool.free_bitmap.set (i / BITMAP_BITS)
        (pool.free_bitmap.getD (i / BITMAP_BITS) 0 ||| (1 <<< (i % BITMAP_BITS))) }

/-- The pool `mempool_create(64, 8)` builds when the arena is allocated at
address 4096: 8 blocks of 64 bytes. -/
def pool8 : mempool_t :=
  { memory_area := 4096, block_size := 64, block_count := 8,
    free_bitmap := [255, 2 ^ 64 - 1, 2 ^ 64 - 1, 2 ^ 64 - 1],
    hw_owned_bitmap := [0, 0, 0, 0] }

/-- The pool `pool8` after one `mempool_alloc(pool, false)`: block 0 is allocated. -/
def pool8_one_allocated : mempool_t :=
  { memory_area := 4096, block_size := 64, block_count := 8,
    free_bitmap := [254, 2 ^ 64 - 1, 2 ^ 64 - 1, 2 ^ 64 - 1],
    hw_owned_bitmap := [0, 0, 0, 0] }

/-- The pool `mempool_create(100, 8)` builds when the arena is allocated at
address 4096: 8 blocks of 128 bytes. -/
def pool8_data100 : mempool_t :=
  { memory_area := 4096, block_size := 128, block_count := 8,
    free_bitmap := [255, 2 ^ 64 - 1, 2 ^ 64 - 1, 2 ^ 64 - 1],
    hw_owned_bitmap := [0, 0, 0, 0] }

/-- The entries of the ring, oldest first: the `count` slots starting at `head`. -/
def ring_entries (queue : mempool_queue_t) : List Nat :=
  (List.range queue.count).map
    (fun j => queue.block_indices.getD ((queue.head + j) % queue.capacity) 0)

/-- The invariants of a queue: (1) `count <= capacity`; (2) `head` and `tail`
are slots of the ring and `tail = (head + count) mod capacity`; (3) the ring
entries are pairwise distinct block indices below `block_count`; (4) the
membership bit of an index is set exactly when the index is a ring entry. -/
def queue_inv (queue : mempool_queue_t) : Prop :=
  queue.count ≤ queue.capacity ∧
  (queue.head < queue.capacity ∧ queue.tail < queue.capacity ∧
    queue.tail = (queue.head + queue.count) % queue.capacity) ∧
  ((ring_entries queue).Nodup ∧ ∀ i ∈ ring_entries queue, i < queue.pool.block_count) ∧
  (∀ i, bitmap_bit queue.queue_bitmap i = true ↔ i ∈ ring_entries queue)

/-- The shape of a queue built by `mempool_queue_create`: a ring of `capacity`
slots, `capacity` at most the `block_count` of the bound pool, and the shape
`queue_wf`. -/
def queue_shape (queue : mempool_queue_t) : Prop :=
  queue_wf queue ∧ queue.block_indices.length = queue.capacity ∧
  queue.capacity ≤ queue.pool.block_count

/-- A queue of capacity 4 over `pool8`, as `mempool_queue_create` builds it
when every slot of the fresh ring holds 7. -/
def queue4 : mempool_queue_t :=
  { pool := pool8, block_indices := [7, 7, 7, 7], capacity := 4, head := 0, tail := 0,
    count := 0, queue_bitmap := [0, 0, 0, 0] }

/-- The queue `queue4` after `mempool_queue_enqueue` of the block at index 0. -/
def queue4_one : mempool_queue_t :=
  { pool := pool8, block_indices := [0, 7, 7, 7], capacity := 4, head := 0, tail := 1,
    count := 1, queue_bitmap := [1, 0, 0, 0] }

/-- The queue state after a successful `mempool_queue_enqueue` of block `idx`:
the index stored at `tail` (as `uint16_t`), `tail` advanced modulo `capacity`,
`count` incremented and the membership bit of `idx` set. -/
def enqueue_mark (queue : mempool_queue_t) (idx : Nat) : mempool_queue_t :=
  { queue with
    block_indices := queue.block_indices.set queue.tail (idx % 2 ^ 16)
    tail := size_add queue.tail 1 % queue.capacity
    count := size_add queue.count 1
    queue_bitmap :=
      queue.queue_bitmap.set (idx / BITMAP_BITS)
        (queue.queue_bitmap.getD (idx / BITMAP_BITS) 0 ||| (1 <<< (idx % BITMAP_BITS))) }

/-- Successive `mempool_queue_dequeue` calls: the final queue state and the
returned pointers in call order. -/
def dequeue_many (queue : mempool_queue_t) : Nat → mempool_queue_t × List (Option Nat)
  | 0 => (queue, [])
  | n + 1 =>
    let r := mempool_queue_dequeue queue
    let rs := dequeue_many r.1 n
    (rs.1, r.2 :: rs.2)

/-- The ring step shared by `mempool_queue_dequeue` and one iteration of
`mempool_queue_dequeue_batch`: `head` advanced modulo `capacity` and the
membership bit of the head entry cleared (`count` is not touched). -/
def dequeue_advance (queue : mempool_queue_t) : mempool_queue_t :=
  { queue with
    head := size_add queue.head 1 % queue.capacity
    queue_bitmap :=
      queue.queue_bitmap.set (queue.block_indices.getD queue.head 0 / BITMAP_BITS)
        (queue.queue_bitmap.getD (queue.block_indices.getD queue.head 0 / BITMAP_BITS) 0 &&&
          bit_not (1 <<< (queue.block_indices.getD queue.head 0 % BITMAP_BITS))) }

/-- The address of the block whose index is stored at `head`. -/
def head_block (queue : mempool_queue_t) : Nat :=
  ptr_add queue.pool.memory_area
    (size_mul (queue.block_indices.getD queue.head 0) queue.pool.block_size)

/-- The queue `queue4` after three enqueues (blocks 0, 1, 2) and a
`mempool_queue_dequeue_batch` of 3: empty again, with `head` and `tail` at the
last slot, so that the next three enqueues wrap around the ring. -/
def queue4_wrapped : mempool_queue_t :=
  { pool := pool8, block_indices := [0, 1, 2, 7], capacity := 4, head := 3, tail := 3,
    count := 0, queue_bitmap := [0, 0, 0, 0] }

/-- The queue `queue4` after three enqueues (blocks 0, 1, 2). -/
def queue4_three : mempool_queue_t :=
  { pool := pool8, block_indices := [0, 1, 2, 7], capacity := 4, head := 0, tail := 3,
    count := 3, queue_bitmap := [7, 0, 0, 0] }

/-! ## The generic circular queue (`circular_queue.c`)

Configuration of `circular_queue.h`: `CQ_BACKPRESSURE_EN = 1`, so the
backpressure fields and code are present.  `head`, `tail`, `size_mask` and the
two watermarks are `uint8_t`; expressions over them are computed in `int` and
converted back with `to_u8`.  Payload pointers and lengths are natural numbers. -/

/-- Default queue size, `CQ_DEFAULT_SIZE`. -/
def CQ_DEFAULT_SIZE : Nat := 8

/-- Conversion of an `int` value to `uint8_t`. -/
def to_u8 (n : Nat) : Nat := n % 256

/-- The `int` expression `(a - b) & mask` for `uint8_t` operands: the
difference may be negative, and the AND with the non-negative `mask` keeps the
low bits of its 32-bit two's complement pattern. -/
def int_sub_and (a b mask : Nat) : Nat := ((a + 2 ^ 32 - b) % 2 ^ 32) &&& mask

/-- The structure `struct cqueue_s`: the two parallel arrays carved out of the
caller's memory, the indices, the mask and the backpressure state. -/
structure cqueue_s where
  /-- Payload pointers, one per slot. -/
  buffers : List Nat
  /-- Payload lengths, one per slot. -/
  lengths : List Nat
  /-- Slot of the oldest entry. -/
  head : Nat
  /-- Slot the next entry is written to. -/
  tail : Nat
  /-- The mask `size - 1`. -/
  size_mask : Nat
  /-- The sticky backpressure flag. -/
  backpressure : Bool
  /-- Usage at which the flag is raised. -/
  watermark_high : Nat
  /-- Usage at which the flag is cleared. -/
  watermark_low : Nat
deriving DecidableEq, Repr

/-- `cq_create_static(buf_mem, len_mem, size)`.  The arrays lie in the caller's
memory and are not initialised: `buf0 i` and `len0 i` are whatever slot `i`
holds at that moment.  `size` is a `uint8_t` value. -/
def cq_create_static (buf0 len0 : Nat → Nat) (size : Nat) : cqueue_s :=
  { buffers := (List.range size).map buf0, lengths := (List.range size).map len0,
    head := 0, tail := 0, size_mask := to_u8 (size + 256 - 1), backpressure := false,
    watermark_high := to_u8 (size * 3 / 4), watermark_low := to_u8 (size / 4) }

/-- `cq_enqueue(handle, data, len)`: the new queue state and the returned code
(`0`, or `-1` when the queue is full). -/
def cq_enqueue (q : cqueue_s) (data len : Nat) : cqueue_s × Int :=
  let next_tail := to_u8 ((q.tail + 1) &&& q.size_mask)
  if next_tail = q.head then ({ q with backpressure := true }, -1)
  else
    let q1 : cqueue_s :=
      { q with
        buffers := q.buffers.set q.tail data
        lengths := q.lengths.set q.tail len
        tail := next_tail }
    let used := to_u8 (int_sub_and q1.tail q1.head q1.size_mask)
    (if used ≥ q1.watermark_high then { q1 with backpressure := true } else q1, 0)

/-- `cq_dequeue(handle, data, len)`: the new queue state, the returned code
(`0`, or `-1` when the queue is empty) and the pair written to `*data` and
`*len` (`none` when nothing is written). -/
def cq_dequeue (q : cqueue_s) : cqueue_s × Int × Option (Nat × Nat) :=
  if q.head = q.tail then (q, -1, none)
  else
    let data := q.buffers.getD q.head 0
    let len := q.lengths.getD q.head 0
    let q1 : cqueue_s := { q with head := to_u8 ((q.head + 1) &&& q.size_mask) }
    let used := to_u8 (int_sub_and q1.tail q1.head q1.size_mask)
    (if q1.backpressure = true ∧ used ≤ q1.watermark_low then { q1 with backpressure := false }
      else q1, 0, some (data, len))

/-- `cq_get_backpressure(handle)`. -/
def cq_get_backpressure (q : cqueue_s) : Bool := q.backpressure

/-- One call on a circular queue. -/
inductive cq_op where
  | enqueue (data len : Nat)
  | dequeue
deriving DecidableEq, Repr

/-- The queue state after one call, the returned code and the pair a
successful dequeue writes. -/
def cq_step (q : cqueue_s) : cq_op → cqueue_s × Int × Option (Nat × Nat)
  | cq_op.enqueue data len => ((cq_enqueue q data len).1, (cq_enqueue q data len).2, none)
  | cq_op.dequeue => cq_dequeue q

/-- The queue state after a sequence of calls and the results in call order. -/
def cq_run (q : cqueue_s) : List cq_op → cqueue_s × List (Int × Option (Nat × Nat))
  | [] => (q, [])
  | op :: ops =>
    let r := cq_step q op
    let rs := cq_run r.1 ops
    (rs.1, r.2 :: rs.2)

/-- The usage `(tail - head) mod size` of a queue of `size` slots. -/
def cq_used (size : Nat) (q : cqueue_s) : Nat :=
  (((q.tail : Int) - (q.head : Int)) % (size : Int)).toNat

/-- The bounded FIFO list the circular queue is compared with, following the
words of the claim: enqueue on a list of `cap` elements returns `-1`, otherwise
it appends the pair and returns `0`. -/
def fifo_enqueue (cap : Nat) (l : List (Nat × Nat)) (x : Nat × Nat) : List (Nat × Nat) × Int :=
  if l.length = cap then (l, -1) else (l ++ [x], 0)

/-- The bounded FIFO list: dequeue on the empty list returns `-1`, otherwise
it removes the oldest pair, returns `0` and outputs the pair. -/
def fifo_dequeue : List (Nat × Nat) → List (Nat × Nat) × Int × Option (Nat × Nat)
  | [] => ([], -1, none)
  | x :: rest => (rest, 0, some x)

/-- One call on the bounded FIFO list. -/
def fifo_step (cap : Nat) (l : List (Nat × Nat)) :
    cq_op → List (Nat × Nat) × Int × Option (Nat × Nat)
  | cq_op.enqueue data len =>
    ((fifo_enqueue cap l (data, len)).1, (fifo_enqueue cap l (data, len)).2, none)
  | cq_op.dequeue => fifo_dequeue l

/-- The bounded FIFO list after a sequence of calls and the results in call order. -/
def fifo_run (cap : Nat) (l : List (Nat × Nat)) :
    List cq_op → List (Nat × Nat) × List (Int × Option (Nat × Nat))
  | [] => (l, [])
  | op :: ops =>
    let r := fifo_step cap l op
    let rs := fifo_run cap r.1 ops
    (rs.1, r.2 :: rs.2)

/-- The sizes a `uint8_t` can hold that are powers of two: 1, 2, 4, ..., 128. -/
def cq_size_ok (size : Nat) : Prop :=
  size = 1 ∨ size = 2 ∨ size = 4 ∨ size = 8 ∨ size = 16 ∨ size = 32 ∨ size = 64 ∨ size = 128

/-- The `n` entries of the ring starting at `head`, oldest first. -/
def cq_entries (size : Nat) (q : cqueue_s) (n : Nat) : List (Nat × Nat) :=
  (List.range n).map (fun j =>
    (q.buffers.getD ((q.head + j) % size) 0, q.lengths.getD ((q.head + j) % size) 0))

/-- The circular queue `q` of `size` slots represents the list `l`: the shape
`cq_create_static` gives it, `tail` is `l.length` slots after `head`, and the
slots from `head` on hold the elements of `l`. -/
def cq_rel (size : Nat) (q : cqueue_s) (l : List (Nat × Nat)) : Prop :=
  cq_size_ok size ∧ q.size_mask = size - 1 ∧ q.head < size ∧ q.tail < size ∧
  q.buffers.length = size ∧ q.lengths.length = size ∧
  q.watermark_high = size * 3 / 4 ∧ q.watermark_low = size / 4 ∧
  l.length < size ∧ q.tail = (q.head + l.length) % size ∧ l = cq_entries size q l.length

/-- A fresh circular queue of 8 slots (`watermark_high = 6`, `watermark_low = 2`). -/
def cq8 : cqueue_s := cq_create_static (fun _ => 0) (fun _ => 0) (2 ^ 3)

/-- Six `cq_enqueue` calls. -/
def cq_six_enqueues : List cq_op :=
  [cq_op.enqueue 11 1, cq_op.enqueue 12 2, cq_op.enqueue 13 3, cq_op.enqueue 14 4,
    cq_op.enqueue 15 5, cq_op.enqueue 16 6]

/-- The queue `queue4` after `mempool_queue_enqueue` of a pointer into block 1. -/
def queue4_block1 : mempool_queue_t :=
  { pool := pool8, block_indices := [1, 7, 7, 7], capacity := 4, head := 0, tail := 1,
    count := 1, queue_bitmap := [2, 0, 0, 0] }

/-- The pool `mempool_create` builds at base 4096 for `data_size = 0` and two
blocks: `block_size` is 0. -/
def pool2_data0 : mempool_t :=
  { memory_area := 4096, block_size := 0, block_count := 2,
    free_bitmap := [3, SIZE_MOD - 1, SIZE_MOD - 1, SIZE_MOD - 1],
    hw_owned_bitmap := [0, 0, 0, 0] }

/-- A fresh queue of capacity 2 bound to `pool2_data0`. -/
def queue2_data0 : mempool_queue_t :=
  { pool := pool2_data0, block_indices := [7, 7], capacity := 2, head := 0, tail := 0,
    count := 0, queue_bitmap := [0, 0, 0, 0] }

/-- Whether a queue call removes entries: `mempool_queue_dequeue` and
`mempool_queue_dequeue_batch` do, `mempool_queue_enqueue` and
`mempool_queue_peek` do not. -/
def is_dequeue_op : queue_op → Bool
  | queue_op.enqueue _ => false
  | queue_op.dequeue => true
  | queue_op.peek => false
  | queue_op.dequeue_batch _ => true

/-- The queue `queue4` holding blocks 0 and 1. -/
def queue4_two : mempool_queue_t :=
  { pool := pool8, block_indices := [0, 1, 7, 7], capacity := 4, head := 0, tail := 2,
    count := 2, queue_bitmap := [3, 0, 0, 0] }

/-! # Theorems -/

/-! ## Bit-level facts -/

theorem testBit_one_shiftLeft (b i : Nat) : (1 <<< b).testBit i = decide (b = i) := by
  rw [Nat.one_shiftLeft, Nat.testBit_two_pow]

theorem and_mask_ne_zero_iff (w b : Nat) : w &&& (1 <<< b) ≠ 0 ↔ w.testBit b = true := by
  constructor
  · intro h
    by_contra hb
    apply h
    apply Nat.eq_of_testBit_eq
    intro i
    rw [Nat.testBit_and, testBit_one_shiftLeft, Nat.zero_testBit]
    by_cases hbi : b = i
    · subst hbi; simp [hb]
    · simp [hbi]
  · intro h h0
    have : (w &&& (1 <<< b)).testBit b = true := by
      rw [Nat.testBit_and, testBit_one_shiftLeft]; simp [h]
    rw [h0, Nat.zero_testBit] at this
    exact Bool.false_ne_true this

theorem testBit_set_bit (w b i : Nat) :
    (w ||| (1 <<< b)).testBit i = (w.testBit i || decide (b = i)) := by
  rw [Nat.testBit_or, testBit_one_shiftLeft]

theorem testBit_clear_bit (w b i : Nat) (hb : b < 64) :
    (w &&& bit_not (1 <<< b)).testBit i = (w.testBit i && (decide (i < 64) && !decide (b = i))) := by
  have hlt : (2 : Nat) ^ b < 2 ^ 64 := Nat.pow_lt_pow_right (by norm_num) hb
  have e : bit_not (1 <<< b) = 2 ^ 64 - (2 ^ b + 1) := by
    rw [Nat.one_shiftLeft]; unfold bit_not SIZE_MOD; omega
  rw [Nat.testBit_and, e, Nat.testBit_two_pow_sub_succ hlt, Nat.testBit_two_pow]

theorem testBit_of_lt_word (w i : Nat) (hw : w < 2 ^ 64) (hi : 64 ≤ i) : w.testBit i = false := by
  apply Nat.testBit_lt_two_pow
  exact lt_of_lt_of_le hw (Nat.pow_le_pow_right (by norm_num) hi)

theorem set_bit_lt (w b : Nat) (hw : w < 2 ^ 64) (hb : b < 64) : w ||| (1 <<< b) < 2 ^ 64 := by
  apply Nat.lt_pow_two_of_testBit
  intro i hi
  rw [testBit_set_bit, testBit_of_lt_word w i hw hi]
  have : b ≠ i := by omega
  simp [this]

theorem clear_bit_lt (w b : Nat) (hb : b < 64) : w &&& bit_not (1 <<< b) < 2 ^ 64 := by
  apply Nat.lt_pow_two_of_testBit
  intro i hi
  rw [testBit_clear_bit w b i hb]
  have : ¬ i < 64 := by omega
  simp [this]

theorem find?_range' (p : Nat → Bool) (n : Nat) : ∀ (s b : Nat), s ≤ b → b < s + n → p b = true →
    (∀ j, s ≤ j → j < b → p j = false) → (List.range' s n).find? p = some b := by
  induction n with
  | zero => intro s b h1 h2; omega
  | succ n ih =>
    intro s b h1 h2 hp hmin
    rw [List.range'_succ]
    by_cases hsb : s = b
    · subst hsb; simp [hp]
    · have hs : p s = false := hmin s le_rfl (by omega)
      rw [List.find?_cons_of_neg _ (by simp [hs])]
      exact ih (s + 1) b (by omega) (by omega) hp (fun j hj1 hj2 => hmin j (by omega) hj2)

theorem builtin_ffsll_eq (w b : Nat) (hb : b < 64) (hset : w.testBit b = true)
    (hmin : ∀ j, j < b → w.testBit j = false) : builtin_ffsll w = b + 1 := by
  unfold builtin_ffsll
  rw [List.range_eq_range', find?_range' (fun i => w.testBit i) 64 0 b (by omega) (by omega) hset
    (fun j _ hj => hmin j hj)]

theorem find_first_set_bit_eq (w b : Nat) (hb : b < 64) (hset : w.testBit b = true)
    (hmin : ∀ j, j < b → w.testBit j = false) : find_first_set_bit w = (b : Int) := by
  unfold find_first_set_bit
  have hw : w ≠ 0 := by
    intro h; rw [h, Nat.zero_testBit] at hset; exact Bool.false_ne_true hset
  rw [if_neg hw, builtin_ffsll_eq w b hb hset hmin]
  push_cast; ring

theorem word_eq_zero_of_bits (w : Nat) (hw : w < 2 ^ 64) (h : ∀ j, j < 64 → w.testBit j = false) :
    w = 0 := by
  apply Nat.eq_of_testBit_eq
  intro i
  rw [Nat.zero_testBit]
  by_cases hi : i < 64
  · exact h i hi
  · exact testBit_of_lt_word w i hw (by omega)

/-! ## Bitmaps as lists of words -/

theorem getD_word_lt (bm : List Nat) (h : ∀ w ∈ bm, w < SIZE_MOD) (i : Nat) :
    bm.getD i 0 < 2 ^ 64 := by
  rw [List.getD_eq_getElem?_getD]
  cases hi : bm[i]? with
  | none => simp
  | some w => simpa [SIZE_MOD] using h w (List.getElem?_mem hi)

theorem set_word_lt (bm : List Nat) (h : ∀ w ∈ bm, w < SIZE_MOD) (k v : Nat) (hv : v < 2 ^ 64) :
    ∀ w ∈ bm.set k v, w < SIZE_MOD := by
  intro w hw
  rcases List.mem_or_eq_of_mem_set hw with h1 | h1
  · exact h w h1
  · rw [h1]; simpa [SIZE_MOD] using hv

theorem getD_set (bm : List Nat) (k v j : Nat) (hk : k < bm.length) :
    (bm.set k v).getD j 0 = if j = k then v else bm.getD j 0 := by
  rw [List.getD_eq_getElem?_getD, List.getD_eq_getElem?_getD, List.getElem?_set]
  by_cases hjk : j = k
  · subst hjk; simp [hk]
  · have : ¬ k = j := fun h => hjk h.symm
    simp [hjk, this]

theorem bitmap_bit_set (bm : List Nat) (k v i : Nat) (hk : k < bm.length) :
    bitmap_bit (bm.set k v) i = if i / 64 = k then v.testBit (i % 64) else bitmap_bit bm i := by
  unfold bitmap_bit BITMAP_BITS
  rw [getD_set bm k v (i / 64) hk]
  by_cases h : i / 64 = k <;> simp [h]

theorem index_eq_iff (i m : Nat) (h : i / 64 = m / 64) : m % 64 = i % 64 ↔ i = m := by
  omega

theorem bitmap_bit_clear (bm : List Nat) (m i : Nat) (hk : m / 64 < bm.length) :
    bitmap_bit (bm.set (m / BITMAP_BITS)
      (bm.getD (m / BITMAP_BITS) 0 &&& bit_not (1 <<< (m % BITMAP_BITS)))) i
      = (bitmap_bit bm i && !decide (i = m)) := by
  simp only [BITMAP_BITS]
  rw [bitmap_bit_set bm _ _ i hk]
  by_cases h : i / 64 = m / 64
  · rw [if_pos h, testBit_clear_bit _ _ _ (Nat.mod_lt m (by norm_num))]
    have h64 : i % 64 < 64 := Nat.mod_lt i (by norm_num)
    have e : bitmap_bit bm i = (bm.getD (m / 64) 0).testBit (i % 64) := by
      unfold bitmap_bit BITMAP_BITS; rw [h]
    rw [e]
    by_cases him : i = m
    · subst him; simp
    · have : ¬ m % 64 = i % 64 := fun hc => him ((index_eq_iff i m h).1 hc)
      simp [h64, him, this]
  · rw [if_neg h]
    have : i ≠ m := fun hc => h (by rw [hc])
    simp [this]

theorem bitmap_bit_setbit (bm : List Nat) (m i : Nat) (hk : m / 64 < bm.length) :
    bitmap_bit (bm.set (m / BITMAP_BITS)
      (bm.getD (m / BITMAP_BITS) 0 ||| (1 <<< (m % BITMAP_BITS)))) i
      = (bitmap_bit bm i || decide (i = m)) := by
  simp only [BITMAP_BITS]
  rw [bitmap_bit_set bm _ _ i hk]
  by_cases h : i / 64 = m / 64
  · rw [if_pos h, testBit_set_bit]
    have e : bitmap_bit bm i = (bm.getD (m / 64) 0).testBit (i % 64) := by
      unfold bitmap_bit BITMAP_BITS; rw [h]
    rw [e]
    by_cases him : i = m
    · subst him; simp
    · have : ¬ m % 64 = i % 64 := fun hc => him ((index_eq_iff i m h).1 hc)
      simp [him, this]
  · rw [if_neg h]
    have : i ≠ m := fun hc => h (by rw [hc])
    simp [this]

theorem bitmap_bit_eq_mask (bm : List Nat) (i : Nat) :
    bm.getD (i / BITMAP_BITS) 0 &&& (1 <<< (i % BITMAP_BITS)) ≠ 0 ↔ bitmap_bit bm i = true := by
  rw [and_mask_ne_zero_iff]; rfl

theorem lowest_bit_exists (w : Nat) (hw : w ≠ 0) (hlt : w < 2 ^ 64) :
    ∃ b, b < 64 ∧ w.testBit b = true ∧ ∀ j, j < b → w.testBit j = false := by
  have hex : ∃ b, w.testBit b = true := by
    by_contra hc
    apply hw
    apply word_eq_zero_of_bits w hlt
    intro j _
    by_contra hj
    exact hc ⟨j, by simpa using hj⟩
  refine ⟨Nat.find hex, ?_, Nat.find_spec hex, ?_⟩
  · by_contra hge
    have := testBit_of_lt_word w (Nat.find hex) hlt (by omega)
    rw [Nat.find_spec hex] at this
    exact Bool.noConfusion this
  · intro j hj
    have := Nat.find_min hex hj
    simpa using this

/-! ## What `mempool_alloc` does -/

theorem mempool_alloc_scan_none (pool : mempool_t) (for_hw : Bool)
    (hw : ∀ w ∈ pool.free_bitmap, w < SIZE_MOD) :
    ∀ n i, (∀ k, i * 64 ≤ k → k < (i + n) * 64 → k < pool.block_count →
        bitmap_bit pool.free_bitmap k = false) →
      mempool_alloc_scan pool for_hw n i = (pool, none) := by
  intro n
  induction n with
  | zero => intro i _; rfl
  | succ n ih =>
    intro i h
    have hrec : mempool_alloc_scan pool for_hw n (i + 1) = (pool, none) :=
      ih (i + 1) (fun k h1 h2 h3 => h k (by omega) (by omega) h3)
    unfold mempool_alloc_scan
    simp only []
    by_cases h0 : pool.free_bitmap.getD i 0 = 0
    · rw [if_pos h0]; exact hrec
    · rw [if_neg h0]
      obtain ⟨b, hb, hset, hmin⟩ := lowest_bit_exists _ h0 (getD_word_lt _ hw i)
      rw [find_first_set_bit_eq _ b hb hset hmin]
      have hnn : ¬ ((b : Int) < 0) := by omega
      rw [if_neg hnn, Int.toNat_natCast]
      have hbit : bitmap_bit pool.free_bitmap (i * 64 + b) = true := by
        unfold bitmap_bit BITMAP_BITS
        have e1 : (i * 64 + b) / 64 = i := by omega
        have e2 : (i * 64 + b) % 64 = b := by omega
        rw [e1, e2]; exact hset
      have hge : i * BITMAP_BITS + b ≥ pool.block_count := by
        simp only [BITMAP_BITS]
        by_contra hlt
        have := h (i * 64 + b) (by omega) (by omega) (by omega)
        rw [hbit] at this
        exact Bool.noConfusion this
      rw [if_pos hge]; exact hrec

theorem mempool_alloc_scan_some (pool : mempool_t) (for_hw : Bool)
    (hw : ∀ w ∈ pool.free_bitmap, w < SIZE_MOD) (m : Nat) (hm : m < pool.block_count)
    (hset : bitmap_bit pool.free_bitmap m = true) :
    ∀ n i, i * 64 ≤ m → m < (i + n) * 64 →
      (∀ k, i * 64 ≤ k → k < m → bitmap_bit pool.free_bitmap k = false) →
      mempool_alloc_scan pool for_hw n i =
        (alloc_mark pool for_hw m,
          some (ptr_add pool.memory_area (size_mul m pool.block_size))) := by
  intro n
  induction n with
  | zero => intro i h1 h2; omega
  | succ n ih =>
    intro i h1 h2 hmin
    unfold mempool_alloc_scan
    simp only []
    by_cases hword : m / 64 = i
    · have hb : m % 64 < 64 := Nat.mod_lt m (by norm_num)
      have hset1 : (pool.free_bitmap.getD i 0).testBit (m % 64) = true := by
        rw [← hword]; exact hset
      have h0 : pool.free_bitmap.getD i 0 ≠ 0 := by
        intro hc; rw [hc, Nat.zero_testBit] at hset1; exact Bool.noConfusion hset1
      have hlow : ∀ j, j < m % 64 → (pool.free_bitmap.getD i 0).testBit j = false := by
        intro j hj
        have := hmin (i * 64 + j) (by omega) (by omega)
        unfold bitmap_bit BITMAP_BITS at this
        have e1 : (i * 64 + j) / 64 = i := by omega
        have e2 : (i * 64 + j) % 64 = j := by omega
        rw [e1, e2] at this; exact this
      rw [if_neg h0, find_first_set_bit_eq _ (m % 64) hb hset1 hlow]
      have hnn : ¬ (((m % 64 : Nat) : Int) < 0) := by omega
      rw [if_neg hnn, Int.toNat_natCast]
      have hidx : i * BITMAP_BITS + m % 64 = m := by simp only [BITMAP_BITS]; omega
      rw [hidx, if_neg (by omega)]
      unfold alloc_mark
      simp only [BITMAP_BITS, hword]
    · have hzero : pool.free_bitmap.getD i 0 = 0 := by
        apply word_eq_zero_of_bits _ (getD_word_lt _ hw i)
        intro j hj
        have := hmin (i * 64 + j) (by omega) (by omega)
        unfold bitmap_bit BITMAP_BITS at this
        have e1 : (i * 64 + j) / 64 = i := by omega
        have e2 : (i * 64 + j) % 64 = j := by omega
        rw [e1, e2] at this; exact this
      rw [if_pos hzero]
      exact ih (i + 1) (by omega) (by omega) (fun k hk1 hk2 => hmin k (by omega) hk2)

theorem mempool_alloc_none (pool : mempool_t) (for_hw : Bool) (hwf : pool_wf pool)
    (h : ∀ k, k < pool.block_count → bitmap_bit pool.free_bitmap k = false) :
    mempool_alloc pool for_hw = (pool, none) :=
  mempool_alloc_scan_none pool for_hw hwf.2.2.1 BITMAP_WORDS 0 (fun k _ _ hk => h k hk)

theorem mempool_alloc_some (pool : mempool_t) (for_hw : Bool) (hwf : pool_wf pool) (m : Nat)
    (hm : m < pool.block_count) (hset : bitmap_bit pool.free_bitmap m = true)
    (hmin : ∀ k, k < m → bitmap_bit pool.free_bitmap k = false) :
    mempool_alloc pool for_hw =
      (alloc_mark pool for_hw m, some (ptr_add pool.memory_area (size_mul m pool.block_size))) := by
  have hbc : pool.block_count ≤ 256 := hwf.2.2.2.2
  exact mempool_alloc_scan_some pool for_hw hwf.2.2.1 m hm hset BITMAP_WORDS 0 (by omega)
    (by simp only [BITMAP_WORDS]; omega) (fun k _ hk => hmin k hk)

theorem mempool_alloc_cases (pool : mempool_t) (for_hw : Bool) (hwf : pool_wf pool) :
    ((∀ k, k < pool.block_count → bitmap_bit pool.free_bitmap k = false) ∧
      mempool_alloc pool for_hw = (pool, none)) ∨
    ∃ m, m < pool.block_count ∧ bitmap_bit pool.free_bitmap m = true ∧
      (∀ k, k < m → bitmap_bit pool.free_bitmap k = false) ∧
      mempool_alloc pool for_hw =
        (alloc_mark pool for_hw m,
          some (ptr_add pool.memory_area (size_mul m pool.block_size))) := by
  by_cases hex : ∃ m, m < pool.block_count ∧ bitmap_bit pool.free_bitmap m = true
  · right
    refine ⟨Nat.find hex, (Nat.find_spec hex).1, (Nat.find_spec hex).2, ?_, ?_⟩
    · intro k hk
      have hnot := Nat.find_min hex hk
      have hlt : k < pool.block_count := lt_trans hk (Nat.find_spec hex).1
      by_contra hc
      exact hnot ⟨hlt, by simpa using hc⟩
    · apply mempool_alloc_some pool for_hw hwf _ (Nat.find_spec hex).1 (Nat.find_spec hex).2
      intro k hk
      have hnot := Nat.find_min hex hk
      have hlt : k < pool.block_count := lt_trans hk (Nat.find_spec hex).1
      by_contra hc
      exact hnot ⟨hlt, by simpa using hc⟩
  · left
    have h : ∀ k, k < pool.block_count → bitmap_bit pool.free_bitmap k = false := by
      intro k hk
      by_contra hc
      exact hex ⟨k, hk, by simpa using hc⟩
    exact ⟨h, mempool_alloc_none pool for_hw hwf h⟩

theorem alloc_mark_wf (pool : mempool_t) (for_hw : Bool) (m : Nat) (hwf : pool_wf pool) :
    pool_wf (alloc_mark pool for_hw m) := by
  obtain ⟨h1, h2, h3, h4, h5⟩ := hwf
  have hb : m % 64 < 64 := Nat.mod_lt m (by norm_num)
  refine ⟨?_, ?_, ?_, ?_, h5⟩
  · simp [alloc_mark, h1]
  · cases for_hw <;> simp [alloc_mark, h2]
  · exact set_word_lt _ h3 _ _ (clear_bit_lt _ _ hb)
  · cases for_hw
    · exact h4
    · exact set_word_lt _ h4 _ _ (set_bit_lt _ _ (getD_word_lt _ h4 _) hb)

theorem free_mark_wf (pool : mempool_t) (i : Nat) (hwf : pool_wf pool) :
    pool_wf (free_mark pool i) := by
  obtain ⟨h1, h2, h3, h4, h5⟩ := hwf
  have hb : i % 64 < 64 := Nat.mod_lt i (by norm_num)
  refine ⟨?_, ?_, ?_, ?_, h5⟩
  · simp [free_mark, h1]
  · unfold free_mark
    simp only []
    split <;> simp [h2]
  · exact set_word_lt _ h3 _ _ (set_bit_lt _ _ (getD_word_lt _ h3 _) hb)
  · unfold free_mark
    simp only []
    split
    · exact set_word_lt _ h4 _ _ (clear_bit_lt _ _ hb)
    · exact h4

theorem alloc_mark_free_bit (pool : mempool_t) (for_hw : Bool) (m i : Nat) (hwf : pool_wf pool)
    (hm : m < pool.block_count) :
    bitmap_bit (alloc_mark pool for_hw m).free_bitmap i =
      (bitmap_bit pool.free_bitmap i && !decide (i = m)) := by
  have hbc : pool.block_count ≤ 256 := hwf.2.2.2.2
  have hlen : pool.free_bitmap.length = 4 := hwf.1
  exact bitmap_bit_clear pool.free_bitmap m i (by omega)

theorem free_mark_free_bit (pool : mempool_t) (m i : Nat) (hwf : pool_wf pool)
    (hm : m < pool.block_count) :
    bitmap_bit (free_mark pool m).free_bitmap i =
      (bitmap_bit pool.free_bitmap i || decide (i = m)) := by
  have hbc : pool.block_count ≤ 256 := hwf.2.2.2.2
  have hlen : pool.free_bitmap.length = 4 := hwf.1
  exact bitmap_bit_setbit pool.free_bitmap m i (by omega)

/-! ## What `mempool_free` does -/

theorem mempool_free_cases (pool : mempool_t) (ptr : Nat) :
    mempool_free pool ptr = some pool ∨
    (pool.block_size ≠ 0 ∧ ptr ≠ 0 ∧ pool.memory_area ≤ ptr ∧
      ptr < ptr_add pool.memory_area (size_mul pool.block_size pool.block_count) ∧
      (ptr - pool.memory_area) / pool.block_size < pool.block_count ∧
      bitmap_bit pool.free_bitmap ((ptr - pool.memory_area) / pool.block_size) = false ∧
      mempool_free pool ptr = some (free_mark pool ((ptr - pool.memory_area) / pool.block_size))) := by
  unfold mempool_free
  by_cases h0 : ptr = 0
  · left; rw [if_pos h0]
  rw [if_neg h0]
  by_cases hr : ptr < pool.memory_area ∨
      ptr ≥ ptr_add pool.memory_area (size_mul pool.block_size pool.block_count)
  · left; rw [if_pos hr]
  rw [if_neg hr]
  have hr1 : pool.memory_area ≤ ptr := by
    by_contra hc; exact hr (Or.inl (by omega))
  have hr2 : ptr < ptr_add pool.memory_area (size_mul pool.block_size pool.block_count) := by
    by_contra hc; exact hr (Or.inr (by omega))
  simp only []
  have hbs : pool.block_size ≠ 0 := by
    intro hz
    rw [hz] at hr2
    simp only [size_mul, ptr_add, Nat.zero_mul, Nat.zero_mod, Nat.add_zero] at hr2
    have := Nat.mod_le pool.memory_area SIZE_MOD
    omega
  rw [if_neg hbs]
  by_cases hidx : (ptr - pool.memory_area) / pool.block_size ≥ pool.block_count
  · left; rw [if_pos hidx]
  rw [if_neg hidx]
  by_cases hfree : pool.free_bitmap.getD ((ptr - pool.memory_area) / pool.block_size / BITMAP_BITS) 0
      &&& (1 <<< ((ptr - pool.memory_area) / pool.block_size % BITMAP_BITS)) ≠ 0
  · left; rw [if_pos hfree]
  rw [if_neg hfree]
  right
  refine ⟨hbs, h0, hr1, hr2, by omega, ?_, rfl⟩
  by_contra hc
  exact hfree ((bitmap_bit_eq_mask _ _).2 (by simpa using hc))

theorem mempool_free_wf (pool pool1 : mempool_t) (ptr : Nat) (hwf : pool_wf pool)
    (h : mempool_free pool ptr = some pool1) : pool_wf pool1 := by
  rcases mempool_free_cases pool ptr with h1 | ⟨_, _, _, _, _, _, h1⟩
  · rw [h1] at h; cases h; exact hwf
  · rw [h1] at h; cases h; exact free_mark_wf pool _ hwf

theorem mempool_alloc_wf (pool : mempool_t) (for_hw : Bool) (hwf : pool_wf pool) :
    pool_wf (mempool_alloc pool for_hw).1 := by
  rcases mempool_alloc_cases pool for_hw hwf with ⟨_, h⟩ | ⟨m, _, _, _, h⟩
  · rw [h]; exact hwf
  · rw [h]; exact alloc_mark_wf pool for_hw m hwf

/-- Geometry of a pool: the three fields no operation writes. -/
theorem mempool_alloc_geometry (pool : mempool_t) (for_hw : Bool) (hwf : pool_wf pool) :
    (mempool_alloc pool for_hw).1.memory_area = pool.memory_area ∧
    (mempool_alloc pool for_hw).1.block_size = pool.block_size ∧
    (mempool_alloc pool for_hw).1.block_count = pool.block_count := by
  rcases mempool_alloc_cases pool for_hw hwf with ⟨_, h⟩ | ⟨m, _, _, _, h⟩
  · rw [h]; exact ⟨rfl, rfl, rfl⟩
  · rw [h]; exact ⟨rfl, rfl, rfl⟩

theorem mempool_free_geometry (pool pool1 : mempool_t) (ptr : Nat)
    (h : mempool_free pool ptr = some pool1) :
    pool1.memory_area = pool.memory_area ∧ pool1.block_size = pool.block_size ∧
    pool1.block_count = pool.block_count := by
  rcases mempool_free_cases pool ptr with h1 | ⟨_, _, _, _, _, _, h1⟩
  · rw [h1] at h; cases h; exact ⟨rfl, rfl, rfl⟩
  · rw [h1] at h; cases h; exact ⟨rfl, rfl, rfl⟩

/-! ## What `mempool_create` builds -/

theorem replicate_ones_bit (i : Nat) (hi : i < 256) :
    bitmap_bit (List.replicate BITMAP_WORDS (SIZE_MOD - 1)) i = true := by
  unfold bitmap_bit BITMAP_BITS BITMAP_WORDS SIZE_MOD
  have h4 : i / 64 < 4 := by omega
  have h64 : i % 64 < 64 := Nat.mod_lt i (by norm_num)
  rw [List.getD_eq_getElem?_getD, List.getElem?_replicate, if_pos h4]
  simp only [Option.getD_some]
  rw [Nat.testBit_two_pow_sub_one]
  simpa using h64

theorem replicate_zero_bit (n i : Nat) : bitmap_bit (List.replicate n 0) i = false := by
  unfold bitmap_bit
  rw [List.getD_eq_getElem?_getD, List.getElem?_replicate]
  split <;> simp

theorem mempool_create_some (base data_size num_blocks : Nat) (hb : base ≠ 0)
    (h1 : 1 ≤ num_blocks) (h2 : num_blocks ≤ 256) :
    ∃ pool, mempool_create base data_size num_blocks = some pool := by
  unfold mempool_create
  have hn : ¬ (num_blocks = 0 ∨ num_blocks > MEMPOOL_MAX_BLOCKS) := by
    simp only [MEMPOOL_MAX_BLOCKS]; omega
  rw [if_neg hn, if_neg hb]
  exact ⟨_, rfl⟩

theorem mempool_create_spec (base data_size num_blocks : Nat) (pool : mempool_t)
    (h : mempool_create base data_size num_blocks = some pool) :
    base ≠ 0 ∧ 1 ≤ num_blocks ∧ num_blocks ≤ 256 ∧
    pool.memory_area = base ∧ pool.block_count = num_blocks ∧
    pool.block_size =
      (size_sub (size_add data_size MEMPOOL_ALIGNMENT) 1 &&& bit_not (MEMPOOL_ALIGNMENT - 1)) ∧
    pool_wf pool ∧
    (∀ i, i < 256 → bitmap_bit pool.free_bitmap i =
      decide (i < num_blocks ∨ ((num_blocks - 1) / 64 + 1) * 64 ≤ i)) ∧
    (∀ i, bitmap_bit pool.hw_owned_bitmap i = false) := by
  unfold mempool_create at h
  by_cases hn : num_blocks = 0 ∨ num_blocks > MEMPOOL_MAX_BLOCKS
  · rw [if_pos hn] at h; cases h
  rw [if_neg hn] at h
  by_cases hb : base = 0
  · rw [if_pos hb] at h; cases h
  rw [if_neg hb] at h
  simp only [MEMPOOL_MAX_BLOCKS] at hn
  have h1 : 1 ≤ num_blocks := by omega
  have h2 : num_blocks ≤ 256 := by omega
  have hones : ∀ w ∈ List.replicate BITMAP_WORDS (SIZE_MOD - 1), w < SIZE_MOD := by
    intro w hw
    rw [List.eq_of_mem_replicate hw]
    simp [SIZE_MOD]
  by_cases hmod : num_blocks % BITMAP_BITS ≠ 0
  · simp only [if_pos hmod] at h
    cases h
    simp only [BITMAP_BITS] at hmod
    have hlw : (num_blocks - 1) / 64 < (List.replicate BITMAP_WORDS (SIZE_MOD - 1)).length := by
      simp only [List.length_replicate, BITMAP_WORDS]; omega
    refine ⟨hb, h1, h2, rfl, rfl, rfl, ⟨?_, ?_, ?_, ?_, h2⟩, ?_, ?_⟩
    · simp
    · simp
    · apply set_word_lt _ hones
      exact lt_of_le_of_lt Nat.and_le_left (getD_word_lt _ hones _)
    · intro w hw
      rw [List.eq_of_mem_replicate hw]
      simp [SIZE_MOD]
    · intro i hi
      simp only [BITMAP_BITS]
      rw [bitmap_bit_set _ _ _ i hlw]
      by_cases hword : i / 64 = (num_blocks - 1) / 64
      · rw [if_pos hword]
        have hw4 : (num_blocks - 1) / 64 < 4 := by omega
        rw [List.getD_eq_getElem?_getD, List.getElem?_replicate, if_pos (by simpa [BITMAP_WORDS] using hw4)]
        simp only [Option.getD_some, SIZE_MOD]
        rw [Nat.testBit_and, Nat.testBit_two_pow_sub_one, Nat.one_shiftLeft,
          Nat.testBit_two_pow_sub_one]
        have h64 : i % 64 < 64 := Nat.mod_lt i (by norm_num)
        by_cases hlt : i < num_blocks
        · have : i % 64 < num_blocks % 64 := by omega
          simp [h64, this, hlt]
        · have : ¬ i % 64 < num_blocks % 64 := by omega
          have h3 : ¬ ((num_blocks - 1) / 64 + 1) * 64 ≤ i := by omega
          simp [this, hlt, h3]
      · rw [if_neg hword, replicate_ones_bit i hi]
        have : i < num_blocks ∨ ((num_blocks - 1) / 64 + 1) * 64 ≤ i := by omega
        simp [this]
    · intro i
      exact replicate_zero_bit _ i
  · simp only [if_neg hmod] at h
    cases h
    simp only [BITMAP_BITS, not_not] at hmod
    refine ⟨hb, h1, h2, rfl, rfl, rfl, ⟨?_, ?_, hones, ?_, h2⟩, ?_, ?_⟩
    · simp
    · simp
    · intro w hw
      rw [List.eq_of_mem_replicate hw]
      simp [SIZE_MOD]
    · intro i hi
      rw [replicate_ones_bit i hi]
      have : i < num_blocks ∨ ((num_blocks - 1) / 64 + 1) * 64 ≤ i := by omega
      simp [this]
    · intro i
      exact replicate_zero_bit _ i

/-! ## Reachable pool states -/

theorem pool_step_wf (pool pool1 : mempool_t) (op : pool_op) (hwf : pool_wf pool)
    (h : pool_step pool op = some pool1) :
    pool_wf pool1 ∧ pool1.memory_area = pool.memory_area ∧
    pool1.block_size = pool.block_size ∧ pool1.block_count = pool.block_count := by
  cases op with
  | alloc for_hw =>
    simp only [pool_step, Option.some.injEq] at h
    subst h
    exact ⟨mempool_alloc_wf pool for_hw hwf, mempool_alloc_geometry pool for_hw hwf⟩
  | free ptr =>
    simp only [pool_step] at h
    exact ⟨mempool_free_wf pool pool1 ptr hwf h, mempool_free_geometry pool pool1 ptr h⟩

theorem pool_run_wf (ops : List pool_op) : ∀ (pool pool1 : mempool_t), pool_wf pool →
    pool_run pool ops = some pool1 →
    pool_wf pool1 ∧ pool1.memory_area = pool.memory_area ∧
    pool1.block_size = pool.block_size ∧ pool1.block_count = pool.block_count := by
  induction ops with
  | nil =>
    intro pool pool1 hwf h
    simp only [pool_run, Option.some.injEq] at h
    subst h
    exact ⟨hwf, rfl, rfl, rfl⟩
  | cons op ops ih =>
    intro pool pool1 hwf h
    simp only [pool_run] at h
    cases hstep : pool_step pool op with
    | none => rw [hstep] at h; cases h
    | some p =>
      rw [hstep] at h
      simp only [Option.some_bind] at h
      obtain ⟨hw1, g1, g2, g3⟩ := pool_step_wf pool p op hwf hstep
      obtain ⟨hw2, k1, k2, k3⟩ := ih p pool1 hw1 h
      exact ⟨hw2, by rw [k1, g1], by rw [k2, g2], by rw [k3, g3]⟩

theorem pool_reachable_wf (pool : mempool_t) (h : pool_reachable pool) : pool_wf pool := by
  obtain ⟨base, ds, nb, p0, ops, hc, hr⟩ := h
  have hwf0 := (mempool_create_spec base ds nb p0 hc).2.2.2.2.2.2.1
  exact (pool_run_wf ops p0 pool hwf0 hr).1

/-! ## Claims about the pool -/

/-- C1 (the code departs from the claim): a pool of 8 blocks created by
`mempool_create` reports `mempool_available = 200` and
`mempool_used = 2 ^ 64 - 192`, not 8 and 0, because the three bitmap words
after the last used one stay all-ones. -/
theorem mempool_create_available_overcount :
    (mempool_create 4096 64 8).map (fun p => (mempool_available p, mempool_used p))
      = some (200, 2 ^ 64 - 192) := by
  decide

theorem alloc_many_spec (hws : List Bool) : ∀ (pool : mempool_t) (k hi : Nat), pool_wf pool →
    pool.block_count ≤ hi → k ≤ pool.block_count →
    (∀ i, i < 256 → bitmap_bit pool.free_bitmap i =
      decide ((k ≤ i ∧ i < pool.block_count) ∨ hi ≤ i)) →
    (alloc_many pool hws).2 = (List.range hws.length).map (fun j =>
      if k + j < pool.block_count then
        some (ptr_add pool.memory_area (size_mul (k + j) pool.block_size))
      else none) := by
  induction hws with
  | nil => intro pool k hi _ _ _ _; rfl
  | cons for_hw rest ih =>
    intro pool k hi hwf hhi hk hbits
    have hbc : pool.block_count ≤ 256 := hwf.2.2.2.2
    simp only [alloc_many, List.length_cons, List.range_succ_eq_map, List.map_cons, List.map_map]
    by_cases hlt : k < pool.block_count
    · have hset : bitmap_bit pool.free_bitmap k = true := by
        rw [hbits k (by omega)]; simp [hlt]
      have hmin : ∀ j, j < k → bitmap_bit pool.free_bitmap j = false := by
        intro j hj
        rw [hbits j (by omega)]
        have : ¬ ((k ≤ j ∧ j < pool.block_count) ∨ hi ≤ j) := by omega
        simp [this]
      have ha := mempool_alloc_some pool for_hw hwf k hlt hset hmin
      rw [ha]
      simp only [Nat.add_zero, if_pos hlt]
      have hwf1 := alloc_mark_wf pool for_hw k hwf
      have hrec := ih (alloc_mark pool for_hw k) (k + 1) hi hwf1 hhi hlt (by
        intro i hi256
        rw [alloc_mark_free_bit pool for_hw k i hwf hlt, hbits i hi256]
        show _ = decide ((k + 1 ≤ i ∧ i < pool.block_count) ∨ hi ≤ i)
        by_cases c1 : (k ≤ i ∧ i < pool.block_count) ∨ hi ≤ i
        · by_cases c2 : i = k
          · have : ¬ ((k + 1 ≤ i ∧ i < pool.block_count) ∨ hi ≤ i) := by omega
            simp [c2, this]
            omega
          · have : (k + 1 ≤ i ∧ i < pool.block_count) ∨ hi ≤ i := by omega
            simp [c1, c2, this]
        · have : ¬ ((k + 1 ≤ i ∧ i < pool.block_count) ∨ hi ≤ i) := by omega
          simp [c1, this])
      rw [hrec]
      congr 1
      apply List.map_congr_left
      intro j _
      show (if k + 1 + j < pool.block_count then _ else _) = _
      simp only [Function.comp, Nat.succ_eq_add_one]
      have e : k + 1 + j = k + (j + 1) := by omega
      rw [e]
      rfl
    · have hnone := mempool_alloc_none pool for_hw hwf (by
        intro i hi1
        rw [hbits i (by omega)]
        have : ¬ ((k ≤ i ∧ i < pool.block_count) ∨ hi ≤ i) := by omega
        simp [this])
      rw [hnone]
      simp only [Nat.add_zero, if_neg hlt]
      rw [ih pool k hi hwf hhi hk hbits]
      congr 1
      apply List.map_congr_left
      intro j _
      simp only [Function.comp, Nat.succ_eq_add_one]
      have e1 : ¬ k + j < pool.block_count := by omega
      have e2 : ¬ k + (j + 1) < pool.block_count := by omega
      rw [if_neg e1, if_neg e2]

theorem ptr_add_size_mul_eq (pool : mempool_t) (h : arena_ok pool) (k : Nat)
    (hk : k ≤ pool.block_count) :
    ptr_add pool.memory_area (size_mul k pool.block_size) =
      pool.memory_area + k * pool.block_size := by
  unfold arena_ok at h
  have h1 : k * pool.block_size ≤ pool.block_size * pool.block_count := by
    rw [Nat.mul_comm]; exact Nat.mul_le_mul_left _ hk
  have h2 : k * pool.block_size < SIZE_MOD := by omega
  have h3 : pool.memory_area + k * pool.block_size < SIZE_MOD := by omega
  unfold ptr_add size_mul
  rw [Nat.mod_eq_of_lt h2, Nat.mod_eq_of_lt h3]

/-- C2: in a pool freshly created with `1 <= num_blocks <= 256`, of any
sequence of `mempool_alloc` calls (any `for_hw` flags, no free in between) the
call number `k + 1` returns `memory_area + k * block_size` while
`k < num_blocks` and `NULL` from call `num_blocks + 1` on; the address is the
C expression, and it is the unwrapped sum when the arena lies inside the
address space. -/
theorem mempool_alloc_until_exhausted (base data_size num_blocks : Nat) (hws : List Bool)
    (hb : base ≠ 0) (h1 : 1 ≤ num_blocks) (h2 : num_blocks ≤ 256) :
    ∃ pool, mempool_create base data_size num_blocks = some pool ∧
      (alloc_many pool hws).2 = (List.range hws.length).map (fun k =>
        if k < num_blocks then some (ptr_add pool.memory_area (size_mul k pool.block_size))
        else none) ∧
      (arena_ok pool → ∀ k, k < num_blocks →
        ptr_add pool.memory_area (size_mul k pool.block_size) =
          pool.memory_area + k * pool.block_size) := by
  obtain ⟨pool, hc⟩ := mempool_create_some base data_size num_blocks hb h1 h2
  obtain ⟨_, _, _, _, hcount, _, hwf, hbits, _⟩ :=
    mempool_create_spec base data_size num_blocks pool hc
  refine ⟨pool, hc, ?_, ?_⟩
  · have := alloc_many_spec hws pool 0 (((num_blocks - 1) / 64 + 1) * 64) hwf
      (by rw [hcount]; omega) (by omega) (by
        intro i hi
        rw [hbits i hi, hcount]
        simp)
    rw [this, hcount]
    apply List.map_congr_left
    intro j _
    simp only [Nat.zero_add]
  · intro hok k hk
    exact ptr_add_size_mul_eq pool hok k (by rw [hcount]; omega)

/-- Witness of C2: a pool of 3 blocks of 64 bytes at address 4096, four calls. -/
theorem mempool_alloc_until_exhausted_witness :
    ∃ pool, mempool_create 4096 64 3 = some pool ∧
      (alloc_many pool [true, false, true, false]).2 =
        (List.range [true, false, true, false].length).map (fun k =>
          if k < 3 then some (ptr_add pool.memory_area (size_mul k pool.block_size))
          else none) ∧
      (arena_ok pool → ∀ k, k < 3 →
        ptr_add pool.memory_area (size_mul k pool.block_size) =
          pool.memory_area + k * pool.block_size) :=
  mempool_alloc_until_exhausted 4096 64 3 [true, false, true, false] (by decide) (by decide)
    (by decide)

/-- C4: first-fit determinism.  In every pool state reachable from
`mempool_create` by alloc/free calls, `mempool_alloc` returns `NULL` exactly
when no index below `block_count` has its free bit set, and otherwise returns
`memory_area + m * block_size` for the smallest index `m` below `block_count`
whose free bit is set. -/
theorem mempool_alloc_first_fit (pool : mempool_t) (for_hw : Bool)
    (hreach : pool_reachable pool) :
    ((mempool_alloc pool for_hw).2 = none ↔
      ∀ i, i < pool.block_count → bitmap_bit pool.free_bitmap i = false) ∧
    (∀ m, m < pool.block_count → bitmap_bit pool.free_bitmap m = true →
      (∀ j, j < m → bitmap_bit pool.free_bitmap j = false) →
      (mempool_alloc pool for_hw).2 =
        some (ptr_add pool.memory_area (size_mul m pool.block_size))) := by
  have hwf := pool_reachable_wf pool hreach
  constructor
  · constructor
    · intro hnone
      rcases mempool_alloc_cases pool for_hw hwf with ⟨hall, _⟩ | ⟨m, _, _, _, h⟩
      · exact hall
      · rw [h] at hnone; cases hnone
    · intro hall
      rw [mempool_alloc_none pool for_hw hwf hall]
  · intro m hm hset hmin
    rw [mempool_alloc_some pool for_hw hwf m hm hset hmin]

/-- Witness of C4: create 8 blocks of 64 bytes at 4096, allocate all 8, free
the block at index 3; the next `mempool_alloc` returns the block at index 3. -/
theorem mempool_alloc_first_fit_witness :
    (mempool_alloc
      { memory_area := 4096, block_size := 64, block_count := 8,
        free_bitmap := [8, 2 ^ 64 - 1, 2 ^ 64 - 1, 2 ^ 64 - 1],
        hw_owned_bitmap := [0, 0, 0, 0] } false).2 = some (4096 + 3 * 64) :=
  (mempool_alloc_first_fit
    { memory_area := 4096, block_size := 64, block_count := 8,
      free_bitmap := [8, 2 ^ 64 - 1, 2 ^ 64 - 1, 2 ^ 64 - 1],
      hw_owned_bitmap := [0, 0, 0, 0] } false
    ⟨4096, 64, 8,
      { memory_area := 4096, block_size := 64, block_count := 8,
        free_bitmap := [255, 2 ^ 64 - 1, 2 ^ 64 - 1, 2 ^ 64 - 1],
        hw_owned_bitmap := [0, 0, 0, 0] },
      List.replicate 8 (pool_op.alloc false) ++ [pool_op.free (4096 + 3 * 64)],
      by decide, by decide⟩).2 3 (by decide) (by decide) (by decide)

theorem mempool_free_outside (pool : mempool_t) (ptr : Nat)
    (h : ptr = 0 ∨ ptr < pool.memory_area ∨
      pool.memory_area + pool.block_size * pool.block_count ≤ ptr) :
    mempool_free pool ptr = some pool := by
  unfold mempool_free
  by_cases h0 : ptr = 0
  · rw [if_pos h0]
  · rw [if_neg h0]
    have hr : ptr < pool.memory_area ∨
        ptr ≥ ptr_add pool.memory_area (size_mul pool.block_size pool.block_count) := by
      rcases h with h | h | h
      · exact absurd h h0
      · exact Or.inl h
      · right
        have e1 : ptr_add pool.memory_area (size_mul pool.block_size pool.block_count)
            ≤ pool.memory_area + size_mul pool.block_size pool.block_count :=
          Nat.mod_le _ _
        have e2 : size_mul pool.block_size pool.block_count
            ≤ pool.block_size * pool.block_count := Nat.mod_le _ _
        omega
    rw [if_pos hr]

/-- C5: `mempool_free` with a null pointer or a pointer outside
`[memory_area, memory_area + block_size * block_count)` returns with the pool
state unchanged (both bitmaps), so `mempool_available` is unchanged. -/
theorem mempool_free_out_of_range (pool : mempool_t) (ptr : Nat)
    (h : ptr = 0 ∨ ptr < pool.memory_area ∨
      pool.memory_area + pool.block_size * pool.block_count ≤ ptr) :
    mempool_free pool ptr = some pool ∧
    (mempool_free pool ptr).map mempool_available = some (mempool_available pool) := by
  have key := mempool_free_outside pool ptr h
  exact ⟨key, by rw [key]; rfl⟩

/-- Witness of C5: the address one past the arena of an 8-block pool. -/
theorem mempool_free_out_of_range_witness :
    mempool_free
      { memory_area := 4096, block_size := 64, block_count := 8,
        free_bitmap := [8, 2 ^ 64 - 1, 2 ^ 64 - 1, 2 ^ 64 - 1],
        hw_owned_bitmap := [0, 0, 0, 0] } (4096 + 64 * 8) =
      some { memory_area := 4096, block_size := 64, block_count := 8,
             free_bitmap := [8, 2 ^ 64 - 1, 2 ^ 64 - 1, 2 ^ 64 - 1],
             hw_owned_bitmap := [0, 0, 0, 0] } :=
  (mempool_free_out_of_range
    { memory_area := 4096, block_size := 64, block_count := 8,
      free_bitmap := [8, 2 ^ 64 - 1, 2 ^ 64 - 1, 2 ^ 64 - 1],
      hw_owned_bitmap := [0, 0, 0, 0] } (4096 + 64 * 8)
    (Or.inr (Or.inr (by decide)))).1

/-! ## Freeing a pointer that lies in a block -/

theorem arena_end_eq (pool : mempool_t) (hok : arena_ok pool) :
    ptr_add pool.memory_area (size_mul pool.block_size pool.block_count) =
      pool.memory_area + pool.block_size * pool.block_count := by
  unfold arena_ok at hok
  have h2 : pool.block_size * pool.block_count < SIZE_MOD := by omega
  unfold ptr_add size_mul
  rw [Nat.mod_eq_of_lt h2, Nat.mod_eq_of_lt hok]

theorem block_end_le (bs bc i : Nat) (hi : i < bc) : (i + 1) * bs ≤ bs * bc := by
  rw [Nat.mul_comm bs bc]
  exact Nat.mul_le_mul_right bs hi

theorem mempool_free_in_block (pool : mempool_t) (ptr i : Nat) (hbs : 0 < pool.block_size)
    (hok : arena_ok pool) (hbase : pool.memory_area ≠ 0) (hi : i < pool.block_count)
    (hlo : pool.memory_area + i * pool.block_size ≤ ptr)
    (hhi : ptr < pool.memory_area + (i + 1) * pool.block_size) :
    mempool_free pool ptr =
      some (if bitmap_bit pool.free_bitmap i = true then pool else free_mark pool i) := by
  have hend := block_end_le pool.block_size pool.block_count i hi
  have hidx : (ptr - pool.memory_area) / pool.block_size = i :=
    Nat.div_eq_of_lt_le (by omega) (by omega)
  unfold mempool_free
  have h0 : ptr ≠ 0 := by omega
  rw [if_neg h0, arena_end_eq pool hok]
  have hr : ¬ (ptr < pool.memory_area ∨
      ptr ≥ pool.memory_area + pool.block_size * pool.block_count) := by omega
  rw [if_neg hr]
  simp only []
  rw [if_neg (by omega : ¬ pool.block_size = 0), hidx, if_neg (by omega)]
  by_cases hbit : bitmap_bit pool.free_bitmap i = true
  · rw [if_pos ((bitmap_bit_eq_mask _ _).2 hbit), if_pos hbit]
  · rw [if_neg (fun hc => hbit ((bitmap_bit_eq_mask _ _).1 hc)), if_neg hbit]
    rfl

/-! ## Population counts -/

theorem countP_flip_one (p q : Nat → Bool) (b : Nat) (hq : q b = true) (hp : p b = false)
    (hrest : ∀ j, j ≠ b → q j = p j) :
    ∀ l : List Nat, l.Nodup → b ∈ l → l.countP q = l.countP p + 1 := by
  intro l
  induction l with
  | nil => intro _ hb; cases hb
  | cons a l ih =>
    intro hnd hb
    rw [List.nodup_cons] at hnd
    by_cases hab : a = b
    · subst hab
      rw [List.countP_cons_of_pos _ _ hq, List.countP_cons_of_neg _ _ (by simp [hp])]
      have : l.countP q = l.countP p := by
        apply List.countP_congr
        intro x hx
        have hxa : x ≠ a := fun hc => hnd.1 (hc ▸ hx)
        rw [hrest x hxa]
      rw [this]
    · have hbl : b ∈ l := by
        rcases List.mem_cons.1 hb with h | h
        · exact absurd h.symm hab
        · exact h
      have hrec := ih hnd.2 hbl
      by_cases hpa : p a = true
      · rw [List.countP_cons_of_pos _ _ hpa,
          List.countP_cons_of_pos _ _ (by rw [hrest a hab]; exact hpa), hrec]
      · rw [List.countP_cons_of_neg _ _ hpa,
          List.countP_cons_of_neg _ _ (by rw [hrest a hab]; exact hpa), hrec]

theorem POPCOUNT_LL_set_bit (w b : Nat) (hb : b < 64) (hclear : w.testBit b = false) :
    POPCOUNT_LL (w ||| (1 <<< b)) = POPCOUNT_LL w + 1 := by
  unfold POPCOUNT_LL
  apply countP_flip_one (fun i => w.testBit i) (fun i => (w ||| (1 <<< b)).testBit i) b
  · simp only [testBit_set_bit]; simp
  · exact hclear
  · intro j hj
    simp only [testBit_set_bit]
    have : ¬ b = j := fun hc => hj hc.symm
    simp [this]
  · exact List.nodup_range 64
  · exact List.mem_range.2 hb

theorem POPCOUNT_LL_le (w : Nat) : POPCOUNT_LL w ≤ 64 := by
  unfold POPCOUNT_LL
  have := List.countP_le_length (fun i => w.testBit i) (l := List.range 64)
  simpa using this

theorem mempool_available_eq (pool : mempool_t) :
    mempool_available pool =
      POPCOUNT_LL (pool.free_bitmap.getD 0 0) + POPCOUNT_LL (pool.free_bitmap.getD 1 0) +
      POPCOUNT_LL (pool.free_bitmap.getD 2 0) + POPCOUNT_LL (pool.free_bitmap.getD 3 0) := by
  have h0 := POPCOUNT_LL_le (pool.free_bitmap.getD 0 0)
  have h1 := POPCOUNT_LL_le (pool.free_bitmap.getD 1 0)
  have h2 := POPCOUNT_LL_le (pool.free_bitmap.getD 2 0)
  have h3 := POPCOUNT_LL_le (pool.free_bitmap.getD 3 0)
  have e : List.range BITMAP_WORDS = [0, 1, 2, 3] := by decide
  unfold mempool_available
  rw [e]
  simp only [List.foldl_cons, List.foldl_nil, size_add, SIZE_MOD]
  omega

theorem mempool_available_free_mark (pool : mempool_t) (i : Nat) (hwf : pool_wf pool)
    (hi : i < pool.block_count) (hclear : bitmap_bit pool.free_bitmap i = false) :
    mempool_available (free_mark pool i) = mempool_available pool + 1 := by
  have hbc : pool.block_count ≤ 256 := hwf.2.2.2.2
  have hlen : pool.free_bitmap.length = 4 := hwf.1
  have hword : i / 64 < pool.free_bitmap.length := by omega
  have hb : i % 64 < 64 := Nat.mod_lt i (by norm_num)
  have hpop := POPCOUNT_LL_set_bit (pool.free_bitmap.getD (i / 64) 0) (i % 64) hb hclear
  rw [mempool_available_eq, mempool_available_eq]
  simp only [free_mark, BITMAP_BITS]
  rw [getD_set _ _ _ 0 hword, getD_set _ _ _ 1 hword, getD_set _ _ _ 2 hword,
    getD_set _ _ _ 3 hword]
  have h4 : i / 64 = 0 ∨ i / 64 = 1 ∨ i / 64 = 2 ∨ i / 64 = 3 := by omega
  rcases h4 with h | h | h | h <;> rw [h] at hpop ⊢ <;> simp only [List.getD_eq_getElem?_getD] at hpop ⊢ <;> simp <;> omega

theorem pool_reachable_base (pool : mempool_t) (h : pool_reachable pool) :
    pool.memory_area ≠ 0 := by
  obtain ⟨base, ds, nb, p0, ops, hc, hr⟩ := h
  obtain ⟨hb, _, _, hma, _, _, hwf0, _, _⟩ := mempool_create_spec base ds nb p0 hc
  rw [(pool_run_wf ops p0 pool hwf0 hr).2.1, hma]
  exact hb

/-- C6 as stated fails where `block_size` is zero: in the pool made by
`mempool_create(0, 2)` the first `mempool_alloc` returns 4096, the address of
the allocated block 0, and `mempool_free` of that address leaves
`mempool_available` at 193 (the range check rejects every pointer). -/
theorem mempool_free_zero_block_size_keeps_available :
    (mempool_create 4096 0 2).map (fun p =>
        ((mempool_alloc p false).2, mempool_available (mempool_alloc p false).1,
          (mempool_free (mempool_alloc p false).1 4096).map mempool_available))
      = some (some 4096, 193, some 193) := by
  decide

/-- C6 (amended): in every reachable pool state with a non-zero `block_size`
whose arena lies inside the address space, for every currently allocated block
`i` and every pointer `p` into its bytes (its start address in particular), the
first `mempool_free(pool, p)` increases `mempool_available` by exactly one and
a second `mempool_free(pool, p)` right after leaves the whole pool state
unchanged. -/
theorem mempool_double_free_idempotent (pool : mempool_t) (i p : Nat)
    (hreach : pool_reachable pool) (hbs : 0 < pool.block_size) (hok : arena_ok pool)
    (hi : i < pool.block_count) (halloc : bitmap_bit pool.free_bitmap i = false)
    (hlo : pool.memory_area + i * pool.block_size ≤ p)
    (hhi : p < pool.memory_area + (i + 1) * pool.block_size) :
    ∃ pool1, mempool_free pool p = some pool1 ∧
      mempool_available pool1 = mempool_available pool + 1 ∧
      mempool_free pool1 p = some pool1 := by
  have hwf := pool_reachable_wf pool hreach
  have hbase := pool_reachable_base pool hreach
  have h1 := mempool_free_in_block pool p i hbs hok hbase hi hlo hhi
  rw [if_neg (by simp [halloc])] at h1
  refine ⟨free_mark pool i, h1, mempool_available_free_mark pool i hwf hi halloc, ?_⟩
  have h2 := mempool_free_in_block (free_mark pool i) p i hbs hok hbase hi hlo hhi
  have hset : bitmap_bit (free_mark pool i).free_bitmap i = true := by
    rw [free_mark_free_bit pool i i hwf hi]; simp
  rw [if_pos hset] at h2
  exact h2

theorem pool8_created : mempool_create 4096 64 8 = some pool8 := by decide

theorem pool8_one_allocated_reachable : pool_reachable pool8_one_allocated :=
  ⟨4096, 64, 8, pool8, [pool_op.alloc false], pool8_created, by decide⟩

/-- Witness of C6: block 0 of the 8-block pool after one allocation, freed
twice through its start address 4096. -/
theorem mempool_double_free_idempotent_witness :
    ∃ pool1, mempool_free pool8_one_allocated 4096 = some pool1 ∧
      mempool_available pool1 = mempool_available pool8_one_allocated + 1 ∧
      mempool_free pool1 4096 = some pool1 :=
  mempool_double_free_idempotent pool8_one_allocated 0 4096 pool8_one_allocated_reachable
    (by decide) (by unfold arena_ok; decide) (by decide) (by decide) (by decide) (by decide)

/-! ## Live allocations never alias -/

theorem no_alias_of_nodup (base bs : Nat) (hbs : 0 < bs) (idxs : List Nat) (hnd : idxs.Nodup) :
    no_alias bs (idxs.map (fun i => base + i * bs)) := by
  unfold no_alias
  rw [List.pairwise_map]
  apply List.Pairwise.imp _ hnd
  intro i j hij
  rcases Nat.lt_or_gt_of_ne hij with h | h
  · have : (i + 1) * bs ≤ j * bs := Nat.mul_le_mul_right bs h
    rw [Nat.add_mul] at this
    refine ⟨by omega, Or.inl (by omega)⟩
  · have : (j + 1) * bs ≤ i * bs := Nat.mul_le_mul_right bs h
    rw [Nat.add_mul] at this
    refine ⟨by omega, Or.inr (by omega)⟩

theorem block_of_ptr (base bs ptr j : Nat) (hbs : 0 < bs) (hb : base ≤ ptr) :
    (base + j * bs ≤ ptr ∧ ptr < base + j * bs + bs) ↔ j = (ptr - base) / bs := by
  constructor
  · rintro ⟨h1, h2⟩
    symm
    apply Nat.div_eq_of_lt_le
    · omega
    · rw [Nat.add_mul]; omega
  · intro h
    have e1 := Nat.div_mul_le_self (ptr - base) bs
    have e2 := Nat.lt_div_mul_add (a := ptr - base) hbs
    rw [← h] at e1 e2
    omega

theorem live_step_inv (pool : mempool_t) (live : List Nat) (op : pool_op) (hwf : pool_wf pool)
    (hbs : 0 < pool.block_size) (hok : arena_ok pool) (hbase : pool.memory_area ≠ 0)
    (idxs : List Nat) (hlive : live = idxs.map (fun i => pool.memory_area + i * pool.block_size))
    (hnd : idxs.Nodup)
    (hidx : ∀ i ∈ idxs, i < pool.block_count ∧ bitmap_bit pool.free_bitmap i = false) :
    ∃ (pool1 : mempool_t) (live1 idxs1 : List Nat), live_step (pool, live) op = some (pool1, live1) ∧ pool_wf pool1 ∧
      pool1.memory_area = pool.memory_area ∧ pool1.block_size = pool.block_size ∧
      pool1.block_count = pool.block_count ∧
      live1 = idxs1.map (fun i => pool.memory_area + i * pool.block_size) ∧ idxs1.Nodup ∧
      ∀ i ∈ idxs1, i < pool.block_count ∧ bitmap_bit pool1.free_bitmap i = false := by
  cases op with
  | alloc for_hw =>
    rcases mempool_alloc_cases pool for_hw hwf with ⟨_, h⟩ | ⟨m, hm, hset, _, h⟩
    · refine ⟨pool, live, idxs, ?_, hwf, rfl, rfl, rfl, hlive, hnd, hidx⟩
      simp only [live_step, h]
    · refine ⟨alloc_mark pool for_hw m, live ++ [pool.memory_area + m * pool.block_size],
        idxs ++ [m], ?_, alloc_mark_wf pool for_hw m hwf, rfl, rfl, rfl, ?_, ?_, ?_⟩
      · simp only [live_step, h]
        rw [ptr_add_size_mul_eq pool hok m (le_of_lt hm)]
      · rw [hlive]; simp
      · apply List.Nodup.append hnd (List.nodup_singleton m)
        intro x hx1 hx2
        rw [List.mem_singleton] at hx2
        subst hx2
        have := (hidx x hx1).2
        rw [hset] at this
        exact Bool.noConfusion this
      · intro i hi
        rw [alloc_mark_free_bit pool for_hw m i hwf hm]
        rcases List.mem_append.1 hi with h1 | h1
        · exact ⟨(hidx i h1).1, by rw [(hidx i h1).2]; rfl⟩
        · rw [List.mem_singleton] at h1
          subst h1
          exact ⟨hm, by simp⟩
  | free ptr =>
    by_cases hin : pool.memory_area ≤ ptr ∧
        ptr < pool.memory_area + pool.block_size * pool.block_count
    · obtain ⟨hin1, hin2⟩ := hin
      have hi : (ptr - pool.memory_area) / pool.block_size < pool.block_count := by
        rw [Nat.div_lt_iff_lt_mul hbs, Nat.mul_comm]; omega
      have hblk := (block_of_ptr pool.memory_area pool.block_size ptr
        ((ptr - pool.memory_area) / pool.block_size) hbs hin1).2 rfl
      have hfree := mempool_free_in_block pool ptr _ hbs hok hbase hi hblk.1
        (by rw [Nat.add_mul]; omega)
      have hfilter : live.filter (fun a => !(decide (a ≤ ptr) &&
            decide (ptr < a + pool.block_size))) =
          (idxs.filter (fun j => !decide (j = (ptr - pool.memory_area) / pool.block_size))).map
            (fun i => pool.memory_area + i * pool.block_size) := by
        rw [hlive, List.filter_map]
        congr 1
        apply List.filter_congr
        intro j _
        have := block_of_ptr pool.memory_area pool.block_size ptr j hbs hin1
        simp only [Function.comp]
        by_cases hj : j = (ptr - pool.memory_area) / pool.block_size
        · have h2 := this.2 hj
          simp [hj, h2.1, h2.2]
          rw [← hj]; exact ⟨h2.1, h2.2⟩
        · have h2 : ¬ (pool.memory_area + j * pool.block_size ≤ ptr ∧
              ptr < pool.memory_area + j * pool.block_size + pool.block_size) :=
            fun hc => hj (this.1 hc)
          simp only [hj, decide_False, Bool.not_false, Bool.not_eq_true',
            Bool.and_eq_false_imp, decide_eq_true_eq, decide_eq_false_iff_not]
          intro h3 h4
          exact h2 ⟨h3, h4⟩
      by_cases hbit : bitmap_bit pool.free_bitmap ((ptr - pool.memory_area) / pool.block_size)
          = true
      · rw [if_pos hbit] at hfree
        refine ⟨pool, _, _, ?_, hwf, rfl, rfl, rfl, hfilter, hnd.filter _, ?_⟩
        · simp only [live_step, hfree, Option.map_some']
        · intro i hi1
          exact hidx i (List.mem_filter.1 hi1).1
      · rw [if_neg hbit] at hfree
        refine ⟨free_mark pool ((ptr - pool.memory_area) / pool.block_size), _, _, ?_,
          free_mark_wf pool _ hwf, rfl, rfl, rfl, hfilter,
          hnd.filter _, ?_⟩
        · simp only [live_step, hfree, Option.map_some']
        · intro i hi1
          obtain ⟨hmem, hne⟩ := List.mem_filter.1 hi1
          refine ⟨(hidx i hmem).1, ?_⟩
          rw [free_mark_free_bit pool _ i hwf hi, (hidx i hmem).2]
          simpa using hne
    · have hout : ptr = 0 ∨ ptr < pool.memory_area ∨
          pool.memory_area + pool.block_size * pool.block_count ≤ ptr := by omega
      have hfree := mempool_free_outside pool ptr hout
      refine ⟨pool, live, idxs, ?_, hwf, rfl, rfl, rfl, hlive, hnd, hidx⟩
      simp only [live_step, hfree, Option.map_some']
      congr 2
      rw [List.filter_eq_self]
      intro a ha
      rw [hlive, List.mem_map] at ha
      obtain ⟨j, hj, rfl⟩ := ha
      have hjlt := (hidx j hj).1
      have hend := block_end_le pool.block_size pool.block_count j hjlt
      rw [Nat.add_mul] at hend
      have : ¬ (pool.memory_area + j * pool.block_size ≤ ptr ∧
          ptr < pool.memory_area + j * pool.block_size + pool.block_size) := by omega
      simp only [Bool.not_eq_true', Bool.and_eq_false_imp, decide_eq_true_eq,
        decide_eq_false_iff_not]
      intro h3 h4
      exact this ⟨h3, h4⟩

theorem live_run_inv (ops : List pool_op) : ∀ (pool : mempool_t) (live idxs : List Nat),
    pool_wf pool → 0 < pool.block_size → arena_ok pool → pool.memory_area ≠ 0 →
    live = idxs.map (fun i => pool.memory_area + i * pool.block_size) → idxs.Nodup →
    (∀ i ∈ idxs, i < pool.block_count ∧ bitmap_bit pool.free_bitmap i = false) →
    ∃ (pool1 : mempool_t) (live1 idxs1 : List Nat), live_run (pool, live) ops = some (pool1, live1) ∧
      pool1.block_size = pool.block_size ∧
      live1 = idxs1.map (fun i => pool.memory_area + i * pool.block_size) ∧ idxs1.Nodup := by
  induction ops with
  | nil =>
    intro pool live idxs _ _ _ _ hlive hnd _
    exact ⟨pool, live, idxs, rfl, rfl, hlive, hnd⟩
  | cons op ops ih =>
    intro pool live idxs hwf hbs hok hbase hlive hnd hidx
    obtain ⟨p1, l1, i1, hstep, hwf1, g1, g2, g3, hl1, hnd1, hidx1⟩ :=
      live_step_inv pool live op hwf hbs hok hbase idxs hlive hnd hidx
    have hok1 : arena_ok p1 := by unfold arena_ok at hok ⊢; rw [g1, g2, g3]; exact hok
    obtain ⟨p2, l2, i2, hrun, k2, hl2, hnd2⟩ := ih p1 l1 i1 hwf1 (by rw [g2]; exact hbs) hok1
      (by rw [g1]; exact hbase) (by rw [g1, g2]; exact hl1) hnd1
      (by rw [g3]; exact hidx1)
    refine ⟨p2, l2, i2, ?_, by rw [k2, g2], by rw [hl2, g1, g2], hnd2⟩
    simp only [live_run, hstep, Option.some_bind]
    exact hrun

/-- C3 as stated fails where `block_size` is zero: in the pool made by
`mempool_create(0, 2)` two successive `mempool_alloc` calls both return the
address 4096, so two live allocations have the same address. -/
theorem live_allocations_alias_zero_block_size :
    ((mempool_create 4096 0 2).bind (fun p =>
        live_run (p, []) [pool_op.alloc false, pool_op.alloc false])).map
      (fun s => (s.1.block_size, s.2)) = some (0, [4096, 4096]) ∧
    ¬ no_alias 0 [4096, 4096] := by
  constructor
  · decide
  · unfold no_alias; decide

/-- C3 (amended): for every pool created by `mempool_create` whose
`block_size` is non-zero and whose arena lies inside the address space, after
any sequence of `mempool_alloc` / `mempool_free` calls the live allocations
(returned by alloc and not freed since) have pairwise distinct addresses and
pairwise disjoint byte ranges `[addr, addr + block_size)`. -/
theorem live_allocations_no_alias (base data_size num_blocks : Nat) (pool0 : mempool_t)
    (ops : List pool_op) (hc : mempool_create base data_size num_blocks = some pool0)
    (hbs : 0 < pool0.block_size) (hok : arena_ok pool0) :
    ∃ pool live, live_run (pool0, []) ops = some (pool, live) ∧
      no_alias pool.block_size live := by
  obtain ⟨hb, _, _, hma, _, _, hwf, _, _⟩ := mempool_create_spec base data_size num_blocks pool0 hc
  obtain ⟨p1, l1, i1, hrun, hsz, hl1, hnd1⟩ := live_run_inv ops pool0 [] [] hwf hbs hok
    (by rw [hma]; exact hb) rfl List.nodup_nil (by intro i hi; cases hi)
  refine ⟨p1, l1, hrun, ?_⟩
  rw [hl1, hsz]
  exact no_alias_of_nodup _ _ hbs i1 hnd1

/-- Witness of C3: the 8-block pool; allocate twice, free through a pointer
into block 0, allocate again. -/
theorem live_allocations_no_alias_witness :
    ∃ pool live, live_run (pool8, [])
        [pool_op.alloc false, pool_op.alloc true, pool_op.free 4100, pool_op.alloc false]
        = some (pool, live) ∧ no_alias pool.block_size live :=
  live_allocations_no_alias 4096 64 8 pool8
    [pool_op.alloc false, pool_op.alloc true, pool_op.free 4100, pool_op.alloc false]
    pool8_created (by decide) (by unfold arena_ok; decide)

/-! ## Block size alignment -/

theorem and_align_mask (x : Nat) (hx : x < 2 ^ 64) :
    x &&& bit_not (MEMPOOL_ALIGNMENT - 1) = 64 * (x / 64) := by
  have e : bit_not (MEMPOOL_ALIGNMENT - 1) = 2 ^ 64 - (63 + 1) := by
    unfold bit_not SIZE_MOD MEMPOOL_ALIGNMENT; rfl
  have e63 : (63 : Nat) = 2 ^ 6 - 1 := by norm_num
  have e64 : (64 : Nat) = 2 ^ 6 := by norm_num
  apply Nat.eq_of_testBit_eq
  intro i
  rw [Nat.testBit_and, e, Nat.testBit_two_pow_sub_succ (by norm_num), e63,
    Nat.testBit_two_pow_sub_one, e64, Nat.testBit_mul_pow_two, ← Nat.shiftRight_eq_div_pow,
    Nat.testBit_shiftRight]
  by_cases h6 : i < 6
  · have : ¬ i ≥ 6 := by omega
    simp [h6, this]
  · have hge : i ≥ 6 := by omega
    have hadd : 6 + (i - 6) = i := by omega
    rw [hadd]
    by_cases h64 : i < 64
    · simp [h6, hge, h64]
    · rw [testBit_of_lt_word x i hx (by omega)]
      simp

theorem aligned_size_eq (data_size : Nat) :
    size_sub (size_add data_size MEMPOOL_ALIGNMENT) 1 &&& bit_not (MEMPOOL_ALIGNMENT - 1)
      = 64 * ((data_size + 63) % 2 ^ 64 / 64) := by
  have e : size_sub (size_add data_size MEMPOOL_ALIGNMENT) 1 = (data_size + 63) % 2 ^ 64 := by
    unfold size_sub size_add SIZE_MOD MEMPOOL_ALIGNMENT
    omega
  rw [e]
  exact and_align_mask _ (Nat.mod_lt _ (by norm_num))

/-- C7: the `block_size` stored by `mempool_create` is a multiple of
`MEMPOOL_ALIGNMENT` (64) for every `data_size`, and when `data_size + 63` does
not wrap a `size_t` it is `round_up(data_size, 64)`: at least `data_size`,
less than `data_size + 64`, and the least multiple of 64 that is at least
`data_size`. -/
theorem mempool_create_block_size (base data_size num_blocks : Nat) (pool : mempool_t)
    (hc : mempool_create base data_size num_blocks = some pool) :
    MEMPOOL_ALIGNMENT ∣ pool.block_size ∧
    (data_size + 63 < 2 ^ 64 →
      pool.block_size = 64 * ((data_size + 63) / 64) ∧
      data_size ≤ pool.block_size ∧ pool.block_size < data_size + 64 ∧
      ∀ m, MEMPOOL_ALIGNMENT ∣ m → data_size ≤ m → pool.block_size ≤ m) := by
  have hbs := (mempool_create_spec base data_size num_blocks pool hc).2.2.2.2.2.1
  rw [aligned_size_eq] at hbs
  constructor
  · rw [hbs]; exact ⟨_, rfl⟩
  · intro hds
    rw [Nat.mod_eq_of_lt hds] at hbs
    refine ⟨hbs, by omega, by omega, ?_⟩
    rintro m ⟨k, rfl⟩ hle
    simp only [MEMPOOL_ALIGNMENT] at hle ⊢
    omega

/-- Witness of C7: `data_size = 100` gives `block_size = 128`. -/
theorem mempool_create_block_size_witness :
    mempool_create 4096 100 8 = some pool8_data100 ∧
    MEMPOOL_ALIGNMENT ∣ pool8_data100.block_size ∧
    pool8_data100.block_size = 64 * ((100 + 63) / 64) ∧
    100 ≤ pool8_data100.block_size ∧ pool8_data100.block_size < 100 + 64 ∧
    ∀ m, MEMPOOL_ALIGNMENT ∣ m → 100 ≤ m → pool8_data100.block_size ≤ m :=
  ⟨by decide,
    (mempool_create_block_size 4096 100 8 pool8_data100 (by decide)).1,
    (mempool_create_block_size 4096 100 8 pool8_data100 (by decide)).2 (by norm_num)⟩

/-! ## Claims about the pool-bound queue -/

theorem mempool_queue_enqueue_success (queue queue1 : mempool_queue_t) (buffer : Nat)
    (h : mempool_queue_enqueue queue buffer = some (queue1, 0)) :
    ∃ idx : Nat, buffer ≠ 0 ∧ queue.count < queue.capacity ∧
      get_block_index queue.pool buffer = some (idx : Int) ∧ idx < queue.pool.block_count ∧
      bitmap_bit queue.queue_bitmap idx = false ∧
      queue1 = { queue with
        block_indices := queue.block_indices.set queue.tail (idx % 2 ^ 16)
        tail := size_add queue.tail 1 % queue.capacity
        count := size_add queue.count 1
        queue_bitmap :=
          queue.queue_bitmap.set (idx / BITMAP_BITS)
            (queue.queue_bitmap.getD (idx / BITMAP_BITS) 0 ||| (1 <<< (idx % BITMAP_BITS))) } := by
  unfold mempool_queue_enqueue at h
  by_cases c1 : buffer = 0 ∨ queue.count ≥ queue.capacity
  · rw [if_pos c1] at h
    simp only [Option.some.injEq, Prod.mk.injEq] at h
    exact absurd h.2 (by decide)
  rw [if_neg c1] at h
  cases hg : get_block_index queue.pool buffer with
  | none => rw [hg] at h; cases h
  | some block_idx =>
    rw [hg] at h
    simp only [] at h
    by_cases c2 : block_idx < 0 ∨ block_idx.toNat ≥ queue.pool.block_count
    · rw [if_pos c2] at h
      simp only [Option.some.injEq, Prod.mk.injEq] at h
      exact absurd h.2 (by decide)
    rw [if_neg c2] at h
    by_cases c3 : queue.queue_bitmap.getD (block_idx.toNat / BITMAP_BITS) 0 &&&
        (1 <<< (block_idx.toNat % BITMAP_BITS)) ≠ 0
    · rw [if_pos c3] at h
      simp only [Option.some.injEq, Prod.mk.injEq] at h
      exact absurd h.2 (by decide)
    rw [if_neg c3] at h
    simp only [Option.some.injEq, Prod.mk.injEq, and_true] at h
    have hnn : 0 ≤ block_idx := by omega
    have hcast : ((block_idx.toNat : Nat) : Int) = block_idx := Int.toNat_of_nonneg hnn
    refine ⟨block_idx.toNat, by omega, by omega, by rw [hcast], by omega, ?_, h.symm⟩
    by_contra hc
    exact c3 ((bitmap_bit_eq_mask _ _).2 (by simpa using hc))

/-- C9: `mempool_queue_enqueue` on a queue with `count == capacity` returns
`-1` for every buffer and leaves the queue unchanged; `mempool_queue_dequeue`
on a queue with `count == 0` returns `NULL` and leaves the queue unchanged. -/
theorem mempool_queue_full_and_empty (queue : mempool_queue_t) (buffer : Nat) :
    (queue.count = queue.capacity → mempool_queue_enqueue queue buffer = some (queue, -1)) ∧
    (queue.count = 0 → mempool_queue_dequeue queue = (queue, none)) := by
  constructor
  · intro h
    unfold mempool_queue_enqueue
    rw [if_pos (Or.inr (by omega))]
  · intro h
    unfold mempool_queue_dequeue
    rw [if_pos h]

/-- Witness of C9: a full queue of capacity 1 and the empty queue `queue4`. -/
theorem mempool_queue_full_and_empty_witness :
    mempool_queue_enqueue
      { pool := pool8, block_indices := [0], capacity := 1, head := 0, tail := 0, count := 1,
        queue_bitmap := [1, 0, 0, 0] } (4096 + 64) =
      some ({ pool := pool8, block_indices := [0], capacity := 1, head := 0, tail := 0,
              count := 1, queue_bitmap := [1, 0, 0, 0] }, -1) ∧
    mempool_queue_dequeue queue4 = (queue4, none) :=
  ⟨(mempool_queue_full_and_empty
      { pool := pool8, block_indices := [0], capacity := 1, head := 0, tail := 0, count := 1,
        queue_bitmap := [1, 0, 0, 0] } (4096 + 64)).1 rfl,
    (mempool_queue_full_and_empty queue4 0).2 rfl⟩

/-! ## The queue: resolving buffers and the ring invariant -/

theorem get_block_index_in_block (pool : mempool_t) (buffer i : Nat) (hbs : 0 < pool.block_size)
    (hok : arena_ok pool) (hbase : pool.memory_area ≠ 0) (hbc : pool.block_count ≤ 256)
    (hi : i < pool.block_count) (hlo : pool.memory_area + i * pool.block_size ≤ buffer)
    (hhi : buffer < pool.memory_area + (i + 1) * pool.block_size) :
    get_block_index pool buffer = some (i : Int) := by
  have hend := block_end_le pool.block_size pool.block_count i hi
  have hok1 : pool.memory_area + pool.block_size * pool.block_count < 2 ^ 64 := hok
  have hidx : (buffer - pool.memory_area) / pool.block_size = i :=
    Nat.div_eq_of_lt_le (by omega) (by omega)
  have hoff : size_sub buffer pool.memory_area = buffer - pool.memory_area := by
    unfold size_sub SIZE_MOD
    rw [Nat.mod_eq_of_lt (by omega : pool.memory_area < 2 ^ 64)]
    omega
  have hmul : size_mul pool.block_size pool.block_count = pool.block_size * pool.block_count := by
    unfold size_mul SIZE_MOD
    exact Nat.mod_eq_of_lt (by omega)
  unfold get_block_index
  rw [if_neg (by omega : ¬ buffer = 0)]
  simp only []
  rw [hoff, hmul, if_neg (by omega), if_neg (by omega : ¬ pool.block_size = 0), hidx]
  have h32 : i % 2 ^ 32 = i := Nat.mod_eq_of_lt (by omega)
  unfold to_int
  rw [h32, if_pos (by omega)]

theorem mod_ne_of_lt (a b c : Nat) (h1 : a < b) (h2 : b - a < c) : a % c ≠ b % c := by
  intro h
  have hd : c ∣ b - a := (Nat.modEq_iff_dvd' (le_of_lt h1)).1 h
  have := Nat.le_of_dvd (by omega) hd
  omega

theorem mempool_queue_create_inv (pool : mempool_t) (capacity : Nat) (ring0 : Nat → Nat)
    (queue : mempool_queue_t) (hbc : pool.block_count ≤ 256)
    (h : mempool_queue_create pool capacity ring0 = some queue) :
    queue_shape queue ∧ queue_inv queue ∧ queue.count = 0 ∧ queue.pool = pool ∧
    queue.capacity = capacity := by
  unfold mempool_queue_create at h
  by_cases c : capacity = 0 ∨ capacity > pool.block_count
  · rw [if_pos c] at h; cases h
  rw [if_neg c] at h
  cases h
  refine ⟨⟨⟨by simp, hbc⟩, by simp, by simp only []; omega⟩, ⟨?_, ⟨?_, ?_, ?_⟩, ⟨?_, ?_⟩, ?_⟩,
    rfl, rfl, rfl⟩
  · simp
  · simp only []; omega
  · simp only []; omega
  · simp only [Nat.add_zero, Nat.zero_mod]
  · simp [ring_entries]
  · simp [ring_entries]
  · intro i
    simp only [ring_entries, List.range_zero, List.map_nil, List.not_mem_nil, iff_false]
    rw [replicate_zero_bit]
    simp

theorem ring_entries_enqueue_mark (queue : mempool_queue_t) (idx : Nat)
    (hshape : queue_shape queue) (hinv : queue_inv queue) (hcount : queue.count < queue.capacity)
    (hidx : idx < queue.pool.block_count) :
    ring_entries (enqueue_mark queue idx) = ring_entries queue ++ [idx] := by
  obtain ⟨⟨_, hbc⟩, hlen, hcap⟩ := hshape
  obtain ⟨_, ⟨hhead, htail, htaileq⟩, _, _⟩ := hinv
  have hbc1 : queue.pool.block_count ≤ 256 := hbc
  have hc1 : size_add queue.count 1 = queue.count + 1 := by
    unfold size_add SIZE_MOD; exact Nat.mod_eq_of_lt (by omega)
  have h16 : idx % 2 ^ 16 = idx := Nat.mod_eq_of_lt (by omega)
  unfold ring_entries enqueue_mark
  simp only []
  rw [hc1, List.range_succ, List.map_append, h16]
  congr 1
  · apply List.map_congr_left
    intro j hj
    rw [List.mem_range] at hj
    rw [getD_set _ _ _ _ (by omega)]
    have hne : (queue.head + j) % queue.capacity ≠ queue.tail := by
      rw [htaileq]
      exact mod_ne_of_lt _ _ _ (by omega) (by omega)
    rw [if_neg hne]
  · simp only [List.map_cons, List.map_nil]
    rw [← htaileq, getD_set _ _ _ _ (by omega), if_pos rfl]

theorem enqueue_mark_inv (queue : mempool_queue_t) (idx : Nat)
    (hshape : queue_shape queue) (hinv : queue_inv queue) (hcount : queue.count < queue.capacity)
    (hidx : idx < queue.pool.block_count) (hbit : bitmap_bit queue.queue_bitmap idx = false) :
    queue_shape (enqueue_mark queue idx) ∧ queue_inv (enqueue_mark queue idx) := by
  have hent := ring_entries_enqueue_mark queue idx hshape hinv hcount hidx
  obtain ⟨⟨hbm, hbc⟩, hlen, hcap⟩ := hshape
  obtain ⟨_, ⟨hhead, htail, htaileq⟩, ⟨hnd, hlt⟩, hmem⟩ := hinv
  have hbc1 : queue.pool.block_count ≤ 256 := hbc
  have hbm1 : queue.queue_bitmap.length = 4 := hbm
  have hc1 : size_add queue.count 1 = queue.count + 1 := by
    unfold size_add SIZE_MOD; exact Nat.mod_eq_of_lt (by omega)
  have ht1 : size_add queue.tail 1 = queue.tail + 1 := by
    unfold size_add SIZE_MOD; exact Nat.mod_eq_of_lt (by omega)
  have hpos : 0 < queue.capacity := by omega
  refine ⟨⟨⟨?_, hbc⟩, ?_, hcap⟩, ?_, ⟨hhead, ?_, ?_⟩, ⟨?_, ?_⟩, ?_⟩
  · simp [enqueue_mark, hbm]
  · simp [enqueue_mark, hlen]
  · show size_add queue.count 1 ≤ queue.capacity
    rw [hc1]; omega
  · show size_add queue.tail 1 % queue.capacity < queue.capacity
    exact Nat.mod_lt _ hpos
  · show size_add queue.tail 1 % queue.capacity =
      (queue.head + size_add queue.count 1) % queue.capacity
    rw [ht1, hc1, htaileq, Nat.mod_add_mod, Nat.add_assoc]
  · rw [hent]
    apply List.Nodup.append hnd (List.nodup_singleton idx)
    intro x hx1 hx2
    rw [List.mem_singleton] at hx2
    subst hx2
    have := (hmem x).2 hx1
    rw [hbit] at this
    exact Bool.noConfusion this
  · rw [hent]
    intro i hi
    rcases List.mem_append.1 hi with h1 | h1
    · exact hlt i h1
    · rw [List.mem_singleton] at h1; rw [h1]; exact hidx
  · intro i
    rw [hent]
    show bitmap_bit (queue.queue_bitmap.set (idx / BITMAP_BITS)
      (queue.queue_bitmap.getD (idx / BITMAP_BITS) 0 ||| (1 <<< (idx % BITMAP_BITS)))) i = true ↔ _
    rw [bitmap_bit_setbit _ idx i (by omega), List.mem_append, List.mem_singleton, ← hmem i]
    simp

theorem mempool_queue_enqueue_cases (queue queue1 : mempool_queue_t) (buffer : Nat) (r : Int)
    (h : mempool_queue_enqueue queue buffer = some (queue1, r)) :
    (queue1 = queue ∧ r = -1) ∨
    (r = 0 ∧ ∃ idx : Nat, buffer ≠ 0 ∧ queue.count < queue.capacity ∧
      get_block_index queue.pool buffer = some (idx : Int) ∧ idx < queue.pool.block_count ∧
      bitmap_bit queue.queue_bitmap idx = false ∧ queue1 = enqueue_mark queue idx) := by
  by_cases hr : r = 0
  · right
    subst hr
    obtain ⟨idx, h1, h2, h3, h4, h5, h6⟩ := mempool_queue_enqueue_success queue queue1 buffer h
    exact ⟨rfl, idx, h1, h2, h3, h4, h5, h6⟩
  · left
    unfold mempool_queue_enqueue at h
    by_cases c1 : buffer = 0 ∨ queue.count ≥ queue.capacity
    · rw [if_pos c1] at h
      simp only [Option.some.injEq, Prod.mk.injEq] at h
      exact ⟨h.1.symm, h.2.symm⟩
    rw [if_neg c1] at h
    cases hg : get_block_index queue.pool buffer with
    | none => rw [hg] at h; cases h
    | some block_idx =>
      rw [hg] at h
      simp only [] at h
      by_cases c2 : block_idx < 0 ∨ block_idx.toNat ≥ queue.pool.block_count
      · rw [if_pos c2] at h
        simp only [Option.some.injEq, Prod.mk.injEq] at h
        exact ⟨h.1.symm, h.2.symm⟩
      rw [if_neg c2] at h
      by_cases c3 : queue.queue_bitmap.getD (block_idx.toNat / BITMAP_BITS) 0 &&&
          (1 <<< (block_idx.toNat % BITMAP_BITS)) ≠ 0
      · rw [if_pos c3] at h
        simp only [Option.some.injEq, Prod.mk.injEq] at h
        exact ⟨h.1.symm, h.2.symm⟩
      rw [if_neg c3] at h
      simp only [Option.some.injEq, Prod.mk.injEq] at h
      exact absurd h.2.symm hr

theorem mempool_queue_enqueue_block (queue : mempool_queue_t) (buffer i : Nat)
    (hshape : queue_shape queue) (hbs : 0 < queue.pool.block_size) (hok : arena_ok queue.pool)
    (hbase : queue.pool.memory_area ≠ 0) (hcount : queue.count < queue.capacity)
    (hi : i < queue.pool.block_count) (hbit : bitmap_bit queue.queue_bitmap i = false)
    (hlo : queue.pool.memory_area + i * queue.pool.block_size ≤ buffer)
    (hhi : buffer < queue.pool.memory_area + (i + 1) * queue.pool.block_size) :
    mempool_queue_enqueue queue buffer = some (enqueue_mark queue i, 0) := by
  have hg := get_block_index_in_block queue.pool buffer i hbs hok hbase hshape.1.2 hi hlo hhi
  unfold mempool_queue_enqueue
  rw [if_neg (by omega : ¬ (buffer = 0 ∨ queue.count ≥ queue.capacity)), hg]
  simp only [Int.toNat_natCast]
  have c2 : ¬ ((i : Int) < 0 ∨ i ≥ queue.pool.block_count) := by omega
  rw [if_neg c2, if_neg (fun hc => by
    have := (bitmap_bit_eq_mask _ _).1 hc
    rw [hbit] at this
    exact Bool.noConfusion this)]
  rfl

/-! ## The queue: dequeue -/

theorem ring_entries_cons (queue : mempool_queue_t) (hcount : 0 < queue.count)
    (hhead : queue.head < queue.capacity) :
    ring_entries queue = queue.block_indices.getD queue.head 0 ::
      (List.range (queue.count - 1)).map
        (fun j => queue.block_indices.getD ((queue.head + 1 + j) % queue.capacity) 0) := by
  unfold ring_entries
  have e : queue.count = (queue.count - 1) + 1 := by omega
  rw [e, List.range_succ_eq_map, List.map_cons, List.map_map]
  simp only [Nat.add_zero, Nat.mod_eq_of_lt hhead, Nat.add_sub_cancel]
  congr 1
  apply List.map_congr_left
  intro j _
  simp only [Function.comp, Nat.succ_eq_add_one]
  have : queue.head + (j + 1) = queue.head + 1 + j := by omega
  rw [this]

theorem mempool_queue_dequeue_inv (queue : mempool_queue_t) (hshape : queue_shape queue)
    (hinv : queue_inv queue) (hcount : 0 < queue.count) :
    ∃ e rest, ring_entries queue = e :: rest ∧
      (mempool_queue_dequeue queue).2 =
        some (ptr_add queue.pool.memory_area (size_mul e queue.pool.block_size)) ∧
      ring_entries (mempool_queue_dequeue queue).1 = rest ∧
      queue_shape (mempool_queue_dequeue queue).1 ∧ queue_inv (mempool_queue_dequeue queue).1 ∧
      (mempool_queue_dequeue queue).1.pool = queue.pool ∧
      (mempool_queue_dequeue queue).1.capacity = queue.capacity ∧
      (mempool_queue_dequeue queue).1.count = queue.count - 1 := by
  obtain ⟨⟨hbm, hbc⟩, hlen, hcap⟩ := hshape
  obtain ⟨hcc, ⟨hhead, htail, htaileq⟩, ⟨hnd, hlt⟩, hmem⟩ := hinv
  have hbc1 : queue.pool.block_count ≤ 256 := hbc
  have hbm1 : queue.queue_bitmap.length = 4 := hbm
  have hpos : 0 < queue.capacity := by omega
  have hc1 : size_sub queue.count 1 = queue.count - 1 := by
    unfold size_sub SIZE_MOD; omega
  have hh1 : size_add queue.head 1 = queue.head + 1 := by
    unfold size_add SIZE_MOD; exact Nat.mod_eq_of_lt (by omega)
  have hcons := ring_entries_cons queue hcount hhead
  have hdq : mempool_queue_dequeue queue =
      ({ queue with
         head := (queue.head + 1) % queue.capacity
         count := queue.count - 1
         queue_bitmap :=
           queue.queue_bitmap.set (queue.block_indices.getD queue.head 0 / BITMAP_BITS)
             (queue.queue_bitmap.getD (queue.block_indices.getD queue.head 0 / BITMAP_BITS) 0 &&&
               bit_not (1 <<< (queue.block_indices.getD queue.head 0 % BITMAP_BITS))) },
        some (ptr_add queue.pool.memory_area
          (size_mul (queue.block_indices.getD queue.head 0) queue.pool.block_size))) := by
    unfold mempool_queue_dequeue
    rw [if_neg (by omega : ¬ queue.count = 0)]
    simp only [hc1, hh1]
  have he0 : queue.block_indices.getD queue.head 0 < queue.pool.block_count := by
    apply hlt; rw [hcons]; exact List.mem_cons_self _ _
  rw [hdq]
  have hrest : ring_entries
      { queue with
        head := (queue.head + 1) % queue.capacity
        count := queue.count - 1
        queue_bitmap :=
          queue.queue_bitmap.set (queue.block_indices.getD queue.head 0 / BITMAP_BITS)
            (queue.queue_bitmap.getD (queue.block_indices.getD queue.head 0 / BITMAP_BITS) 0 &&&
              bit_not (1 <<< (queue.block_indices.getD queue.head 0 % BITMAP_BITS))) } =
      (List.range (queue.count - 1)).map
        (fun j => queue.block_indices.getD ((queue.head + 1 + j) % queue.capacity) 0) := by
    unfold ring_entries
    simp only [Nat.mod_add_mod]
  rw [hcons, List.nodup_cons] at hnd
  refine ⟨_, _, hcons, rfl, hrest, ⟨⟨by simp [hbm], hbc⟩, hlen, hcap⟩, ?_, rfl, rfl, rfl⟩
  refine ⟨(by omega : queue.count - 1 ≤ queue.capacity), ⟨Nat.mod_lt _ hpos, htail, ?_⟩,
    ⟨?_, ?_⟩, ?_⟩
  · show queue.tail = ((queue.head + 1) % queue.capacity + (queue.count - 1)) % queue.capacity
    have e : queue.head + 1 + (queue.count - 1) = queue.head + queue.count := by omega
    rw [Nat.mod_add_mod, e]
    exact htaileq
  · rw [hrest]; exact hnd.2
  · rw [hrest]
    intro i hi
    apply hlt
    rw [hcons]
    exact List.mem_cons_of_mem _ hi
  · intro i
    rw [hrest]
    show bitmap_bit (queue.queue_bitmap.set (queue.block_indices.getD queue.head 0 / BITMAP_BITS)
      (queue.queue_bitmap.getD (queue.block_indices.getD queue.head 0 / BITMAP_BITS) 0 &&&
        bit_not (1 <<< (queue.block_indices.getD queue.head 0 % BITMAP_BITS)))) i = true ↔ _
    rw [bitmap_bit_clear _ _ i (by omega)]
    have hm := hmem i
    rw [hcons, List.mem_cons] at hm
    by_cases hie : i = queue.block_indices.getD queue.head 0
    · have hnot : i ∉ (List.range (queue.count - 1)).map
          (fun j => queue.block_indices.getD ((queue.head + 1 + j) % queue.capacity) 0) := by
        rw [hie]; exact hnd.1
      constructor
      · intro hc
        simp [hie] at hc
      · intro hc
        exact absurd hc hnot
    · simp only [hie, decide_False, Bool.not_false, Bool.and_true]
      rw [hm]
      constructor
      · rintro (h | h)
        · exact absurd h hie
        · exact h
      · intro h
        exact Or.inr h

/-! ## The queue: batch dequeue as repeated dequeue -/

theorem dequeue_batch_loop_succ (queue : mempool_queue_t) (n : Nat) (out : List Nat) :
    dequeue_batch_loop queue (n + 1) out =
      dequeue_batch_loop (dequeue_advance queue) n (out ++ [head_block queue]) := rfl

theorem mempool_queue_dequeue_nonempty (queue : mempool_queue_t) (h : queue.count ≠ 0) :
    mempool_queue_dequeue queue =
      ({ dequeue_advance queue with count := size_sub queue.count 1 }, some (head_block queue)) := by
  unfold mempool_queue_dequeue
  rw [if_neg h]
  rfl

theorem dequeue_batch_loop_count (n : Nat) : ∀ (queue : mempool_queue_t) (out : List Nat) (c : Nat),
    dequeue_batch_loop { queue with count := c } n out =
      ({ (dequeue_batch_loop queue n out).1 with count := c },
        (dequeue_batch_loop queue n out).2) := by
  induction n with
  | zero => intro queue out c; rfl
  | succ n ih =>
    intro queue out c
    rw [dequeue_batch_loop_succ, dequeue_batch_loop_succ]
    exact ih (dequeue_advance queue) _ c

theorem dequeue_batch_loop_count_eq (n : Nat) : ∀ (queue : mempool_queue_t) (out : List Nat),
    (dequeue_batch_loop queue n out).1.count = queue.count := by
  induction n with
  | zero => intro queue out; rfl
  | succ n ih =>
    intro queue out
    rw [dequeue_batch_loop_succ, ih]
    rfl

theorem dequeue_batch_loop_eq_dequeue_many (n : Nat) :
    ∀ (queue : mempool_queue_t) (out : List Nat), queue.count < SIZE_MOD → n ≤ queue.count →
    ({ (dequeue_batch_loop queue n out).1 with count := queue.count - n },
        (dequeue_batch_loop queue n out).2.map some) =
      ((dequeue_many queue n).1, out.map some ++ (dequeue_many queue n).2) := by
  induction n with
  | zero =>
    intro queue out _ _
    simp [dequeue_batch_loop, dequeue_many]
  | succ n ih =>
    intro queue out hlt hn
    have hc1 : size_sub queue.count 1 = queue.count - 1 := by
      unfold size_sub; unfold SIZE_MOD at hlt ⊢; omega
    have hdq := mempool_queue_dequeue_nonempty queue (by omega)
    rw [hc1] at hdq
    have hrec := ih { dequeue_advance queue with count := queue.count - 1 }
      (out ++ [head_block queue])
      (by show queue.count - 1 < SIZE_MOD; omega) (by show n ≤ queue.count - 1; omega)
    rw [dequeue_batch_loop_count] at hrec
    simp only [Prod.mk.injEq] at hrec
    obtain ⟨h1, h2⟩ := hrec
    rw [dequeue_batch_loop_succ]
    simp only [dequeue_many, hdq, Prod.mk.injEq]
    constructor
    · rw [← h1]
      have e : queue.count - 1 - n = queue.count - (n + 1) := by omega
      simp only [e]
    · rw [h2]
      simp

theorem mempool_queue_dequeue_batch_eq (queue : mempool_queue_t) (max_count : Nat)
    (hlt : queue.count < SIZE_MOD) :
    ((mempool_queue_dequeue_batch queue max_count).1,
      (mempool_queue_dequeue_batch queue max_count).2.1.map some,
      (mempool_queue_dequeue_batch queue max_count).2.2) =
    ((dequeue_many queue (min queue.count max_count)).1,
      (dequeue_many queue (min queue.count max_count)).2, min queue.count max_count) := by
  unfold mempool_queue_dequeue_batch
  by_cases h0 : max_count = 0
  · rw [if_pos h0, h0]
    simp [dequeue_many]
  · rw [if_neg h0]
    have hk : min queue.count max_count ≤ queue.count := Nat.min_le_left _ _
    have hloop := dequeue_batch_loop_eq_dequeue_many (min queue.count max_count) queue [] hlt hk
    simp only [Prod.mk.injEq, List.map_nil, List.nil_append] at hloop
    have hsub : size_sub (dequeue_batch_loop queue (min queue.count max_count) []).1.count
        (min queue.count max_count) = queue.count - min queue.count max_count := by
      rw [dequeue_batch_loop_count_eq]
      unfold size_sub; unfold SIZE_MOD at hlt ⊢
      have : min queue.count max_count % 2 ^ 64 = min queue.count max_count :=
        Nat.mod_eq_of_lt (by omega)
      rw [this]; omega
    simp only [hsub, Prod.mk.injEq, and_true]
    exact ⟨hloop.1, hloop.2⟩

theorem dequeue_many_inv (n : Nat) : ∀ (queue : mempool_queue_t), queue_shape queue →
    queue_inv queue → n ≤ queue.count →
    (dequeue_many queue n).2 = ((ring_entries queue).take n).map
      (fun e => some (ptr_add queue.pool.memory_area (size_mul e queue.pool.block_size))) ∧
    ring_entries (dequeue_many queue n).1 = (ring_entries queue).drop n ∧
    queue_shape (dequeue_many queue n).1 ∧ queue_inv (dequeue_many queue n).1 ∧
    (dequeue_many queue n).1.pool = queue.pool ∧
    (dequeue_many queue n).1.capacity = queue.capacity ∧
    (dequeue_many queue n).1.count = queue.count - n := by
  induction n with
  | zero =>
    intro queue hshape hinv _
    exact ⟨by simp [dequeue_many], by simp [dequeue_many], hshape, hinv, rfl, rfl, rfl⟩
  | succ n ih =>
    intro queue hshape hinv hn
    obtain ⟨e, rest, hent, hres, hrest, hshape1, hinv1, hpool1, hcap1, hcount1⟩ :=
      mempool_queue_dequeue_inv queue hshape hinv (by omega)
    obtain ⟨k1, k2, k3, k4, k5, k6, k7⟩ :=
      ih (mempool_queue_dequeue queue).1 hshape1 hinv1 (by rw [hcount1]; omega)
    simp only [dequeue_many]
    refine ⟨?_, ?_, k3, k4, by rw [k5, hpool1], by rw [k6, hcap1], by rw [k7, hcount1]; omega⟩
    · rw [k1, hres, hrest, hent, hpool1]
      simp
    · rw [k2, hrest, hent]
      simp

/-! ## Reachable queue states -/

theorem queue_step_inv (queue queue1 : mempool_queue_t) (op : queue_op)
    (hshape : queue_shape queue) (hinv : queue_inv queue)
    (h : queue_step queue op = some queue1) :
    queue_shape queue1 ∧ queue_inv queue1 ∧ queue1.pool = queue.pool ∧
    queue1.capacity = queue.capacity := by
  have hcount : queue.count < SIZE_MOD := by
    have h1 := hinv.1
    have h2 := hshape.2.2
    have h3 : queue.pool.block_count ≤ 256 := hshape.1.2
    unfold SIZE_MOD; omega
  cases op with
  | enqueue buffer =>
    simp only [queue_step] at h
    cases hq : mempool_queue_enqueue queue buffer with
    | none => rw [hq] at h; cases h
    | some r =>
      rw [hq] at h
      simp only [Option.map_some', Option.some.injEq] at h
      rcases mempool_queue_enqueue_cases queue r.1 buffer r.2 hq with ⟨h1, _⟩ |
        ⟨_, idx, _, hc, _, hidx, hbit, h1⟩
      · rw [← h, h1]; exact ⟨hshape, hinv, rfl, rfl⟩
      · rw [← h, h1]
        obtain ⟨s1, s2⟩ := enqueue_mark_inv queue idx hshape hinv hc hidx hbit
        exact ⟨s1, s2, rfl, rfl⟩
  | dequeue =>
    simp only [queue_step, Option.some.injEq] at h
    by_cases hc : queue.count = 0
    · have : mempool_queue_dequeue queue = (queue, none) := by
        unfold mempool_queue_dequeue; rw [if_pos hc]
      rw [this] at h
      rw [← h]; exact ⟨hshape, hinv, rfl, rfl⟩
    · obtain ⟨_, _, _, _, _, s1, s2, s3, s4, _⟩ :=
        mempool_queue_dequeue_inv queue hshape hinv (by omega)
      rw [← h]; exact ⟨s1, s2, s3, s4⟩
  | peek =>
    simp only [queue_step, Option.some.injEq] at h
    rw [← h]; exact ⟨hshape, hinv, rfl, rfl⟩
  | dequeue_batch max_count =>
    simp only [queue_step, Option.some.injEq] at h
    have hb := mempool_queue_dequeue_batch_eq queue max_count hcount
    simp only [Prod.mk.injEq] at hb
    obtain ⟨_, _, s1, s2, s3, s4, _⟩ := dequeue_many_inv (min queue.count max_count) queue
      hshape hinv (Nat.min_le_left _ _)
    rw [← h, hb.1]; exact ⟨s1, s2, s3, s4⟩

theorem queue_run_inv (ops : List queue_op) : ∀ (queue queue1 : mempool_queue_t),
    queue_shape queue → queue_inv queue → queue_run queue ops = some queue1 →
    queue_shape queue1 ∧ queue_inv queue1 ∧ queue1.pool = queue.pool ∧
    queue1.capacity = queue.capacity := by
  induction ops with
  | nil =>
    intro queue queue1 hshape hinv h
    simp only [queue_run, Option.some.injEq] at h
    rw [← h]; exact ⟨hshape, hinv, rfl, rfl⟩
  | cons op ops ih =>
    intro queue queue1 hshape hinv h
    simp only [queue_run] at h
    cases hstep : queue_step queue op with
    | none => rw [hstep] at h; cases h
    | some q =>
      rw [hstep] at h
      simp only [Option.some_bind] at h
      obtain ⟨s1, s2, s3, s4⟩ := queue_step_inv queue q op hshape hinv hstep
      obtain ⟨t1, t2, t3, t4⟩ := ih q queue1 s1 s2 h
      exact ⟨t1, t2, by rw [t3, s3], by rw [t4, s4]⟩

/-! ## FIFO order -/

theorem enqueue_all_blocks (idxs : List Nat) : ∀ (queue : mempool_queue_t), queue_shape queue →
    queue_inv queue → 0 < queue.pool.block_size → arena_ok queue.pool →
    queue.pool.memory_area ≠ 0 → queue.count + idxs.length ≤ queue.capacity → idxs.Nodup →
    (∀ i ∈ idxs, i < queue.pool.block_count ∧ i ∉ ring_entries queue) →
    ∃ queue1, enqueue_all queue
        (idxs.map (fun i => queue.pool.memory_area + i * queue.pool.block_size)) =
        some (queue1, List.replicate idxs.length 0) ∧
      queue_shape queue1 ∧ queue_inv queue1 ∧ queue1.pool = queue.pool ∧
      ring_entries queue1 = ring_entries queue ++ idxs := by
  induction idxs with
  | nil =>
    intro queue hshape hinv _ _ _ _ _ _
    exact ⟨queue, rfl, hshape, hinv, rfl, by simp⟩
  | cons i rest ih =>
    intro queue hshape hinv hbs hok hbase hcap hnd hidx
    rw [List.nodup_cons] at hnd
    simp only [List.length_cons] at hcap
    obtain ⟨hi, hnot⟩ := hidx i (List.mem_cons_self _ _)
    have hbit : bitmap_bit queue.queue_bitmap i = false := by
      by_contra hc
      exact hnot ((hinv.2.2.2 i).1 (by simpa using hc))
    have henq := mempool_queue_enqueue_block queue
      (queue.pool.memory_area + i * queue.pool.block_size) i hshape hbs hok hbase (by omega) hi
      hbit le_rfl (by rw [Nat.add_mul]; omega)
    obtain ⟨s1, s2⟩ := enqueue_mark_inv queue i hshape hinv (by omega) hi hbit
    have hent := ring_entries_enqueue_mark queue i hshape hinv (by omega) hi
    have hcount : (enqueue_mark queue i).count = queue.count + 1 := by
      show size_add queue.count 1 = queue.count + 1
      have h1 := hshape.2.2
      have h3 : queue.pool.block_count ≤ 256 := hshape.1.2
      unfold size_add SIZE_MOD; exact Nat.mod_eq_of_lt (by omega)
    obtain ⟨q1, hall, t1, t2, t3, t4⟩ := ih (enqueue_mark queue i) s1 s2 hbs hok hbase
      (by rw [hcount]; show queue.count + 1 + rest.length ≤ queue.capacity; omega) hnd.2
      (by
        intro j hj
        refine ⟨(hidx j (List.mem_cons_of_mem _ hj)).1, ?_⟩
        rw [hent, List.mem_append, List.mem_singleton]
        rintro (h | h)
        · exact (hidx j (List.mem_cons_of_mem _ hj)).2 h
        · exact hnd.1 (h ▸ hj))
    refine ⟨q1, ?_, t1, t2, t3, by rw [t4, hent]; simp⟩
    simp only [List.map_cons, enqueue_all, henq, Option.some_bind]
    have hall1 : enqueue_all (enqueue_mark queue i)
        (rest.map (fun i => queue.pool.memory_area + i * queue.pool.block_size)) =
        some (q1, List.replicate rest.length 0) := hall
    rw [hall1]
    simp [List.replicate_succ]

/-- C10 as stated fails where `block_size` is zero: over the pool made by
`mempool_create(0, 1)` the start address 4096 of block 0 does not resolve to a
block index, so its `mempool_queue_enqueue` into a fresh queue of capacity 1
returns `-1` and `mempool_queue_dequeue_batch(queue, buffers, 1)` returns 0. -/
theorem mempool_queue_fifo_zero_block_size :
    (mempool_create 4096 0 1).bind (fun p =>
      (mempool_queue_create p 1 (fun _ => 0)).bind (fun q =>
        (enqueue_all q [p.memory_area + 0 * p.block_size]).map (fun r =>
          (r.2, (mempool_queue_dequeue_batch r.1 1).2)))) = some ([-1], ([], 0)) := by
  decide

/-- C10 (amended): over a pool whose `block_size` is non-zero and whose arena
lies inside the address space, take a queue made by `mempool_queue_create` with
capacity `c`, in the fresh state or in any empty state reached by earlier
enqueue / dequeue / peek / dequeue_batch calls (so `head` may have wrapped),
and `n <= c` block start addresses with pairwise distinct block indices:
enqueueing them in order succeeds every time, and `mempool_queue_dequeue_batch`
with `max_count = n` then returns `n` and writes exactly those addresses in the
same order. -/
theorem mempool_queue_fifo (pool : mempool_t) (capacity : Nat) (ring0 : Nat → Nat)
    (queue0 queue : mempool_queue_t) (ops : List queue_op) (idxs : List Nat)
    (hpool : pool_reachable pool) (hbs : 0 < pool.block_size) (hok : arena_ok pool)
    (hcreate : mempool_queue_create pool capacity ring0 = some queue0)
    (hrun : queue_run queue0 ops = some queue) (hempty : queue.count = 0)
    (hlen : idxs.length ≤ capacity) (hnd : idxs.Nodup)
    (hlt : ∀ i ∈ idxs, i < pool.block_count) :
    ∃ queue1,
      enqueue_all queue (idxs.map (fun i => pool.memory_area + i * pool.block_size)) =
        some (queue1, List.replicate idxs.length 0) ∧
      (mempool_queue_dequeue_batch queue1 idxs.length).2 =
        (idxs.map (fun i => pool.memory_area + i * pool.block_size), idxs.length) := by
  have hwf := pool_reachable_wf pool hpool
  have hbase := pool_reachable_base pool hpool
  obtain ⟨s1, s2, _, s4, s5⟩ :=
    mempool_queue_create_inv pool capacity ring0 queue0 hwf.2.2.2.2 hcreate
  obtain ⟨t1, t2, t3, t4⟩ := queue_run_inv ops queue0 queue s1 s2 hrun
  have hqpool : queue.pool = pool := by rw [t3, s4]
  have hqcap : queue.capacity = capacity := by rw [t4, s5]
  have hent0 : ring_entries queue = [] := by
    unfold ring_entries; rw [hempty]; rfl
  obtain ⟨q1, hall, u1, u2, u3, u4⟩ := enqueue_all_blocks idxs queue t1 t2
    (by rw [hqpool]; exact hbs) (by rw [hqpool]; exact hok) (by rw [hqpool]; exact hbase)
    (by rw [hempty, hqcap]; omega) hnd
    (by
      intro i hi
      rw [hqpool, hent0]
      exact ⟨hlt i hi, List.not_mem_nil i⟩)
  rw [hqpool] at hall
  rw [hent0, List.nil_append] at u4
  have hq1pool : q1.pool = pool := by rw [u3, hqpool]
  have hcount1 : q1.count = idxs.length := by
    have : (ring_entries q1).length = q1.count := by simp [ring_entries]
    rw [← this, u4]
  have hlt1 : q1.count < SIZE_MOD := by
    have h1 := u2.1
    have h2 := u1.2.2
    have h3 : q1.pool.block_count ≤ 256 := u1.1.2
    unfold SIZE_MOD; omega
  have hb := mempool_queue_dequeue_batch_eq q1 idxs.length hlt1
  rw [hcount1, Nat.min_self] at hb
  simp only [Prod.mk.injEq] at hb
  obtain ⟨_, hout, hk⟩ := hb
  obtain ⟨hmany, _⟩ := dequeue_many_inv idxs.length q1 u1 u2 (by omega)
  rw [u4, List.take_length, hq1pool] at hmany
  refine ⟨q1, hall, ?_⟩
  have houts : (mempool_queue_dequeue_batch q1 idxs.length).2.1 =
      idxs.map (fun i => pool.memory_area + i * pool.block_size) := by
    apply List.map_injective_iff.2 (Option.some_injective _)
    show List.map some _ = List.map some _
    rw [hout, hmany, List.map_map]
    apply List.map_congr_left
    intro i hi
    simp only [Function.comp]
    rw [ptr_add_size_mul_eq pool hok i (le_of_lt (hlt i hi))]
  exact Prod.ext houts hk

/-- Witness of C10: the queue `queue4_wrapped`, reached from the fresh queue by
three enqueues and a batch dequeue, so that the three new entries occupy the
slots 3, 0, 1; indices `[0, 1, 2]` come back in the same order. -/
theorem mempool_queue_fifo_witness :
    ∃ queue1,
      enqueue_all queue4_wrapped
        ([0, 1, 2].map (fun i => pool8.memory_area + i * pool8.block_size)) =
        some (queue1, List.replicate [0, 1, 2].length 0) ∧
      (mempool_queue_dequeue_batch queue1 [0, 1, 2].length).2 =
        ([0, 1, 2].map (fun i => pool8.memory_area + i * pool8.block_size), [0, 1, 2].length) :=
  mempool_queue_fifo pool8 4 (fun _ => 7) queue4 queue4_wrapped
    [queue_op.enqueue 4096, queue_op.enqueue 4160, queue_op.enqueue 4224,
      queue_op.dequeue_batch 3] [0, 1, 2]
    ⟨4096, 64, 8, pool8, [], pool8_created, rfl⟩ (by decide) (by unfold arena_ok; decide)
    (by decide) (by decide) rfl (by decide) (by decide) (by decide)

/-! ## Pools whose size product wraps

`mempool_create` multiplies `aligned_size * num_blocks` in `size_t` without an
overflow check.  With `data_size = 2 ^ 62` and 4 or 8 blocks the product is
zero modulo `2 ^ 64`, the arena request is for 0 bytes, and the pool that
results has a non-zero `block_size` but an arena that does not fit the address
space.  The three facts below show what the condition `arena_ok` excludes. -/

/-- In the pool made by `mempool_create(2 ^ 62, 8)` the fifth `mempool_alloc`
returns the address of block 0 again (`4 * 2 ^ 62` wraps to 0). -/
theorem wrapped_arena_alloc_alias :
    ((mempool_create 4096 (2 ^ 62) 8).bind (fun p =>
        live_run (p, []) (List.replicate 5 (pool_op.alloc false)))).map (fun s => s.2)
      = some [4096, 4096 + 2 ^ 62, 4096 + 2 ^ 63, 4096 + 3 * 2 ^ 62, 4096] := by
  decide

/-- In the pool made by `mempool_create(2 ^ 62, 4)` the range check of
`mempool_free` rejects the address `mempool_alloc` has just returned. -/
theorem wrapped_arena_free_rejected :
    (mempool_create 4096 (2 ^ 62) 4).map (fun p =>
        (p.block_size, (mempool_alloc p false).2, mempool_available (mempool_alloc p false).1,
          (mempool_free (mempool_alloc p false).1 4096).map mempool_available))
      = some (2 ^ 62, some 4096, 195, some 195) := by
  decide

/-- Over the pool made by `mempool_create(2 ^ 62, 4)` the start address of
block 0 does not resolve to a block index, and its enqueue returns `-1`. -/
theorem wrapped_arena_enqueue_rejected :
    (mempool_create 4096 (2 ^ 62) 4).bind (fun p =>
      (mempool_queue_create p 1 (fun _ => 0)).bind (fun q =>
        (enqueue_all q [p.memory_area + 0 * p.block_size]).map (fun r => r.2))) = some [-1] := by
  decide

/-! ## The count `mempool_available` reports for a fresh pool -/

theorem POPCOUNT_LL_ones : POPCOUNT_LL (SIZE_MOD - 1) = 64 := by decide

theorem POPCOUNT_LL_low_mask : ∀ u, u < 64 →
    POPCOUNT_LL ((SIZE_MOD - 1) &&& ((1 <<< u) - 1)) = u := by
  decide

theorem replicate_ones_getD (j : Nat) (hj : j < 4) :
    (List.replicate BITMAP_WORDS (SIZE_MOD - 1)).getD j 0 = SIZE_MOD - 1 := by
  rw [List.getD_eq_getElem?_getD, List.getElem?_replicate, if_pos (by simpa [BITMAP_WORDS] using hj)]
  rfl

/-- What `mempool_available` and `mempool_used` report right after
`mempool_create`, for every valid `num_blocks`: each bitmap word after the last
used one adds 64 to the count. -/
theorem mempool_create_available_count (base data_size num_blocks : Nat) (pool : mempool_t)
    (hc : mempool_create base data_size num_blocks = some pool) :
    mempool_available pool = num_blocks + 64 * (3 - (num_blocks - 1) / 64) ∧
    mempool_used pool = size_sub num_blocks (num_blocks + 64 * (3 - (num_blocks - 1) / 64)) := by
  have key : mempool_available pool = num_blocks + 64 * (3 - (num_blocks - 1) / 64) := by
    rw [mempool_available_eq]
    unfold mempool_create at hc
    by_cases hn : num_blocks = 0 ∨ num_blocks > MEMPOOL_MAX_BLOCKS
    · rw [if_pos hn] at hc; cases hc
    rw [if_neg hn] at hc
    by_cases hb : base = 0
    · rw [if_pos hb] at hc; cases hc
    rw [if_neg hb] at hc
    simp only [MEMPOOL_MAX_BLOCKS] at hn
    have h0 := replicate_ones_getD 0 (by norm_num)
    have h1 := replicate_ones_getD 1 (by norm_num)
    have h2 := replicate_ones_getD 2 (by norm_num)
    have h3 := replicate_ones_getD 3 (by norm_num)
    by_cases hmod : num_blocks % BITMAP_BITS ≠ 0
    · simp only [if_pos hmod] at hc
      cases hc
      simp only [BITMAP_BITS] at hmod ⊢
      have hlen : (List.replicate BITMAP_WORDS (SIZE_MOD - 1)).length = 4 := by
        simp [BITMAP_WORDS]
      have hlw : (num_blocks - 1) / 64 < 4 := by omega
      have hmask := POPCOUNT_LL_low_mask (num_blocks % 64) (Nat.mod_lt _ (by norm_num))
      rw [getD_set _ _ _ 0 (by omega), getD_set _ _ _ 1 (by omega), getD_set _ _ _ 2 (by omega),
        getD_set _ _ _ 3 (by omega), replicate_ones_getD _ hlw, h0, h1, h2, h3]
      have h4 : (num_blocks - 1) / 64 = 0 ∨ (num_blocks - 1) / 64 = 1 ∨
          (num_blocks - 1) / 64 = 2 ∨ (num_blocks - 1) / 64 = 3 := by omega
      rcases h4 with h | h | h | h <;> rw [h] <;>
        simp only [↓reduceIte, Nat.reduceEqDiff, OfNat.ofNat_ne_zero, OfNat.zero_ne_ofNat,
          OfNat.ofNat_ne_one, OfNat.one_ne_ofNat, zero_ne_one, one_ne_zero, hmask,
          POPCOUNT_LL_ones] <;> omega
    · simp only [if_neg hmod] at hc
      cases hc
      simp only [BITMAP_BITS, not_not] at hmod
      simp only []
      rw [h0, h1, h2, h3, POPCOUNT_LL_ones]
      omega
  refine ⟨key, ?_⟩
  unfold mempool_used
  rw [key, (mempool_create_spec base data_size num_blocks pool hc).2.2.2.2.1]

/-! ## Ownership bits -/

theorem alloc_mark_hw_bit (pool : mempool_t) (for_hw : Bool) (m i : Nat) (hwf : pool_wf pool)
    (hm : m < pool.block_count) :
    bitmap_bit (alloc_mark pool for_hw m).hw_owned_bitmap i =
      (bitmap_bit pool.hw_owned_bitmap i || (for_hw && decide (i = m))) := by
  have hbc : pool.block_count ≤ 256 := hwf.2.2.2.2
  have hlen : pool.hw_owned_bitmap.length = 4 := hwf.2.1
  cases for_hw
  · simp [alloc_mark]
  · simp only [alloc_mark, if_true, Bool.true_and]
    exact bitmap_bit_setbit pool.hw_owned_bitmap m i (by omega)

theorem free_mark_hw_bit (pool : mempool_t) (m i : Nat) (hwf : pool_wf pool)
    (hm : m < pool.block_count) :
    bitmap_bit (free_mark pool m).hw_owned_bitmap i =
      (bitmap_bit pool.hw_owned_bitmap i && !decide (i = m)) := by
  have hbc : pool.block_count ≤ 256 := hwf.2.2.2.2
  have hlen : pool.hw_owned_bitmap.length = 4 := hwf.2.1
  unfold free_mark
  simp only []
  by_cases hset : pool.hw_owned_bitmap.getD (m / BITMAP_BITS) 0 &&& (1 <<< (m % BITMAP_BITS)) ≠ 0
  · rw [if_pos hset]
    exact bitmap_bit_clear pool.hw_owned_bitmap m i (by omega)
  · rw [if_neg hset]
    have hclear : bitmap_bit pool.hw_owned_bitmap m = false := by
      by_contra hc
      exact hset ((bitmap_bit_eq_mask _ _).2 (by simpa using hc))
    by_cases him : i = m
    · subst him; simp [hclear]
    · simp [him]

theorem pool_step_owned_not_free (pool pool1 : mempool_t) (op : pool_op) (hwf : pool_wf pool)
    (hinv : ∀ i, bitmap_bit pool.hw_owned_bitmap i = true → bitmap_bit pool.free_bitmap i = false)
    (h : pool_step pool op = some pool1) :
    ∀ i, bitmap_bit pool1.hw_owned_bitmap i = true → bitmap_bit pool1.free_bitmap i = false := by
  cases op with
  | alloc for_hw =>
    simp only [pool_step, Option.some.injEq] at h
    subst h
    rcases mempool_alloc_cases pool for_hw hwf with ⟨_, h1⟩ | ⟨m, hm, _, _, h1⟩
    · rw [h1]; exact hinv
    · rw [h1]
      intro i hi
      rw [alloc_mark_hw_bit pool for_hw m i hwf hm] at hi
      rw [alloc_mark_free_bit pool for_hw m i hwf hm]
      by_cases him : i = m
      · simp [him]
      · simp only [him, decide_False, Bool.and_false, Bool.or_false] at hi
        rw [hinv i hi]; rfl
  | free ptr =>
    simp only [pool_step] at h
    rcases mempool_free_cases pool ptr with h1 | ⟨_, _, _, _, hidx, _, h1⟩
    · rw [h1] at h; cases h; exact hinv
    · rw [h1] at h; cases h
      intro i hi
      rw [free_mark_hw_bit pool _ i hwf hidx] at hi
      rw [free_mark_free_bit pool _ i hwf hidx]
      simp only [Bool.and_eq_true, Bool.not_eq_true', decide_eq_false_iff_not] at hi
      rw [hinv i hi.1]
      simp [hi.2]

theorem pool_run_owned_not_free (ops : List pool_op) : ∀ (pool pool1 : mempool_t), pool_wf pool →
    (∀ i, bitmap_bit pool.hw_owned_bitmap i = true → bitmap_bit pool.free_bitmap i = false) →
    pool_run pool ops = some pool1 →
    ∀ i, bitmap_bit pool1.hw_owned_bitmap i = true → bitmap_bit pool1.free_bitmap i = false := by
  induction ops with
  | nil =>
    intro pool pool1 _ hinv h
    simp only [pool_run, Option.some.injEq] at h
    subst h; exact hinv
  | cons op ops ih =>
    intro pool pool1 hwf hinv h
    simp only [pool_run] at h
    cases hstep : pool_step pool op with
    | none => rw [hstep] at h; cases h
    | some p =>
      rw [hstep] at h
      simp only [Option.some_bind] at h
      exact ih p pool1 (pool_step_wf pool p op hwf hstep).1
        (pool_step_owned_not_free pool p op hwf hinv hstep) h

theorem pool_reachable_owned_not_free (pool : mempool_t) (h : pool_reachable pool) :
    ∀ i, bitmap_bit pool.hw_owned_bitmap i = true → bitmap_bit pool.free_bitmap i = false := by
  obtain ⟨base, ds, nb, p0, ops, hc, hr⟩ := h
  obtain ⟨_, _, _, _, _, _, hwf0, _, hhw⟩ := mempool_create_spec base ds nb p0 hc
  apply pool_run_owned_not_free ops p0 pool hwf0 _ hr
  intro i hi
  rw [hhw i] at hi
  exact Bool.noConfusion hi

theorem mempool_free_total (pool : mempool_t) (ptr : Nat) :
    ∃ pool1, mempool_free pool ptr = some pool1 := by
  rcases mempool_free_cases pool ptr with h | ⟨_, _, _, _, _, _, h⟩
  · exact ⟨_, h⟩
  · exact ⟨_, h⟩

theorem pool_run_total (ops : List pool_op) : ∀ pool : mempool_t,
    ∃ pool1, pool_run pool ops = some pool1 := by
  induction ops with
  | nil => intro pool; exact ⟨pool, rfl⟩
  | cons op ops ih =>
    intro pool
    have hstep : ∃ p, pool_step pool op = some p := by
      cases op with
      | alloc for_hw => exact ⟨_, rfl⟩
      | free ptr => exact mempool_free_total pool ptr
    obtain ⟨p, hp⟩ := hstep
    obtain ⟨p1, hp1⟩ := ih p
    exact ⟨p1, by simp only [pool_run, hp, Option.some_bind]; exact hp1⟩

/-- C15: pool invariant `owned[i] => not free[i]`.  From every pool created by
`mempool_create`, every sequence of `mempool_alloc(for_hw)` and
`mempool_free(ptr)` calls (any flags, any pointers, valid or not) runs to a
state, and in that state no block index has both its `hw_owned_bitmap` bit and
its `free_bitmap` bit set. -/
theorem pool_owned_implies_not_free (base data_size num_blocks : Nat) (pool0 : mempool_t)
    (ops : List pool_op) (hc : mempool_create base data_size num_blocks = some pool0) :
    ∃ pool, pool_run pool0 ops = some pool ∧
      ∀ i, ¬ (bitmap_bit pool.hw_owned_bitmap i = true ∧ bitmap_bit pool.free_bitmap i = true) := by
  obtain ⟨pool, hrun⟩ := pool_run_total ops pool0
  refine ⟨pool, hrun, ?_⟩
  rintro i ⟨h1, h2⟩
  have := pool_reachable_owned_not_free pool ⟨base, data_size, num_blocks, pool0, ops, hc, hrun⟩
    i h1
  rw [this] at h2
  exact Bool.noConfusion h2

/-- Witness of C15: the 8-block pool; a hardware allocation, a plain one, a
free of the hardware block, a free of a pointer outside the arena, and a
double free. -/
theorem pool_owned_implies_not_free_witness :
    ∃ pool, pool_run pool8
        [pool_op.alloc true, pool_op.alloc false, pool_op.free 4096, pool_op.free 7,
          pool_op.free 4096] = some pool ∧
      ∀ i, ¬ (bitmap_bit pool.hw_owned_bitmap i = true ∧ bitmap_bit pool.free_bitmap i = true) :=
  pool_owned_implies_not_free 4096 64 8 pool8
    [pool_op.alloc true, pool_op.alloc false, pool_op.free 4096, pool_op.free 7,
      pool_op.free 4096] pool8_created

/-- C16: in every reachable pool state in which `mempool_alloc(pool, for_hw)`
succeeds, it succeeds with the first free block index `m`: the resulting state
has `free[m]` cleared and `owned[m]` equal to `for_hw`, and the free and owned
bits of every other index are unchanged. -/
theorem mempool_alloc_frame (pool : mempool_t) (for_hw : Bool) (hreach : pool_reachable pool)
    (hsucc : (mempool_alloc pool for_hw).2 ≠ none) :
    ∃ m, m < pool.block_count ∧ bitmap_bit pool.free_bitmap m = true ∧
      (∀ j, j < m → bitmap_bit pool.free_bitmap j = false) ∧
      (mempool_alloc pool for_hw).2 =
        some (ptr_add pool.memory_area (size_mul m pool.block_size)) ∧
      bitmap_bit (mempool_alloc pool for_hw).1.free_bitmap m = false ∧
      bitmap_bit (mempool_alloc pool for_hw).1.hw_owned_bitmap m = for_hw ∧
      ∀ i, i ≠ m →
        bitmap_bit (mempool_alloc pool for_hw).1.free_bitmap i = bitmap_bit pool.free_bitmap i ∧
        bitmap_bit (mempool_alloc pool for_hw).1.hw_owned_bitmap i =
          bitmap_bit pool.hw_owned_bitmap i := by
  have hwf := pool_reachable_wf pool hreach
  have hinv := pool_reachable_owned_not_free pool hreach
  rcases mempool_alloc_cases pool for_hw hwf with ⟨_, h⟩ | ⟨m, hm, hset, hmin, h⟩
  · rw [h] at hsucc; exact absurd rfl hsucc
  · have hown : bitmap_bit pool.hw_owned_bitmap m = false := by
      by_contra hc
      have := hinv m (by simpa using hc)
      rw [hset] at this
      exact Bool.noConfusion this
    refine ⟨m, hm, hset, hmin, by rw [h], ?_, ?_, ?_⟩
    · rw [h, alloc_mark_free_bit pool for_hw m m hwf hm]; simp
    · rw [h, alloc_mark_hw_bit pool for_hw m m hwf hm, hown]; simp
    · intro i hi
      rw [h, alloc_mark_free_bit pool for_hw m i hwf hm, alloc_mark_hw_bit pool for_hw m i hwf hm]
      simp [hi]

/-- Witness of C16: a hardware allocation in the 8-block pool with block 0
already allocated takes block 1. -/
theorem mempool_alloc_frame_witness :
    ∃ m, m < pool8_one_allocated.block_count ∧
      bitmap_bit pool8_one_allocated.free_bitmap m = true ∧
      (∀ j, j < m → bitmap_bit pool8_one_allocated.free_bitmap j = false) ∧
      (mempool_alloc pool8_one_allocated true).2 =
        some (ptr_add pool8_one_allocated.memory_area
          (size_mul m pool8_one_allocated.block_size)) ∧
      bitmap_bit (mempool_alloc pool8_one_allocated true).1.free_bitmap m = false ∧
      bitmap_bit (mempool_alloc pool8_one_allocated true).1.hw_owned_bitmap m = true ∧
      ∀ i, i ≠ m →
        bitmap_bit (mempool_alloc pool8_one_allocated true).1.free_bitmap i =
          bitmap_bit pool8_one_allocated.free_bitmap i ∧
        bitmap_bit (mempool_alloc pool8_one_allocated true).1.hw_owned_bitmap i =
          bitmap_bit pool8_one_allocated.hw_owned_bitmap i :=
  mempool_alloc_frame pool8_one_allocated true pool8_one_allocated_reachable (by decide)

/-! ## Allocation followed by release -/

theorem set_getD_self (l : List Nat) (k : Nat) : l.set k (l.getD k 0) = l := by
  apply List.ext_getElem?
  intro n
  rw [List.getElem?_set]
  by_cases hkn : k = n
  · subst hkn
    by_cases hlt : k < l.length
    · rw [if_pos rfl, if_pos hlt, List.getD_eq_getElem _ _ hlt, List.getElem?_eq_getElem hlt]
    · rw [if_pos rfl, if_neg hlt, List.getElem?_eq_none (by omega)]
  · rw [if_neg hkn]

theorem clear_then_set_bit (w b : Nat) (hw : w < 2 ^ 64) (hb : b < 64)
    (hset : w.testBit b = true) : (w &&& bit_not (1 <<< b)) ||| (1 <<< b) = w := by
  apply Nat.eq_of_testBit_eq
  intro i
  rw [testBit_set_bit, testBit_clear_bit _ _ _ hb]
  by_cases hbi : b = i
  · subst hbi; simp [hset]
  · by_cases hi : i < 64
    · simp [hbi, hi]
    · rw [testBit_of_lt_word w i hw (by omega)]; simp [hbi]

theorem set_then_clear_bit (w b : Nat) (hw : w < 2 ^ 64) (hb : b < 64)
    (hclear : w.testBit b = false) : (w ||| (1 <<< b)) &&& bit_not (1 <<< b) = w := by
  apply Nat.eq_of_testBit_eq
  intro i
  rw [testBit_clear_bit _ _ _ hb, testBit_set_bit]
  by_cases hbi : b = i
  · subst hbi; simp [hclear]
  · by_cases hi : i < 64
    · simp [hbi, hi]
    · rw [testBit_of_lt_word w i hw (by omega)]; simp [hbi]

theorem free_mark_alloc_mark (pool : mempool_t) (for_hw : Bool) (m : Nat) (hwf : pool_wf pool)
    (hm : m < pool.block_count) (hfree : bitmap_bit pool.free_bitmap m = true)
    (hown : bitmap_bit pool.hw_owned_bitmap m = false) :
    free_mark (alloc_mark pool for_hw m) m = pool := by
  obtain ⟨hl1, hl2, hw1, hw2, hbc⟩ := hwf
  have hbc1 : pool.block_count ≤ 256 := hbc
  have hl1' : pool.free_bitmap.length = 4 := hl1
  have hl2' : pool.hw_owned_bitmap.length = 4 := hl2
  have hb : m % 64 < 64 := Nat.mod_lt m (by norm_num)
  have hfree1 : (pool.free_bitmap.getD (m / 64) 0).testBit (m % 64) = true := hfree
  have hown1 : (pool.hw_owned_bitmap.getD (m / 64) 0).testBit (m % 64) = false := hown
  have hfreeW : (alloc_mark pool for_hw m).free_bitmap.set (m / BITMAP_BITS)
      ((alloc_mark pool for_hw m).free_bitmap.getD (m / BITMAP_BITS) 0 |||
        (1 <<< (m % BITMAP_BITS))) = pool.free_bitmap := by
    simp only [alloc_mark, BITMAP_BITS]
    rw [getD_set _ _ _ _ (by omega), if_pos rfl, List.set_set,
      clear_then_set_bit _ _ (getD_word_lt _ hw1 _) hb hfree1, set_getD_self]
  have hownW : (if (alloc_mark pool for_hw m).hw_owned_bitmap.getD (m / BITMAP_BITS) 0 &&&
        (1 <<< (m % BITMAP_BITS)) ≠ 0 then
      (alloc_mark pool for_hw m).hw_owned_bitmap.set (m / BITMAP_BITS)
        ((alloc_mark pool for_hw m).hw_owned_bitmap.getD (m / BITMAP_BITS) 0 &&&
          bit_not (1 <<< (m % BITMAP_BITS)))
      else (alloc_mark pool for_hw m).hw_owned_bitmap) = pool.hw_owned_bitmap := by
    cases for_hw
    · have hno : ¬ (pool.hw_owned_bitmap.getD (m / BITMAP_BITS) 0 &&&
          (1 <<< (m % BITMAP_BITS)) ≠ 0) := by
        intro hc
        have := (bitmap_bit_eq_mask _ _).1 hc
        rw [hown] at this
        exact Bool.noConfusion this
      simp only [alloc_mark, Bool.false_eq_true, if_false]
      rw [if_neg hno]
    · have hyes : bitmap_bit (pool.hw_owned_bitmap.set (m / BITMAP_BITS)
          (pool.hw_owned_bitmap.getD (m / BITMAP_BITS) 0 ||| (1 <<< (m % BITMAP_BITS)))) m
          = true := by
        rw [bitmap_bit_setbit _ m m (by omega)]; simp
      simp only [alloc_mark, if_true]
      rw [if_pos ((bitmap_bit_eq_mask _ _).2 hyes)]
      simp only [BITMAP_BITS]
      rw [getD_set _ _ _ _ (by omega), if_pos rfl, List.set_set,
        set_then_clear_bit _ _ (getD_word_lt _ hw2 _) hb hown1, set_getD_self]
  have hstruct : free_mark (alloc_mark pool for_hw m) m =
      { pool with hw_owned_bitmap := pool.hw_owned_bitmap, free_bitmap := pool.free_bitmap } := by
    unfold free_mark
    rw [hfreeW, hownW]
    rfl
  rw [hstruct]

/-- C18 as stated fails where `block_size` is zero: in the pool made by
`mempool_create(0, 2)` the first `mempool_alloc` returns 4096, but
`mempool_free` of that address is rejected by the range check and the state
stays the one after the alloc. -/
theorem mempool_alloc_free_zero_block_size :
    (mempool_create 4096 0 2).map (fun p =>
        ((mempool_alloc p false).2,
          decide (mempool_free (mempool_alloc p false).1 4096 = some p),
          decide (mempool_free (mempool_alloc p false).1 4096 = some (mempool_alloc p false).1)))
      = some (some 4096, false, true) := by
  decide

/-- C18 (amended): in every reachable pool state with a non-zero `block_size`
whose arena lies inside the address space, if `mempool_alloc(pool, for_hw)`
returns a non-null address `p`, then `mempool_free(pool, p)` right after it
restores exactly the state before the alloc: both bitmaps are equal word for
word. -/
theorem mempool_alloc_free_round_trip (pool : mempool_t) (for_hw : Bool) (p : Nat)
    (hreach : pool_reachable pool) (hbs : 0 < pool.block_size) (hok : arena_ok pool)
    (halloc : (mempool_alloc pool for_hw).2 = some p) :
    mempool_free (mempool_alloc pool for_hw).1 p = some pool := by
  have hwf := pool_reachable_wf pool hreach
  have hbase := pool_reachable_base pool hreach
  have hinv := pool_reachable_owned_not_free pool hreach
  rcases mempool_alloc_cases pool for_hw hwf with ⟨_, h⟩ | ⟨m, hm, hset, _, h⟩
  · rw [h] at halloc; cases halloc
  · rw [h] at halloc ⊢
    simp only [Option.some.injEq] at halloc
    rw [ptr_add_size_mul_eq pool hok m (le_of_lt hm)] at halloc
    subst halloc
    have hown : bitmap_bit pool.hw_owned_bitmap m = false := by
      by_contra hc
      have := hinv m (by simpa using hc)
      rw [hset] at this
      exact Bool.noConfusion this
    have hfree := mempool_free_in_block (alloc_mark pool for_hw m)
      (pool.memory_area + m * pool.block_size) m hbs hok hbase hm le_rfl
      (by show _ < pool.memory_area + (m + 1) * pool.block_size; rw [Nat.add_mul]; omega)
    have hbit : bitmap_bit (alloc_mark pool for_hw m).free_bitmap m = false := by
      rw [alloc_mark_free_bit pool for_hw m m hwf hm]; simp
    rw [if_neg (by simp [hbit])] at hfree
    rw [hfree, free_mark_alloc_mark pool for_hw m hwf hm hset hown]

/-- Witness of C18: a hardware allocation in the 8-block pool with block 0
already allocated returns 4160, and freeing 4160 restores the state. -/
theorem mempool_alloc_free_round_trip_witness :
    (mempool_alloc pool8_one_allocated true).2 = some 4160 ∧
    mempool_free (mempool_alloc pool8_one_allocated true).1 4160 = some pool8_one_allocated :=
  ⟨by decide,
    mempool_alloc_free_round_trip pool8_one_allocated true 4160 pool8_one_allocated_reachable
      (by decide) (by unfold arena_ok; decide) (by decide)⟩

/-! ## Batch dequeue, peek and the queue invariants -/

theorem queue4_created : mempool_queue_create pool8 4 (fun _ => 7) = some queue4 := by decide

theorem queue4_three_inv : queue_shape queue4_three ∧ queue_inv queue4_three := by
  obtain ⟨s1, s2, _, _, _⟩ :=
    mempool_queue_create_inv pool8 4 (fun _ => 7) queue4 (by decide) queue4_created
  have hrun : queue_run queue4
      [queue_op.enqueue 4096, queue_op.enqueue 4160, queue_op.enqueue 4224] =
      some queue4_three := by decide
  obtain ⟨t1, t2, _, _⟩ := queue_run_inv _ queue4 queue4_three s1 s2 hrun
  exact ⟨t1, t2⟩

/-- C11: for every queue state satisfying the queue invariants and every
`max_count`, `mempool_queue_dequeue_batch` returns `k = min(count, max_count)`,
the addresses it writes are the ones `k` successive `mempool_queue_dequeue`
calls return (none of them `NULL`), and the queue state it leaves is the state
after those `k` calls. -/
theorem mempool_queue_dequeue_batch_refines (queue : mempool_queue_t) (max_count : Nat)
    (hshape : queue_shape queue) (hinv : queue_inv queue) :
    (mempool_queue_dequeue_batch queue max_count).2.2 = min queue.count max_count ∧
    (mempool_queue_dequeue_batch queue max_count).2.1.map some =
      (dequeue_many queue (min queue.count max_count)).2 ∧
    (mempool_queue_dequeue_batch queue max_count).1 =
      (dequeue_many queue (min queue.count max_count)).1 := by
  have hcount : queue.count < SIZE_MOD := by
    have h1 := hinv.1
    have h2 := hshape.2.2
    have h3 : queue.pool.block_count ≤ 256 := hshape.1.2
    unfold SIZE_MOD; omega
  have hb := mempool_queue_dequeue_batch_eq queue max_count hcount
  simp only [Prod.mk.injEq] at hb
  exact ⟨hb.2.2, hb.2.1, hb.1⟩

/-- Witness of C11: a batch of at most 2 from the queue holding blocks 0, 1, 2. -/
theorem mempool_queue_dequeue_batch_refines_witness :
    (mempool_queue_dequeue_batch queue4_three 2).2.2 = min queue4_three.count 2 ∧
    (mempool_queue_dequeue_batch queue4_three 2).2.1.map some =
      (dequeue_many queue4_three (min queue4_three.count 2)).2 ∧
    (mempool_queue_dequeue_batch queue4_three 2).1 =
      (dequeue_many queue4_three (min queue4_three.count 2)).1 :=
  mempool_queue_dequeue_batch_refines queue4_three 2 queue4_three_inv.1 queue4_three_inv.2

/-- C12: on a non-empty queue `mempool_queue_peek` returns the address that an
immediately following `mempool_queue_dequeue` returns; on an empty queue it
returns `NULL`; and the call leaves the queue state as it is. -/
theorem mempool_queue_peek_agrees (queue : mempool_queue_t) :
    (queue.count ≠ 0 →
      ∃ a, mempool_queue_peek queue = some a ∧ (mempool_queue_dequeue queue).2 = some a) ∧
    (queue.count = 0 → mempool_queue_peek queue = none) ∧
    queue_step queue queue_op.peek = some queue := by
  refine ⟨?_, ?_, rfl⟩
  · intro h
    refine ⟨head_block queue, ?_, ?_⟩
    · unfold mempool_queue_peek
      rw [if_neg h]
      rfl
    · rw [mempool_queue_dequeue_nonempty queue h]
  · intro h
    unfold mempool_queue_peek
    rw [if_pos h]

/-- Witness of C12: the queue holding block 0, and the empty queue. -/
theorem mempool_queue_peek_agrees_witness :
    (∃ a, mempool_queue_peek queue4_one = some a ∧
      (mempool_queue_dequeue queue4_one).2 = some a) ∧
    mempool_queue_peek queue4 = none :=
  ⟨(mempool_queue_peek_agrees queue4_one).1 (by decide),
    (mempool_queue_peek_agrees queue4).2.1 rfl⟩

theorem get_block_index_total (pool : mempool_t) (buffer : Nat) :
    ∃ r, get_block_index pool buffer = some r := by
  unfold get_block_index
  by_cases h0 : buffer = 0
  · rw [if_pos h0]; exact ⟨_, rfl⟩
  rw [if_neg h0]
  simp only []
  by_cases h1 : size_sub buffer pool.memory_area ≥ size_mul pool.block_size pool.block_count
  · rw [if_pos h1]; exact ⟨_, rfl⟩
  rw [if_neg h1]
  by_cases h2 : pool.block_size = 0
  · exfalso
    apply h1
    rw [h2]
    simp [size_mul]
  · rw [if_neg h2]; exact ⟨_, rfl⟩

theorem mempool_queue_enqueue_total (queue : mempool_queue_t) (buffer : Nat) :
    ∃ r, mempool_queue_enqueue queue buffer = some r := by
  unfold mempool_queue_enqueue
  by_cases c1 : buffer = 0 ∨ queue.count ≥ queue.capacity
  · rw [if_pos c1]; exact ⟨_, rfl⟩
  rw [if_neg c1]
  obtain ⟨idx, hidx⟩ := get_block_index_total queue.pool buffer
  rw [hidx]
  simp only []
  split
  · exact ⟨_, rfl⟩
  · split
    · exact ⟨_, rfl⟩
    · exact ⟨_, rfl⟩

theorem queue_run_total (ops : List queue_op) : ∀ queue : mempool_queue_t,
    ∃ queue1, queue_run queue ops = some queue1 := by
  induction ops with
  | nil => intro queue; exact ⟨queue, rfl⟩
  | cons op ops ih =>
    intro queue
    have hstep : ∃ q, queue_step queue op = some q := by
      cases op with
      | enqueue buffer =>
        obtain ⟨r, hr⟩ := mempool_queue_enqueue_total queue buffer
        exact ⟨r.1, by simp only [queue_step, hr, Option.map_some']⟩
      | dequeue => exact ⟨_, rfl⟩
      | peek => exact ⟨_, rfl⟩
      | dequeue_batch max_count => exact ⟨_, rfl⟩
    obtain ⟨q, hq⟩ := hstep
    obtain ⟨q1, hq1⟩ := ih q
    exact ⟨q1, by simp only [queue_run, hq, Option.some_bind]; exact hq1⟩

/-- C17: from every queue made by `mempool_queue_create(pool, capacity)`, every
sequence of enqueue, dequeue, peek and dequeue_batch calls runs to a state in
which (1) `count <= capacity`; (2) `head < capacity`, `tail < capacity` and
`tail == (head + count) mod capacity`; (3) the `count` ring entries starting at
`head` are pairwise distinct block indices below `block_count`; (4) the
membership bit of an index is set if and only if it is one of those entries. -/
theorem mempool_queue_invariants (pool : mempool_t) (capacity : Nat) (ring0 : Nat → Nat)
    (queue0 : mempool_queue_t) (ops : List queue_op) (hpool : pool_reachable pool)
    (hcreate : mempool_queue_create pool capacity ring0 = some queue0) :
    ∃ queue, queue_run queue0 ops = some queue ∧
      queue.count ≤ queue.capacity ∧
      (queue.head < queue.capacity ∧ queue.tail < queue.capacity ∧
        queue.tail = (queue.head + queue.count) % queue.capacity) ∧
      ((ring_entries queue).Nodup ∧ ∀ i ∈ ring_entries queue, i < queue.pool.block_count) ∧
      (∀ i, bitmap_bit queue.queue_bitmap i = true ↔ i ∈ ring_entries queue) := by
  have hwf := pool_reachable_wf pool hpool
  obtain ⟨s1, s2, _, _, _⟩ :=
    mempool_queue_create_inv pool capacity ring0 queue0 hwf.2.2.2.2 hcreate
  obtain ⟨queue, hrun⟩ := queue_run_total ops queue0
  obtain ⟨_, t2, _, _⟩ := queue_run_inv ops queue0 queue s1 s2 hrun
  exact ⟨queue, hrun, t2⟩

/-- Witness of C17: the queue of capacity 4 over the 8-block pool through a
run that fills it, rejects a duplicate and a fifth entry, and wraps `head`. -/
theorem mempool_queue_invariants_witness :
    ∃ queue, queue_run queue4
        [queue_op.enqueue 4096, queue_op.enqueue 4160, queue_op.enqueue 4160,
          queue_op.enqueue 4224, queue_op.dequeue, queue_op.peek, queue_op.enqueue 4288,
          queue_op.enqueue 4096, queue_op.enqueue 4352, queue_op.dequeue_batch 3,
          queue_op.enqueue 4416] = some queue ∧
      queue.count ≤ queue.capacity ∧
      (queue.head < queue.capacity ∧ queue.tail < queue.capacity ∧
        queue.tail = (queue.head + queue.count) % queue.capacity) ∧
      ((ring_entries queue).Nodup ∧ ∀ i ∈ ring_entries queue, i < queue.pool.block_count) ∧
      (∀ i, bitmap_bit queue.queue_bitmap i = true ↔ i ∈ ring_entries queue) :=
  mempool_queue_invariants pool8 4 (fun _ => 7) queue4 _
    ⟨4096, 64, 8, pool8, [], pool8_created, rfl⟩ queue4_created

/-! ## The circular queue: index arithmetic -/

theorem cq_size_ok_pow (k : Nat) (hk : k ≤ 7) : cq_size_ok (2 ^ k) := by
  unfold cq_size_ok
  interval_cases k <;> simp

theorem cq_mask_and (size x : Nat) (hs : cq_size_ok size) : x &&& (size - 1) = x % size := by
  rcases hs with rfl | rfl | rfl | rfl | rfl | rfl | rfl | rfl
  · exact Nat.and_pow_two_sub_one_eq_mod x 0
  · exact Nat.and_pow_two_sub_one_eq_mod x 1
  · exact Nat.and_pow_two_sub_one_eq_mod x 2
  · exact Nat.and_pow_two_sub_one_eq_mod x 3
  · exact Nat.and_pow_two_sub_one_eq_mod x 4
  · exact Nat.and_pow_two_sub_one_eq_mod x 5
  · exact Nat.and_pow_two_sub_one_eq_mod x 6
  · exact Nat.and_pow_two_sub_one_eq_mod x 7

theorem cq_index_arith (size h t n : Nat) (hs : cq_size_ok size) (hh : h < size)
    (hn : n < size) (ht : t = (h + n) % size) :
    (t + 2 ^ 32 - h) % 2 ^ 32 % size % 256 = n ∧
    (t + 1) % size % 256 = (t + 1) % size ∧
    (h + 1) % size % 256 = (h + 1) % size ∧
    ((t + 1) % size = h ↔ n = size - 1) ∧
    (h = t ↔ n = 0) ∧
    (((t : Int) - (h : Int)) % (size : Int)).toNat = n := by
  rcases hs with rfl | rfl | rfl | rfl | rfl | rfl | rfl | rfl <;>
    refine ⟨?_, ?_, ?_, ?_, ?_, ?_⟩ <;> omega

/-! ## The circular queue: one call against the bounded FIFO list -/

theorem cq_used_eq (size : Nat) (q : cqueue_s) (l : List (Nat × Nat)) (h : cq_rel size q l) :
    cq_used size q = l.length ∧
    to_u8 (int_sub_and q.tail q.head q.size_mask) = l.length := by
  obtain ⟨hs, hmask, hh, _, _, _, _, _, hn, ht, _⟩ := h
  obtain ⟨a1, _, _, _, _, a6⟩ := cq_index_arith size q.head q.tail l.length hs hh hn ht
  refine ⟨a6, ?_⟩
  unfold to_u8 int_sub_and
  rw [hmask, cq_mask_and _ _ hs]
  exact a1

theorem cq_entries_succ (size : Nat) (q : cqueue_s) (n : Nat) :
    cq_entries size q (n + 1) = cq_entries size q n ++
      [(q.buffers.getD ((q.head + n) % size) 0, q.lengths.getD ((q.head + n) % size) 0)] := by
  unfold cq_entries
  rw [List.range_succ, List.map_append]
  rfl

theorem cq_entries_congr (size : Nat) (q q1 : cqueue_s) (n : Nat)
    (hb : ∀ j, j < n → q1.buffers.getD ((q1.head + j) % size) 0 =
      q.buffers.getD ((q.head + j) % size) 0)
    (hl : ∀ j, j < n → q1.lengths.getD ((q1.head + j) % size) 0 =
      q.lengths.getD ((q.head + j) % size) 0) :
    cq_entries size q1 n = cq_entries size q n := by
  unfold cq_entries
  apply List.map_congr_left
  intro j hj
  rw [List.mem_range] at hj
  rw [hb j hj, hl j hj]

theorem cq_enqueue_full (size : Nat) (q : cqueue_s) (l : List (Nat × Nat)) (data len : Nat)
    (h : cq_rel size q l) (hfull : l.length = size - 1) :
    cq_enqueue q data len = ({ q with backpressure := true }, -1) ∧
    cq_rel size { q with backpressure := true } l := by
  have hrel := h
  obtain ⟨hs, hmask, hh, _, _, _, _, _, hn, ht, _⟩ := h
  obtain ⟨_, a2, _, a4, _, _⟩ := cq_index_arith size q.head q.tail l.length hs hh hn ht
  have hnext : to_u8 ((q.tail + 1) &&& q.size_mask) = q.head := by
    unfold to_u8
    rw [hmask, cq_mask_and _ _ hs, a2]
    exact a4.2 hfull
  refine ⟨?_, hrel⟩
  unfold cq_enqueue
  simp only []
  rw [if_pos hnext]

theorem cq_enqueue_space (size : Nat) (q : cqueue_s) (l : List (Nat × Nat)) (data len : Nat)
    (h : cq_rel size q l) (hspace : l.length ≠ size - 1) :
    (cq_enqueue q data len).2 = 0 ∧
    cq_rel size (cq_enqueue q data len).1 (l ++ [(data, len)]) ∧
    (cq_enqueue q data len).1.backpressure =
      (q.backpressure || decide (l.length + 1 ≥ q.watermark_high)) := by
  obtain ⟨hs, hmask, hh, htl, hbl, hll, hwh, hwl, hn, ht, hent⟩ := h
  obtain ⟨_, a2, _, a4, _, _⟩ := cq_index_arith size q.head q.tail l.length hs hh hn ht
  have hpos : 0 < size := by omega
  have hnext : to_u8 ((q.tail + 1) &&& q.size_mask) = (q.tail + 1) % size := by
    unfold to_u8
    rw [hmask, cq_mask_and _ _ hs, a2]
  have hne : ¬ (q.tail + 1) % size = q.head := fun hc => hspace (a4.1 hc)
  have hn1 : l.length + 1 < size := by omega
  have ht1 : (q.tail + 1) % size = (q.head + (l.length + 1)) % size := by
    rw [ht, Nat.mod_add_mod, Nat.add_assoc]
  have hrel1 : cq_rel size
      { q with
        buffers := q.buffers.set q.tail data
        lengths := q.lengths.set q.tail len
        tail := (q.tail + 1) % size } (l ++ [(data, len)]) := by
    refine ⟨hs, hmask, hh, Nat.mod_lt _ hpos, by simp [hbl], by simp [hll], hwh, hwl,
      by simp only [List.length_append, List.length_singleton]; exact hn1,
      by simp only [List.length_append, List.length_singleton]; exact ht1, ?_⟩
    simp only [List.length_append, List.length_singleton]
    rw [cq_entries_succ]
    have hkeep : ∀ j, j < l.length → (q.head + j) % size ≠ q.tail := by
      intro j hj
      rw [ht]
      exact mod_ne_of_lt _ _ _ (by omega) (by omega)
    congr 1
    · rw [cq_entries_congr size q _ l.length
        (by intro j hj; show (q.buffers.set q.tail data).getD _ 0 = _
            rw [getD_set _ _ _ _ (by omega), if_neg (hkeep j hj)])
        (by intro j hj; show (q.lengths.set q.tail len).getD _ 0 = _
            rw [getD_set _ _ _ _ (by omega), if_neg (hkeep j hj)])]
      exact hent
    · show [(data, len)] = [((q.buffers.set q.tail data).getD ((q.head + l.length) % size) 0,
        (q.lengths.set q.tail len).getD ((q.head + l.length) % size) 0)]
      rw [← ht, getD_set _ _ _ _ (by omega), getD_set _ _ _ _ (by omega), if_pos rfl, if_pos rfl]
  have hused := (cq_used_eq size _ _ hrel1).2
  simp only [List.length_append, List.length_singleton] at hused
  unfold cq_enqueue
  simp only []
  rw [hnext, if_neg hne, hused]
  by_cases hw : l.length + 1 ≥ q.watermark_high
  · rw [if_pos hw]
    refine ⟨rfl, ?_, by simp [hw]⟩
    obtain ⟨r1, r2, r3, r4, r5, r6, r7, r8, r9, r10, r11⟩ := hrel1
    exact ⟨r1, r2, r3, r4, r5, r6, r7, r8, r9, r10, r11⟩
  · rw [if_neg hw]
    exact ⟨rfl, hrel1, by simp [hw]⟩

theorem cq_dequeue_empty (size : Nat) (q : cqueue_s) (h : cq_rel size q []) :
    cq_dequeue q = (q, -1, none) := by
  obtain ⟨hs, _, hh, _, _, _, _, _, hn, ht, _⟩ := h
  obtain ⟨_, _, _, _, a5, _⟩ := cq_index_arith size q.head q.tail 0 hs hh (by
    simpa using hn) (by simpa using ht)
  unfold cq_dequeue
  rw [if_pos (a5.2 rfl)]

theorem cq_dequeue_cons (size : Nat) (q : cqueue_s) (x : Nat × Nat) (rest : List (Nat × Nat))
    (h : cq_rel size q (x :: rest)) :
    (cq_dequeue q).2 = (0, some x) ∧ cq_rel size (cq_dequeue q).1 rest ∧
    (cq_dequeue q).1.backpressure =
      (q.backpressure && !decide (rest.length ≤ q.watermark_low)) := by
  obtain ⟨hs, hmask, hh, htl, hbl, hll, hwh, hwl, hn, ht, hent⟩ := h
  simp only [List.length_cons] at hn ht hent
  obtain ⟨_, _, a3, _, a5, _⟩ := cq_index_arith size q.head q.tail (rest.length + 1) hs hh hn ht
  have hpos : 0 < size := by omega
  have hne : ¬ q.head = q.tail := fun hc => by have := a5.1 hc; omega
  have hnext : to_u8 ((q.head + 1) &&& q.size_mask) = (q.head + 1) % size := by
    unfold to_u8
    rw [hmask, cq_mask_and _ _ hs, a3]
  have hx : x = (q.buffers.getD q.head 0, q.lengths.getD q.head 0) ∧
      rest = cq_entries size { q with head := (q.head + 1) % size } rest.length := by
    unfold cq_entries at hent ⊢
    rw [List.range_succ_eq_map, List.map_cons, List.map_map] at hent
    simp only [Nat.add_zero, Nat.mod_eq_of_lt hh, List.cons.injEq] at hent
    refine ⟨hent.1, ?_⟩
    rw [hent.2]
    simp only [List.length_map, List.length_range]
    apply List.map_congr_left
    intro j _
    simp only [Function.comp, Nat.succ_eq_add_one, Nat.mod_add_mod]
    have e : q.head + (j + 1) = q.head + 1 + j := by omega
    rw [e]
  have hrel1 : cq_rel size { q with head := (q.head + 1) % size } rest := by
    refine ⟨hs, hmask, Nat.mod_lt _ hpos, htl, hbl, hll, hwh, hwl, by omega, ?_, hx.2⟩
    show q.tail = ((q.head + 1) % size + rest.length) % size
    rw [Nat.mod_add_mod, ht]
    congr 1
    omega
  have hused := (cq_used_eq size _ _ hrel1).2
  unfold cq_dequeue
  simp only []
  rw [if_neg hne, hnext, hused, ← hx.1]
  by_cases hw : q.backpressure = true ∧ rest.length ≤ q.watermark_low
  · rw [if_pos hw]
    refine ⟨rfl, ?_, by simp [hw.1, hw.2]⟩
    obtain ⟨r1, r2, r3, r4, r5, r6, r7, r8, r9, r10, r11⟩ := hrel1
    exact ⟨r1, r2, r3, r4, r5, r6, r7, r8, r9, r10, r11⟩
  · rw [if_neg hw]
    refine ⟨rfl, hrel1, ?_⟩
    show q.backpressure = _
    by_cases hb : q.backpressure = true
    · have : ¬ rest.length ≤ q.watermark_low := fun hc => hw ⟨hb, hc⟩
      simp [hb, this]
    · simp [hb]

theorem cq_create_static_rel (buf0 len0 : Nat → Nat) (size : Nat) (hs : cq_size_ok size) :
    cq_rel size (cq_create_static buf0 len0 size) [] := by
  have hmask : to_u8 (size + 256 - 1) = size - 1 := by
    unfold to_u8
    rcases hs with rfl | rfl | rfl | rfl | rfl | rfl | rfl | rfl <;> rfl
  have hhigh : to_u8 (size * 3 / 4) = size * 3 / 4 := by
    unfold to_u8
    rcases hs with rfl | rfl | rfl | rfl | rfl | rfl | rfl | rfl <;> rfl
  have hlow : to_u8 (size / 4) = size / 4 := by
    unfold to_u8
    rcases hs with rfl | rfl | rfl | rfl | rfl | rfl | rfl | rfl <;> rfl
  have hpos : 0 < size := by
    rcases hs with rfl | rfl | rfl | rfl | rfl | rfl | rfl | rfl <;> norm_num
  refine ⟨hs, hmask, hpos, hpos, by simp [cq_create_static], by simp [cq_create_static],
    hhigh, hlow, hpos, ?_, rfl⟩
  simp [cq_create_static]

/-! ## The circular queue: runs -/

theorem cq_step_refines (size : Nat) (q : cqueue_s) (l : List (Nat × Nat)) (op : cq_op)
    (h : cq_rel size q l) :
    (cq_step q op).2 = (fifo_step (size - 1) l op).2 ∧
    cq_rel size (cq_step q op).1 (fifo_step (size - 1) l op).1 := by
  cases op with
  | enqueue data len =>
    simp only [cq_step, fifo_step, fifo_enqueue]
    by_cases hfull : l.length = size - 1
    · obtain ⟨h1, h2⟩ := cq_enqueue_full size q l data len h hfull
      rw [h1, if_pos hfull]
      exact ⟨rfl, h2⟩
    · obtain ⟨h1, h2, _⟩ := cq_enqueue_space size q l data len h hfull
      rw [if_neg hfull, h1]
      exact ⟨rfl, h2⟩
  | dequeue =>
    cases l with
    | nil =>
      simp only [cq_step, fifo_step, fifo_dequeue]
      rw [cq_dequeue_empty size q h]
      exact ⟨rfl, h⟩
    | cons x rest =>
      simp only [cq_step, fifo_step, fifo_dequeue]
      obtain ⟨h1, h2, _⟩ := cq_dequeue_cons size q x rest h
      exact ⟨h1, h2⟩

theorem cq_run_refines (size : Nat) (ops : List cq_op) : ∀ (q : cqueue_s) (l : List (Nat × Nat)),
    cq_rel size q l →
    (cq_run q ops).2 = (fifo_run (size - 1) l ops).2 ∧
    cq_rel size (cq_run q ops).1 (fifo_run (size - 1) l ops).1 := by
  induction ops with
  | nil => intro q l h; exact ⟨rfl, h⟩
  | cons op ops ih =>
    intro q l h
    obtain ⟨h1, h2⟩ := cq_step_refines size q l op h
    obtain ⟨k1, k2⟩ := ih _ _ h2
    simp only [cq_run, fifo_run]
    exact ⟨by rw [h1, k1], k2⟩

/-- C19: the circular queue refines a bounded FIFO list.  For every
power-of-two size `2 ^ k` up to 128 and every sequence of `cq_enqueue` /
`cq_dequeue` calls on a queue made by `cq_create_static`, the returned codes
and the pairs written by the dequeues are those of the list queue of capacity
`size - 1` (`fifo_enqueue`, `fifo_dequeue`), and `(tail - head) mod size`
equals the length of the list. -/
theorem cq_refines_fifo (k : Nat) (buf0 len0 : Nat → Nat) (ops : List cq_op) (hk7 : k ≤ 7) :
    (cq_run (cq_create_static buf0 len0 (2 ^ k)) ops).2 = (fifo_run (2 ^ k - 1) [] ops).2 ∧
    cq_used (2 ^ k) (cq_run (cq_create_static buf0 len0 (2 ^ k)) ops).1 =
      (fifo_run (2 ^ k - 1) [] ops).1.length := by
  have hrel := cq_create_static_rel buf0 len0 (2 ^ k) (cq_size_ok_pow k hk7)
  obtain ⟨h1, h2⟩ := cq_run_refines (2 ^ k) ops _ _ hrel
  exact ⟨h1, (cq_used_eq _ _ _ h2).1⟩

/-- Witness of C19: size 4 (capacity 3); four enqueues, two dequeues, one
enqueue and three dequeues. -/
theorem cq_refines_fifo_witness :
    (cq_run (cq_create_static (fun _ => 0) (fun _ => 0) (2 ^ 2))
        [cq_op.enqueue 10 1, cq_op.enqueue 20 2, cq_op.enqueue 30 3, cq_op.enqueue 40 4,
          cq_op.dequeue, cq_op.dequeue, cq_op.enqueue 50 5, cq_op.dequeue, cq_op.dequeue,
          cq_op.dequeue]).2 =
      (fifo_run (2 ^ 2 - 1) []
        [cq_op.enqueue 10 1, cq_op.enqueue 20 2, cq_op.enqueue 30 3, cq_op.enqueue 40 4,
          cq_op.dequeue, cq_op.dequeue, cq_op.enqueue 50 5, cq_op.dequeue, cq_op.dequeue,
          cq_op.dequeue]).2 ∧
    cq_used (2 ^ 2) (cq_run (cq_create_static (fun _ => 0) (fun _ => 0) (2 ^ 2))
        [cq_op.enqueue 10 1, cq_op.enqueue 20 2, cq_op.enqueue 30 3, cq_op.enqueue 40 4,
          cq_op.dequeue, cq_op.dequeue, cq_op.enqueue 50 5, cq_op.dequeue, cq_op.dequeue,
          cq_op.dequeue]).1 =
      (fifo_run (2 ^ 2 - 1) []
        [cq_op.enqueue 10 1, cq_op.enqueue 20 2, cq_op.enqueue 30 3, cq_op.enqueue 40 4,
          cq_op.dequeue, cq_op.dequeue, cq_op.enqueue 50 5, cq_op.dequeue, cq_op.dequeue,
          cq_op.dequeue]).1.length :=
  cq_refines_fifo 2 (fun _ => 0) (fun _ => 0) _ (by decide)

/-! ## The circular queue: usable capacity -/

theorem fifo_run_append (cap : Nat) (ops1 ops2 : List cq_op) : ∀ l : List (Nat × Nat),
    fifo_run cap l (ops1 ++ ops2) =
      ((fifo_run cap (fifo_run cap l ops1).1 ops2).1,
        (fifo_run cap l ops1).2 ++ (fifo_run cap (fifo_run cap l ops1).1 ops2).2) := by
  induction ops1 with
  | nil => intro l; rfl
  | cons op ops ih =>
    intro l
    rw [List.cons_append, fifo_run, ih]
    rfl

theorem fifo_run_enqueues (cap : Nat) (ps : List (Nat × Nat)) : ∀ l : List (Nat × Nat),
    l.length + ps.length ≤ cap →
    fifo_run cap l (ps.map (fun p => cq_op.enqueue p.1 p.2)) =
      (l ++ ps, List.replicate ps.length (0, none)) := by
  induction ps with
  | nil => intro l _; simp [fifo_run]
  | cons p ps ih =>
    intro l hlen
    simp only [List.length_cons] at hlen
    have hne : ¬ l.length = cap := by omega
    simp only [List.map_cons, fifo_run, fifo_step, fifo_enqueue, if_neg hne]
    rw [ih (l ++ [(p.1, p.2)]) (by simp only [List.length_append, List.length_singleton]; omega)]
    simp [List.replicate_succ]

/-- C13: the usable capacity of the circular queue is `size - 1`.  For every
power-of-two size `2 ^ k` from 2 to 128, on a queue made by `cq_create_static`
the first `size - 1` `cq_enqueue` calls return 0 and the next one returns -1;
after one `cq_dequeue` (which returns 0) one further `cq_enqueue` returns 0 and
the one after it returns -1. -/
theorem cq_usable_capacity (k : Nat) (buf0 len0 : Nat → Nat) (ps : List (Nat × Nat))
    (a b c : Nat × Nat) (hk1 : 1 ≤ k) (hk7 : k ≤ 7) (hps : ps.length = 2 ^ k - 1) :
    (cq_run (cq_create_static buf0 len0 (2 ^ k))
        (ps.map (fun p => cq_op.enqueue p.1 p.2) ++
          [cq_op.enqueue a.1 a.2, cq_op.dequeue, cq_op.enqueue b.1 b.2,
            cq_op.enqueue c.1 c.2])).2.map (fun r => r.1) =
      List.replicate (2 ^ k - 1) 0 ++ [-1, 0, 0, -1] := by
  have hrel := cq_create_static_rel buf0 len0 (2 ^ k) (cq_size_ok_pow k hk7)
  obtain ⟨h1, _⟩ := cq_run_refines (2 ^ k) (ps.map (fun p => cq_op.enqueue p.1 p.2) ++
    [cq_op.enqueue a.1 a.2, cq_op.dequeue, cq_op.enqueue b.1 b.2, cq_op.enqueue c.1 c.2])
    _ _ hrel
  have hsize : 2 ≤ 2 ^ k := by
    calc 2 = 2 ^ 1 := by norm_num
      _ ≤ 2 ^ k := Nat.pow_le_pow_right (by norm_num) hk1
  rw [h1, fifo_run_append, fifo_run_enqueues _ ps [] (by simp [hps])]
  simp only [List.nil_append, List.map_append, List.map_replicate, hps]
  congr 1
  cases ps with
  | nil => simp only [List.length_nil] at hps; omega
  | cons x rest =>
    simp only [List.length_cons] at hps
    have e1 : ¬ rest.length = 2 ^ k - 1 := by omega
    have e2 : rest.length + 1 = 2 ^ k - 1 := hps
    simp [fifo_run, fifo_step, fifo_enqueue, fifo_dequeue, e1, e2]

/-- Witness of C13: size 8; seven enqueues succeed, the eighth fails, one
dequeue permits one more enqueue, and the one after it fails. -/
theorem cq_usable_capacity_witness :
    (cq_run (cq_create_static (fun _ => 0) (fun _ => 0) (2 ^ 3))
        ([(11, 1), (12, 2), (13, 3), (14, 4), (15, 5), (16, 6), (17, 7)].map
            (fun p => cq_op.enqueue p.1 p.2) ++
          [cq_op.enqueue 18 8, cq_op.dequeue, cq_op.enqueue 19 9,
            cq_op.enqueue 20 10])).2.map (fun r => r.1) =
      List.replicate (2 ^ 3 - 1) 0 ++ [-1, 0, 0, -1] :=
  cq_usable_capacity 3 (fun _ => 0) (fun _ => 0)
    [(11, 1), (12, 2), (13, 3), (14, 4), (15, 5), (16, 6), (17, 7)] (18, 8) (19, 9) (20, 10)
    (by decide) (by decide) (by decide)

/-! ## The circular queue: the backpressure flag -/

theorem cq_watermark_arith (size : Nat) (hs : cq_size_ok size) :
    (2 ≤ size → size / 4 < size * 3 / 4 ∧ size * 3 / 4 ≤ size - 1 ∧ 1 ≤ size * 3 / 4) ∧
    (size = 1 → size / 4 = 0) := by
  rcases hs with rfl | rfl | rfl | rfl | rfl | rfl | rfl | rfl <;> omega

theorem cq_run_rel (size : Nat) (buf0 len0 : Nat → Nat) (ops : List cq_op)
    (hs : cq_size_ok size) :
    ∃ l, cq_rel size (cq_run (cq_create_static buf0 len0 size) ops).1 l :=
  ⟨_, (cq_run_refines size ops _ _ (cq_create_static_rel buf0 len0 size hs)).2⟩

/-- C14: backpressure hysteresis.  In every state `q` reached on a queue of
power-of-two size `2 ^ k` (up to 128) made by `cq_create_static`, the
watermarks are `3 * size / 4` and `size / 4`; a successful `cq_enqueue` sets
the flag to `old flag OR used_after >= watermark_high`; a successful
`cq_dequeue` sets it to `old flag AND NOT used_after <= watermark_low`, with
`used = (tail - head) mod size`; and no call whose resulting usage lies
strictly between the two watermarks changes the flag. -/
theorem cq_backpressure_hysteresis (k : Nat) (buf0 len0 : Nat → Nat) (ops : List cq_op)
    (q : cqueue_s) (hk7 : k ≤ 7) (hq : q = (cq_run (cq_create_static buf0 len0 (2 ^ k)) ops).1) :
    (q.watermark_high = 3 * 2 ^ k / 4 ∧ q.watermark_low = 2 ^ k / 4) ∧
    (∀ data len, (cq_enqueue q data len).2 = 0 →
      (cq_enqueue q data len).1.backpressure =
        (q.backpressure ||
          decide (cq_used (2 ^ k) (cq_enqueue q data len).1 ≥ q.watermark_high))) ∧
    ((cq_dequeue q).2.1 = 0 →
      (cq_dequeue q).1.backpressure =
        (q.backpressure && !decide (cq_used (2 ^ k) (cq_dequeue q).1 ≤ q.watermark_low))) ∧
    (∀ op, q.watermark_low < cq_used (2 ^ k) (cq_step q op).1 →
      cq_used (2 ^ k) (cq_step q op).1 < q.watermark_high →
      (cq_step q op).1.backpressure = q.backpressure) := by
  have hs := cq_size_ok_pow k hk7
  obtain ⟨l, hrel⟩ := cq_run_rel (2 ^ k) buf0 len0 ops hs
  rw [← hq] at hrel
  have hwh : q.watermark_high = 2 ^ k * 3 / 4 := hrel.2.2.2.2.2.2.1
  have hwl : q.watermark_low = 2 ^ k / 4 := hrel.2.2.2.2.2.2.2.1
  have hlen : l.length < 2 ^ k := hrel.2.2.2.2.2.2.2.2.1
  have henq : ∀ data len, (cq_enqueue q data len).2 = 0 →
      l.length ≠ 2 ^ k - 1 ∧ cq_used (2 ^ k) (cq_enqueue q data len).1 = l.length + 1 ∧
      (cq_enqueue q data len).1.backpressure =
        (q.backpressure || decide (l.length + 1 ≥ q.watermark_high)) := by
    intro data len hcode
    have hspace : l.length ≠ 2 ^ k - 1 := by
      intro hfull
      rw [(cq_enqueue_full _ q l data len hrel hfull).1] at hcode
      have hc2 : (-1 : Int) = 0 := hcode
      exact absurd hc2 (by decide)
    obtain ⟨_, h2, h3⟩ := cq_enqueue_space _ q l data len hrel hspace
    have hu := (cq_used_eq _ _ _ h2).1
    simp only [List.length_append, List.length_singleton] at hu
    exact ⟨hspace, hu, h3⟩
  have hdeq : (cq_dequeue q).2.1 = 0 →
      cq_used (2 ^ k) (cq_dequeue q).1 + 1 = l.length ∧
      (cq_dequeue q).1.backpressure =
        (q.backpressure && !decide (cq_used (2 ^ k) (cq_dequeue q).1 ≤ q.watermark_low)) := by
    intro hcode
    cases l with
    | nil =>
      rw [cq_dequeue_empty _ q hrel] at hcode
      have hc2 : (-1 : Int) = 0 := hcode
      exact absurd hc2 (by decide)
    | cons x rest =>
      obtain ⟨_, h2, h3⟩ := cq_dequeue_cons _ q x rest hrel
      have hu := (cq_used_eq _ _ _ h2).1
      rw [hu]
      exact ⟨rfl, h3⟩
  refine ⟨⟨by rw [hwh, Nat.mul_comm], hwl⟩, ?_, fun hcode => (hdeq hcode).2, ?_⟩
  · intro data len hcode
    obtain ⟨_, hu, hb⟩ := henq data len hcode
    rw [hu, hb]
  · intro op hlow hhigh
    cases op with
    | enqueue data len =>
      simp only [cq_step] at hlow hhigh ⊢
      by_cases hfull : l.length = 2 ^ k - 1
      · exfalso
        obtain ⟨h1, h2⟩ := cq_enqueue_full _ q l data len hrel hfull
        rw [h1] at hlow hhigh
        have hu := (cq_used_eq _ _ _ h2).1
        rw [hu] at hlow hhigh
        have hw := cq_watermark_arith (2 ^ k) hs
        rw [hwh] at hhigh
        rw [hwl] at hlow
        by_cases h2s : 2 ≤ 2 ^ k
        · have := (hw.1 h2s).2.1; omega
        · have h1s : 2 ^ k = 1 := by omega
          have := hw.2 h1s; omega
      · obtain ⟨h1, h2, h3⟩ := cq_enqueue_space _ q l data len hrel hfull
        have hu := (cq_used_eq _ _ _ h2).1
        simp only [List.length_append, List.length_singleton] at hu
        rw [hu] at hhigh
        rw [h3]
        have : ¬ l.length + 1 ≥ q.watermark_high := by omega
        simp [this]
    | dequeue =>
      simp only [cq_step] at hlow hhigh ⊢
      cases l with
      | nil => rw [cq_dequeue_empty _ q hrel]
      | cons x rest =>
        obtain ⟨_, h2, h3⟩ := cq_dequeue_cons _ q x rest hrel
        have hu := (cq_used_eq _ _ _ h2).1
        rw [hu] at hlow
        rw [h3]
        have : ¬ rest.length ≤ q.watermark_low := by omega
        simp [this]

/-- Witness of C14: size 8 (high 6, low 2).  Six enqueues from empty raise the
flag; three dequeues (usage 3) keep it; the fourth (usage 2) clears it; and the
third dequeue, whose resulting usage 3 lies strictly between the watermarks,
leaves the flag as it was. -/
theorem cq_backpressure_hysteresis_witness :
    cq_get_backpressure (cq_run cq8 cq_six_enqueues).1 = true ∧
    cq_get_backpressure
      (cq_run cq8 (cq_six_enqueues ++ [cq_op.dequeue, cq_op.dequeue, cq_op.dequeue])).1 = true ∧
    cq_get_backpressure
      (cq_run cq8 (cq_six_enqueues ++
        [cq_op.dequeue, cq_op.dequeue, cq_op.dequeue, cq_op.dequeue])).1 = false ∧
    (cq_step (cq_run cq8 (cq_six_enqueues ++ [cq_op.dequeue, cq_op.dequeue])).1
        cq_op.dequeue).1.backpressure =
      (cq_run cq8 (cq_six_enqueues ++ [cq_op.dequeue, cq_op.dequeue])).1.backpressure :=
  ⟨by decide, by decide, by decide,
    (cq_backpressure_hysteresis 3 (fun _ => 0) (fun _ => 0)
      (cq_six_enqueues ++ [cq_op.dequeue, cq_op.dequeue])
      (cq_run cq8 (cq_six_enqueues ++ [cq_op.dequeue, cq_op.dequeue])).1 (by decide)
      rfl).2.2.2 cq_op.dequeue (by decide) (by decide)⟩

theorem cq_step_flag (size : Nat) (q : cqueue_s) (l : List (Nat × Nat)) (op : cq_op)
    (h : cq_rel size q l) (h2 : 2 ≤ size)
    (hf1 : l.length ≥ q.watermark_high → q.backpressure = true)
    (hf2 : l.length ≤ q.watermark_low → q.backpressure = false) :
    ((fifo_step (size - 1) l op).1.length ≥ (cq_step q op).1.watermark_high →
      (cq_step q op).1.backpressure = true) ∧
    ((fifo_step (size - 1) l op).1.length ≤ (cq_step q op).1.watermark_low →
      (cq_step q op).1.backpressure = false) := by
  have hrel1 := (cq_step_refines size q l op h).2
  have hwh1 : (cq_step q op).1.watermark_high = size * 3 / 4 := hrel1.2.2.2.2.2.2.1
  have hwl1 : (cq_step q op).1.watermark_low = size / 4 := hrel1.2.2.2.2.2.2.2.1
  have hwh : q.watermark_high = size * 3 / 4 := h.2.2.2.2.2.2.1
  have hwl : q.watermark_low = size / 4 := h.2.2.2.2.2.2.2.1
  obtain ⟨w1, w2, _⟩ := (cq_watermark_arith size h.1).1 h2
  rw [hwh1, hwl1]
  rw [hwh] at hf1
  rw [hwl] at hf2
  cases op with
  | enqueue data len =>
    simp only [cq_step, fifo_step, fifo_enqueue]
    by_cases hfull : l.length = size - 1
    · rw [(cq_enqueue_full size q l data len h hfull).1, if_pos hfull]
      refine ⟨fun _ => rfl, fun hc => ?_⟩
      change l.length ≤ size / 4 at hc
      omega
    · obtain ⟨_, _, h3⟩ := cq_enqueue_space size q l data len h hfull
      rw [if_neg hfull, h3, hwh]
      simp only [List.length_append, List.length_singleton]
      constructor
      · intro hc
        simp [hc]
      · intro hc
        have hb := hf2 (by omega)
        have : ¬ l.length + 1 ≥ size * 3 / 4 := by omega
        simp [hb, this]
  | dequeue =>
    cases l with
    | nil =>
      simp only [cq_step, fifo_step, fifo_dequeue]
      rw [cq_dequeue_empty size q h]
      exact ⟨hf1, hf2⟩
    | cons x rest =>
      simp only [cq_step, fifo_step, fifo_dequeue]
      obtain ⟨_, _, h3⟩ := cq_dequeue_cons size q x rest h
      simp only [List.length_cons] at hf1 hf2
      rw [h3, hwl]
      constructor
      · intro hc
        have hb := hf1 (by omega)
        have : ¬ rest.length ≤ size / 4 := by omega
        simp [hb, this]
      · intro hc
        simp [hc]

theorem cq_run_flag (size : Nat) (ops : List cq_op) (h2 : 2 ≤ size) :
    ∀ (q : cqueue_s) (l : List (Nat × Nat)), cq_rel size q l →
    (l.length ≥ q.watermark_high → q.backpressure = true) →
    (l.length ≤ q.watermark_low → q.backpressure = false) →
    ((fifo_run (size - 1) l ops).1.length ≥ (cq_run q ops).1.watermark_high →
      (cq_run q ops).1.backpressure = true) ∧
    ((fifo_run (size - 1) l ops).1.length ≤ (cq_run q ops).1.watermark_low →
      (cq_run q ops).1.backpressure = false) := by
  induction ops with
  | nil => intro q l _ hf1 hf2; exact ⟨hf1, hf2⟩
  | cons op ops ih =>
    intro q l h hf1 hf2
    obtain ⟨g1, g2⟩ := cq_step_flag size q l op h h2 hf1 hf2
    exact ih _ _ (cq_step_refines size q l op h).2 g1 g2

/-- C20: the flag/watermark invariant.  In every state `q` reached on a queue
of power-of-two size `2 ^ k` from 2 to 128 made by `cq_create_static`, through
any `cq_enqueue` / `cq_dequeue` calls, with `used = (tail - head) mod size`:
`used >= watermark_high` implies the flag is set, `used <= watermark_low`
implies it is clear, and a failing `cq_enqueue` leaves the flag as it is. -/
theorem cq_flag_watermark_invariant (k : Nat) (buf0 len0 : Nat → Nat) (ops : List cq_op)
    (q : cqueue_s) (hk1 : 1 ≤ k) (hk7 : k ≤ 7)
    (hq : q = (cq_run (cq_create_static buf0 len0 (2 ^ k)) ops).1) :
    (cq_used (2 ^ k) q ≥ q.watermark_high → q.backpressure = true) ∧
    (cq_used (2 ^ k) q ≤ q.watermark_low → q.backpressure = false) ∧
    (∀ data len, (cq_enqueue q data len).2 = -1 →
      (cq_enqueue q data len).1.backpressure = q.backpressure) := by
  have hs := cq_size_ok_pow k hk7
  have hsize : 2 ≤ 2 ^ k := by
    calc 2 = 2 ^ 1 := by norm_num
      _ ≤ 2 ^ k := Nat.pow_le_pow_right (by norm_num) hk1
  have hrel0 := cq_create_static_rel buf0 len0 (2 ^ k) hs
  have hrel := (cq_run_refines (2 ^ k) ops _ _ hrel0).2
  obtain ⟨w1, w2, w3⟩ := (cq_watermark_arith (2 ^ k) hs).1 hsize
  have hflag := cq_run_flag (2 ^ k) ops hsize _ [] hrel0
    (by
      intro hc
      have hwh : (cq_create_static buf0 len0 (2 ^ k)).watermark_high = 2 ^ k * 3 / 4 :=
        hrel0.2.2.2.2.2.2.1
      rw [hwh] at hc
      simp only [List.length_nil] at hc
      omega)
    (fun _ => rfl)
  rw [← hq] at hrel hflag
  have hu := (cq_used_eq _ _ _ hrel).1
  rw [hu]
  refine ⟨hflag.1, hflag.2, ?_⟩
  intro data len hcode
  by_cases hfull : (fifo_run (2 ^ k - 1) [] ops).1.length = 2 ^ k - 1
  · rw [(cq_enqueue_full _ q _ data len hrel hfull).1]
    have hwh : q.watermark_high = 2 ^ k * 3 / 4 := hrel.2.2.2.2.2.2.1
    have := hflag.1 (by rw [hwh, hfull]; exact w2)
    rw [this]
  · exfalso
    rw [(cq_enqueue_space _ q _ data len hrel hfull).1] at hcode
    exact absurd hcode (by decide)

/-- Witness of C20 on the size-8 queue (watermarks 6 and 2).  After six
enqueues the usage 6 reaches the high watermark and the flag is set; after four
further dequeues the usage 2 is at the low watermark and the flag is clear;
after seven enqueues the queue is full, an eighth `cq_enqueue` fails and leaves
the flag as it is. -/
theorem cq_flag_watermark_invariant_witness :
    (cq_used (2 ^ 3) (cq_run cq8 cq_six_enqueues).1 ≥
        (cq_run cq8 cq_six_enqueues).1.watermark_high ∧
      (cq_run cq8 cq_six_enqueues).1.backpressure = true) ∧
    (cq_used (2 ^ 3) (cq_run cq8 (cq_six_enqueues ++
          [cq_op.dequeue, cq_op.dequeue, cq_op.dequeue, cq_op.dequeue])).1 ≤
        (cq_run cq8 (cq_six_enqueues ++
          [cq_op.dequeue, cq_op.dequeue, cq_op.dequeue, cq_op.dequeue])).1.watermark_low ∧
      (cq_run cq8 (cq_six_enqueues ++
        [cq_op.dequeue, cq_op.dequeue, cq_op.dequeue, cq_op.dequeue])).1.backpressure = false) ∧
    ((cq_enqueue (cq_run cq8 (cq_six_enqueues ++ [cq_op.enqueue 17 7])).1 18 8).2 = -1 ∧
      (cq_enqueue (cq_run cq8 (cq_six_enqueues ++ [cq_op.enqueue 17 7])).1 18 8).1.backpressure =
        (cq_run cq8 (cq_six_enqueues ++ [cq_op.enqueue 17 7])).1.backpressure) :=
  ⟨⟨by decide,
      (cq_flag_watermark_invariant 3 (fun _ => 0) (fun _ => 0) cq_six_enqueues
        (cq_run cq8 cq_six_enqueues).1 (by decide) (by decide) rfl).1 (by decide)⟩,
    ⟨by decide,
      (cq_flag_watermark_invariant 3 (fun _ => 0) (fun _ => 0)
        (cq_six_enqueues ++ [cq_op.dequeue, cq_op.dequeue, cq_op.dequeue, cq_op.dequeue])
        (cq_run cq8 (cq_six_enqueues ++
          [cq_op.dequeue, cq_op.dequeue, cq_op.dequeue, cq_op.dequeue])).1
        (by decide) (by decide) rfl).2.1 (by decide)⟩,
    ⟨by decide,
      (cq_flag_watermark_invariant 3 (fun _ => 0) (fun _ => 0)
        (cq_six_enqueues ++ [cq_op.enqueue 17 7])
        (cq_run cq8 (cq_six_enqueues ++ [cq_op.enqueue 17 7])).1
        (by decide) (by decide) rfl).2.2 18 8 (by decide)⟩⟩

/-! ## Address normalisation by the queue -/

theorem get_block_index_resolves (pool : mempool_t) (buffer i idx : Nat)
    (hbs : 0 < pool.block_size) (hptr : buffer < SIZE_MOD) (hbc : pool.block_count ≤ 256)
    (hi : i < pool.block_count) (hlo : pool.memory_area + i * pool.block_size ≤ buffer)
    (hhi : buffer < pool.memory_area + (i + 1) * pool.block_size)
    (hg : get_block_index pool buffer = some (idx : Int)) : idx = i := by
  have hptr1 : buffer < 2 ^ 64 := hptr
  have hdiv : (buffer - pool.memory_area) / pool.block_size = i :=
    Nat.div_eq_of_lt_le (by omega) (by omega)
  have hoff : size_sub buffer pool.memory_area = buffer - pool.memory_area := by
    unfold size_sub SIZE_MOD
    rw [Nat.mod_eq_of_lt (by omega : pool.memory_area < 2 ^ 64)]
    omega
  unfold get_block_index at hg
  by_cases h0 : buffer = 0
  · rw [if_pos h0] at hg
    simp only [Option.some.injEq] at hg
    omega
  rw [if_neg h0] at hg
  simp only [] at hg
  by_cases h1 : size_sub buffer pool.memory_area ≥ size_mul pool.block_size pool.block_count
  · rw [if_pos h1] at hg
    simp only [Option.some.injEq] at hg
    omega
  rw [if_neg h1, if_neg (by omega : ¬ pool.block_size = 0), hoff, hdiv] at hg
  simp only [Option.some.injEq] at hg
  have h32 : i % 2 ^ 32 = i := Nat.mod_eq_of_lt (by omega)
  unfold to_int at hg
  rw [h32, if_pos (by omega)] at hg
  omega

theorem block_start_no_wrap (pool : mempool_t) (m : Nat)
    (h : pool.memory_area + m * pool.block_size < SIZE_MOD) :
    ptr_add pool.memory_area (size_mul m pool.block_size) =
      pool.memory_area + m * pool.block_size := by
  have h2 : m * pool.block_size < SIZE_MOD := by omega
  unfold ptr_add size_mul
  rw [Nat.mod_eq_of_lt h2, Nat.mod_eq_of_lt h]

/-- C21: address normalisation.  Over a pool with a non-zero `block_size`, for
a block index `i < block_count` and a pointer `buffer` with
`memory_area + i*block_size <= buffer < memory_area + (i+1)*block_size`: if
`mempool_queue_enqueue(queue, buffer)` succeeds on an empty queue, the following
`mempool_queue_dequeue` returns `memory_area + i*block_size`, the start of the
containing block; so it returns `buffer` itself exactly when `buffer` is that
start address.  The address `mempool_alloc` returns for a block `m` is the
code's `memory_area + m * block_size`, which is the start address of block `m`
whenever that address fits a pointer. -/
theorem mempool_queue_normalises_address (pool : mempool_t) (capacity : Nat)
    (ring0 : Nat → Nat) (queue0 queue queue1 : mempool_queue_t) (ops : List queue_op)
    (buffer i : Nat) (hpool : pool_reachable pool) (hbs : 0 < pool.block_size)
    (hcreate : mempool_queue_create pool capacity ring0 = some queue0)
    (hrun : queue_run queue0 ops = some queue) (hempty : queue.count = 0)
    (hi : i < pool.block_count) (hptr : buffer < SIZE_MOD)
    (hlo : pool.memory_area + i * pool.block_size ≤ buffer)
    (hhi : buffer < pool.memory_area + (i + 1) * pool.block_size)
    (henq : mempool_queue_enqueue queue buffer = some (queue1, 0)) :
    (mempool_queue_dequeue queue1).2 = some (pool.memory_area + i * pool.block_size) ∧
    ((mempool_queue_dequeue queue1).2 = some buffer ↔
      buffer = pool.memory_area + i * pool.block_size) ∧
    (∀ for_hw a, (mempool_alloc pool for_hw).2 = some a →
      ∃ m, m < pool.block_count ∧
        a = ptr_add pool.memory_area (size_mul m pool.block_size) ∧
        (pool.memory_area + m * pool.block_size < SIZE_MOD →
          a = pool.memory_area + m * pool.block_size)) := by
  have hwf := pool_reachable_wf pool hpool
  obtain ⟨s1, s2, _, s4, _⟩ :=
    mempool_queue_create_inv pool capacity ring0 queue0 hwf.2.2.2.2 hcreate
  obtain ⟨t1, t2, t3, _⟩ := queue_run_inv ops queue0 queue s1 s2 hrun
  have hqpool : queue.pool = pool := by rw [t3, s4]
  obtain ⟨idx, _, hcnt, hg, hidx, hbit, hq1⟩ :=
    mempool_queue_enqueue_success queue queue1 buffer henq
  rw [hqpool] at hg
  have hidx_eq : idx = i :=
    get_block_index_resolves pool buffer i idx hbs hptr hwf.2.2.2.2 hi hlo hhi hg
  subst hidx_eq
  have hq1' : queue1 = enqueue_mark queue idx := hq1
  obtain ⟨u1, u2⟩ := enqueue_mark_inv queue idx t1 t2 hcnt hidx hbit
  have hent := ring_entries_enqueue_mark queue idx t1 t2 hcnt hidx
  have hent0 : ring_entries queue = [] := by
    unfold ring_entries; rw [hempty]; rfl
  rw [hent0, List.nil_append] at hent
  have hcount1 : 0 < (enqueue_mark queue idx).count := by
    have : (ring_entries (enqueue_mark queue idx)).length = (enqueue_mark queue idx).count := by
      simp [ring_entries]
    rw [← this, hent]
    exact Nat.one_pos
  obtain ⟨e, rest, he, hres, _⟩ :=
    mempool_queue_dequeue_inv (enqueue_mark queue idx) u1 u2 hcount1
  rw [hent] at he
  simp only [List.cons.injEq] at he
  have hpool1 : (enqueue_mark queue idx).pool = pool := hqpool
  rw [← he.1, hpool1, block_start_no_wrap pool idx (by omega)] at hres
  rw [hq1']
  refine ⟨hres, ?_, ?_⟩
  · rw [hres]
    constructor
    · intro h
      simp only [Option.some.injEq] at h
      exact h.symm
    · intro h
      rw [h]
  · intro for_hw a ha
    rcases mempool_alloc_cases pool for_hw hwf with ⟨_, h⟩ | ⟨m, hm, _, _, h⟩
    · rw [h] at ha; cases ha
    · rw [h] at ha
      simp only [Option.some.injEq] at ha
      exact ⟨m, hm, ha.symm, fun hfit => by rw [← ha, block_start_no_wrap pool m hfit]⟩

/-- Witness of C21: the pointer 4165 into block 1 of the 8-block pool goes
through the fresh queue `queue4` and comes back as 4160, the start of block 1. -/
theorem mempool_queue_normalises_address_witness :
    mempool_queue_enqueue queue4 4165 = some (queue4_block1, 0) ∧
    (mempool_queue_dequeue queue4_block1).2 = some (pool8.memory_area + 1 * pool8.block_size) ∧
    ((mempool_queue_dequeue queue4_block1).2 = some 4165 ↔
      4165 = pool8.memory_area + 1 * pool8.block_size) :=
  ⟨by decide,
    (mempool_queue_normalises_address pool8 4 (fun _ => 7) queue4 queue4 queue4_block1 [] 4165 1
      ⟨4096, 64, 8, pool8, [], pool8_created, rfl⟩ (by decide) queue4_created rfl rfl
      (by decide) (by decide) (by decide) (by decide) (by decide)).1,
    (mempool_queue_normalises_address pool8 4 (fun _ => 7) queue4 queue4 queue4_block1 [] 4165 1
      ⟨4096, 64, 8, pool8, [], pool8_created, rfl⟩ (by decide) queue4_created rfl rfl
      (by decide) (by decide) (by decide) (by decide) (by decide)).2.1⟩

/-! ## Division safety -/

theorem zero_block_size_range_check (pool : mempool_t) (ptr : Nat)
    (h0 : pool.block_size = 0) :
    (ptr = 0 ∨ ptr < pool.memory_area ∨
      ptr ≥ ptr_add pool.memory_area (size_mul pool.block_size pool.block_count)) ∧
    (ptr = 0 ∨
      size_sub ptr pool.memory_area ≥ size_mul pool.block_size pool.block_count) := by
  have hmul : size_mul pool.block_size pool.block_count = 0 := by
    rw [h0]; simp [size_mul]
  rw [hmul]
  refine ⟨?_, Or.inr (Nat.zero_le _)⟩
  by_cases hlt : ptr < pool.memory_area
  · exact Or.inr (Or.inl hlt)
  · refine Or.inr (Or.inr ?_)
    have hle : ptr_add pool.memory_area 0 ≤ pool.memory_area := by
      unfold ptr_add
      exact Nat.mod_le _ _
    omega

theorem zero_block_size_rejects (queue : mempool_queue_t) (ptr : Nat)
    (h0 : queue.pool.block_size = 0) :
    mempool_free queue.pool ptr = some queue.pool ∧
    get_block_index queue.pool ptr = some (-1) ∧
    mempool_queue_enqueue queue ptr = some (queue, -1) := by
  obtain ⟨hf, hg⟩ := zero_block_size_range_check queue.pool ptr h0
  have hidx : get_block_index queue.pool ptr = some (-1) := by
    unfold get_block_index
    by_cases hp : ptr = 0
    · rw [if_pos hp]
    · rw [if_neg hp]
      simp only []
      rw [if_pos (hg.resolve_left hp)]
  refine ⟨?_, hidx, ?_⟩
  · unfold mempool_free
    by_cases hp : ptr = 0
    · rw [if_pos hp]
    · rw [if_neg hp, if_pos (hf.resolve_left hp)]
  · unfold mempool_queue_enqueue
    by_cases hc : ptr = 0 ∨ queue.count ≥ queue.capacity
    · rw [if_pos hc]
    · rw [if_neg hc, hidx]
      simp only []
      rw [if_pos (Or.inl (by decide))]

/-- C22: division safety.  For every pool state reached from a pool that
`mempool_create` produced, every queue bound to it and every pointer argument,
`mempool_free`, `get_block_index` and `mempool_queue_enqueue` return without a
division by a zero `block_size` (the model returns `none` exactly at such a
division).  `data_size = 0` gives `block_size = 0`, and when `block_size` is 0
the range check that precedes the division holds for every pointer, so
`mempool_free` returns with the pool unchanged and `get_block_index` returns
-1, which `mempool_queue_enqueue` reports as -1. -/
theorem mempool_division_safety (base data_size num_blocks : Nat) (pool0 pool : mempool_t)
    (ops : List pool_op) (queue : mempool_queue_t) (ptr : Nat)
    (hcreate : mempool_create base data_size num_blocks = some pool0)
    (hrun : pool_run pool0 ops = some pool) (hq : queue.pool = pool) :
    (∃ pool1, mempool_free pool ptr = some pool1) ∧
    (∃ r, get_block_index pool ptr = some r) ∧
    (∃ r, mempool_queue_enqueue queue ptr = some r) ∧
    (data_size = 0 → pool.block_size = 0) ∧
    (pool.block_size = 0 →
      (ptr = 0 ∨ ptr < pool.memory_area ∨
        ptr ≥ ptr_add pool.memory_area (size_mul pool.block_size pool.block_count)) ∧
      (ptr = 0 ∨ size_sub ptr pool.memory_area ≥ size_mul pool.block_size pool.block_count) ∧
      mempool_free pool ptr = some pool ∧
      get_block_index pool ptr = some (-1) ∧
      mempool_queue_enqueue queue ptr = some (queue, -1)) := by
  obtain ⟨_, _, _, _, _, hsize, hwf0, _, _⟩ :=
    mempool_create_spec base data_size num_blocks pool0 hcreate
  have hbs : pool.block_size = pool0.block_size := (pool_run_wf ops pool0 pool hwf0 hrun).2.2.1
  refine ⟨mempool_free_total pool ptr, get_block_index_total pool ptr,
    mempool_queue_enqueue_total queue ptr, ?_, ?_⟩
  · intro hds
    rw [hbs, hsize, aligned_size_eq, hds]
    decide
  · intro h0
    subst hq
    obtain ⟨r1, r2⟩ := zero_block_size_range_check queue.pool ptr h0
    exact ⟨r1, r2, zero_block_size_rejects queue ptr h0⟩

/-- Witness of C22: the pool created with `data_size = 0` has `block_size = 0`,
and the pointer 4096 to its base is rejected by `mempool_free`,
`get_block_index` and `mempool_queue_enqueue` without any division. -/
theorem mempool_division_safety_witness :
    mempool_create 4096 0 2 = some pool2_data0 ∧
    pool2_data0.block_size = 0 ∧
    mempool_free pool2_data0 4096 = some pool2_data0 ∧
    get_block_index pool2_data0 4096 = some (-1) ∧
    mempool_queue_enqueue queue2_data0 4096 = some (queue2_data0, -1) :=
  ⟨by decide,
    (mempool_division_safety 4096 0 2 pool2_data0 pool2_data0 [] queue2_data0 4096
      (by decide) rfl rfl).2.2.2.1 rfl,
    ((mempool_division_safety 4096 0 2 pool2_data0 pool2_data0 [] queue2_data0 4096
      (by decide) rfl rfl).2.2.2.2 rfl).2.2⟩

/-! ## Duplicate protection -/

theorem mempool_queue_enqueue_member (queue : mempool_queue_t) (buffer idx : Nat)
    (hg : get_block_index queue.pool buffer = some (idx : Int))
    (hidx : idx < queue.pool.block_count)
    (hbit : bitmap_bit queue.queue_bitmap idx = true) :
    mempool_queue_enqueue queue buffer = some (queue, -1) := by
  unfold mempool_queue_enqueue
  by_cases c1 : buffer = 0 ∨ queue.count ≥ queue.capacity
  · rw [if_pos c1]
  rw [if_neg c1, hg]
  simp only [Int.toNat_natCast]
  have c2 : ¬ ((idx : Int) < 0 ∨ idx ≥ queue.pool.block_count) := by omega
  rw [if_neg c2, if_pos ((bitmap_bit_eq_mask _ _).2 hbit)]

theorem enqueue_mark_keeps_member (queue : mempool_queue_t) (idx m : Nat)
    (hlen : queue.queue_bitmap.length = 4) (hm : m < 256)
    (hbit : bitmap_bit queue.queue_bitmap idx = true ∨ idx = m) :
    (enqueue_mark queue m).queue_bitmap.length = 4 ∧
    (enqueue_mark queue m).pool = queue.pool ∧
    bitmap_bit (enqueue_mark queue m).queue_bitmap idx = true := by
  refine ⟨?_, rfl, ?_⟩
  · unfold enqueue_mark
    simp only [List.length_set]
    exact hlen
  · unfold enqueue_mark
    simp only []
    rw [bitmap_bit_setbit _ m idx (by omega)]
    rcases hbit with h | h
    · rw [h]; rfl
    · simp [h]

theorem queue_step_keeps_member (queue queue1 : mempool_queue_t) (op : queue_op) (idx : Nat)
    (hlen : queue.queue_bitmap.length = 4) (hbc : queue.pool.block_count ≤ 256)
    (hop : is_dequeue_op op = false)
    (hbit : bitmap_bit queue.queue_bitmap idx = true)
    (h : queue_step queue op = some queue1) :
    queue1.queue_bitmap.length = 4 ∧ queue1.pool = queue.pool ∧
    bitmap_bit queue1.queue_bitmap idx = true := by
  cases op with
  | enqueue buffer =>
    simp only [queue_step] at h
    cases hr : mempool_queue_enqueue queue buffer with
    | none => rw [hr] at h; cases h
    | some r =>
      obtain ⟨q, code⟩ := r
      rw [hr] at h
      simp only [Option.map_some', Option.some.injEq] at h
      subst h
      rcases mempool_queue_enqueue_cases queue q buffer code hr with
        ⟨hq, _⟩ | ⟨_, m, _, _, _, hm, _, hq⟩
      · rw [hq]; exact ⟨hlen, rfl, hbit⟩
      · rw [hq]
        exact enqueue_mark_keeps_member queue idx m hlen (by omega) (Or.inl hbit)
  | dequeue => cases hop
  | peek =>
    simp only [queue_step, Option.some.injEq] at h
    subst h
    exact ⟨hlen, rfl, hbit⟩
  | dequeue_batch max_count => cases hop

theorem queue_run_keeps_member (ops : List queue_op) (idx : Nat) :
    ∀ (queue queue1 : mempool_queue_t), queue.queue_bitmap.length = 4 →
    queue.pool.block_count ≤ 256 → (∀ op ∈ ops, is_dequeue_op op = false) →
    bitmap_bit queue.queue_bitmap idx = true → queue_run queue ops = some queue1 →
    queue1.pool = queue.pool ∧ bitmap_bit queue1.queue_bitmap idx = true := by
  induction ops with
  | nil =>
    intro queue queue1 _ _ _ hbit h
    simp only [queue_run, Option.some.injEq] at h
    subst h
    exact ⟨rfl, hbit⟩
  | cons op ops ih =>
    intro queue queue1 hlen hbc hops hbit h
    simp only [queue_run] at h
    cases hstep : queue_step queue op with
    | none => rw [hstep] at h; cases h
    | some q =>
      rw [hstep] at h
      simp only [Option.some_bind] at h
      obtain ⟨g1, g2, g3⟩ := queue_step_keeps_member queue q op idx hlen hbc
        (hops op (List.mem_cons_self _ _)) hbit hstep
      obtain ⟨k1, k2⟩ := ih q queue1 g1 (by rw [g2]; exact hbc)
        (fun o ho => hops o (List.mem_cons_of_mem _ ho)) g3 h
      exact ⟨by rw [k1, g2], k2⟩

/-- C8: duplicate protection.  If `mempool_queue_enqueue(queue, b1)` succeeds
and `b2` resolves to the same block index of the bound pool as `b1`, then after
any further calls that are not dequeues (`mempool_queue_enqueue` of any
buffers, accepted or rejected, and `mempool_queue_peek`) the calls run to a
state in which `mempool_queue_enqueue(queue, b2)` returns `-1` and leaves the
queue state unchanged: ring, head, tail, count and membership bitmap. -/
theorem mempool_queue_enqueue_duplicate (queue queue1 : mempool_queue_t)
    (ops : List queue_op) (b1 b2 : Nat) (hwf : queue_wf queue)
    (hsame : get_block_index queue.pool b2 = get_block_index queue.pool b1)
    (h1 : mempool_queue_enqueue queue b1 = some (queue1, 0))
    (hops : ∀ op ∈ ops, is_dequeue_op op = false) :
    (∃ queue2, queue_run queue1 ops = some queue2) ∧
    (∀ queue2, queue_run queue1 ops = some queue2 →
      mempool_queue_enqueue queue2 b2 = some (queue2, -1)) := by
  refine ⟨queue_run_total ops queue1, ?_⟩
  intro queue2 hrun
  obtain ⟨idx, _, _, hg, hidx, _, hq1⟩ := mempool_queue_enqueue_success queue queue1 b1 h1
  have hq1' : queue1 = enqueue_mark queue idx := hq1
  have hbc : queue.pool.block_count ≤ 256 := hwf.2
  obtain ⟨m1, m2, m3⟩ :=
    enqueue_mark_keeps_member queue idx idx hwf.1 (by omega) (Or.inr rfl)
  rw [← hq1'] at m1 m2 m3
  obtain ⟨k1, k2⟩ := queue_run_keeps_member ops idx queue1 queue2 m1
    (by rw [m2]; exact hbc) hops m3 hrun
  have hpool : queue2.pool = queue.pool := by rw [k1, m2]
  exact mempool_queue_enqueue_member queue2 b2 idx (by rw [hpool, hsame, hg])
    (by rw [hpool]; exact hidx) k2

/-- Witness of C8: on the empty queue `queue4`, enqueueing the block at 4096
twice gives 0 and then -1 and the count stays 1; and after a further enqueue of
block 1 and a peek, the pointer 4100 into block 0 is still rejected. -/
theorem mempool_queue_enqueue_duplicate_witness :
    mempool_queue_enqueue queue4 4096 = some (queue4_one, 0) ∧
    mempool_queue_enqueue queue4_one 4096 = some (queue4_one, -1) ∧
    mempool_queue_count queue4_one = 1 ∧
    queue_run queue4_one [queue_op.enqueue 4160, queue_op.peek] = some queue4_two ∧
    mempool_queue_enqueue queue4_two 4100 = some (queue4_two, -1) :=
  ⟨by decide,
    (mempool_queue_enqueue_duplicate queue4 queue4_one [] 4096 4096 ⟨rfl, by decide⟩ rfl
      (by decide) (by decide)).2 queue4_one rfl,
    rfl,
    by decide,
    (mempool_queue_enqueue_duplicate queue4 queue4_one [queue_op.enqueue 4160, queue_op.peek]
      4096 4100 ⟨rfl, by decide⟩ (by decide) (by decide) (by decide)).2 queue4_two (by decide)⟩

end Mempool
